import Mathlib

/-!
# N-Gram-Data-Structure: a shallow embedding of the Elias-Fano trie

The development follows the C++ sources `EF_encoder.h`, `node.h` and `trie.h`.

Conventions of the embedding.

* A C++ value of type `size_t` is a natural number below `2 ^ 64`; additions and
  subtractions of such values are written `add64` and `sub64` and wrap.
* Positions inside vectors and loop counters are natural numbers.  Reading a vector
  outside its bounds, dereferencing a null pointer, indexing a `bitset<64>` at 64 or
  beyond, converting an infinite `double` to `int`, and overflowing an `int` are
  undefined in C++; every operation of the embedding returns an `Option`, and `none`
  stands for an execution that runs into one of these.
* A `Node*` is a natural number, the null pointer is `0`, and the heap is the list of
  the `Node` objects allocated so far together with their addresses.
* The calls `ceil(log2(x))`, `pow(2, n)` and `floor(num / 2)` go through `double` in
  the source.  `ceilLog2` follows the rounding of the conversion to `double` and of
  `log2`, which makes it differ from the exact ceiling from `2 ^ 49 + 1` on.  The power
  `pow(2, n)` is exact.  The numbers halved by `floor(num / 2)` have their
  `lowerBitNum_` lower bits cleared, which leaves them at most
  `maxBits_ - lowerBitNum_` significant bits, fewer than 53 for every sequence of fewer
  than `2 ^ 50` elements, so that the conversion to `double` and back changes nothing;
  both calls are written with the integer operations.
* The constructor of the trie reads its records from a stream.  The embedding takes the
  list of the records of an input that ends with a newline after the last count,
  together with the text of that last count (`BuildEnv.lastWord`), which the failed
  read at the end of the input leaves in `word`.
-/



namespace NGram

/-! ## EF_encoder.h -/

/-- Width of the bitsets, `const int bits = 64`. -/
def bits : Nat := 64

/-- Addition of two `size_t` values. -/
def add64 (a b : Nat) : Nat := (a + b) % 2 ^ bits

/-- Subtraction of two `size_t` values. -/
def sub64 (a b : Nat) : Nat := (a + (2 ^ bits - b % 2 ^ bits)) % 2 ^ bits

/-- Exact ceiling of the binary logarithm: the least `k ≤ 64` with `x ≤ 2 ^ k`. -/
def exactCeilLog2 (x : Nat) : Option Nat :=
  (List.range (bits + 1)).find? (fun k => decide (x ≤ 2 ^ k))

/-- Conversion `(double)x` of a `size_t`: the nearest number with 53 significant bits,
a tie going to the even one.  Below `2 ^ 53` the conversion is exact; between
`2 ^ (52 + e)` and `2 ^ (53 + e)` doubles are `2 ^ e` apart. -/
def toDouble (x : Nat) : Nat :=
  match (List.range 12).find? (fun e => decide (x < 2 ^ (53 + e))) with
  | none => x
  | some e =>
    if 2 ^ e < 2 * (x % 2 ^ e) ∨ (2 * (x % 2 ^ e) = 2 ^ e ∧ x / 2 ^ e % 2 = 1) then
      (x / 2 ^ e + 1) * 2 ^ e
    else x / 2 ^ e * 2 ^ e

/-- The call `ceil(log2(x))` assigned to an `int` (lines 67 and 83).  The argument is
converted to `double`, and `log2` returns the double nearest to the logarithm.  With
`d = (double)x` and `2 ^ k < d ≤ 2 ^ (k + 1)`, the logarithm of `d` lies less than half
a unit in the last place above `k` exactly when `d ≤ 2 ^ k * (1 + 11 / 2 ^ 52)`
(the doubles between 32 and 64 are `2 ^ (-47)` apart and `11 / ln 2 < 16 < 12 / ln 2`);
`log2` then returns `k` and the ceiling is `k`, one less than the exact value.  The
smallest integer this happens to is `2 ^ 49 + 1`.  For `x = 0` the source computes
`log2(0) = -inf`, whose conversion to `int` is undefined. -/
def ceilLog2 (x : Nat) : Option Nat :=
  if x = 0 then none
  else do
    let c ← exactCeilLog2 (toDouble x)
    if toDouble x * 2 ^ 52 ≤ (2 ^ 52 + 11) * 2 ^ (c - 1) then some (c - 1) else some c

/-- Assignment `b[pos] = v` on a `bitset<64>` holding the number `b`. -/
def bitsetAssign (b : Nat) (pos : Nat) (v : Bool) : Option Nat :=
  if pos < bits then some (if b.testBit pos = v then b else b ^^^ 2 ^ pos) else none

/-- Read `b[pos]` of a `bitset<64>` holding the number `b`. -/
def bitsetTest (b : Nat) (pos : Nat) : Option Bool :=
  if pos < bits then some (b.testBit pos) else none

/-- Data members of `class Encoder`.  When `size_` is 1 the source leaves
`lowerBitNum_` uninitialised and never reads it; the embedding stores 0 there. -/
structure Encoder where
  bitSequence_ : List Bool
  maxBits_ : Nat
  size_ : Nat
  lowerBitNum_ : Nat
deriving DecidableEq, Repr

/-- Lower bits pushed by the first double loop of the constructor (lines 89-94):
for `i` in `0 .. size_` and `j` in `0 .. lowerBitNum_`, bit `j` of element
`size_ - i - 1`. -/
def lowerRegion (sequence : List Nat) (size lowerBitNum : Nat) : List Bool :=
  (List.range size).flatMap fun i =>
    (List.range lowerBitNum).map fun j => (sequence.getD (size - i - 1) 0).testBit j

/-- Effect of line 93 on one element of `bitRepSequence`: the bits
`0 .. lowerBitNum_` of the 64-bit value are set to zero, one after the other. -/
def clearLower (lowerBitNum : Nat) (v : Nat) : Nat :=
  (List.range lowerBitNum).foldl (fun b j => if b.testBit j then b ^^^ 2 ^ j else b)
    (v % 2 ^ bits)

/-- Lines 105-106: `num = floor(num / 2)`, repeated `lowerBitNum_` times. -/
def halve (lowerBitNum : Nat) (num : Nat) : Nat :=
  (List.range lowerBitNum).foldl (fun n _ => n / 2) num

/-- Lines 100-109: every element increments the bucket of its upper bits.  An index
outside `highBitBuckets` is out of bounds. -/
def countHigh (lowerBitNum : Nat) : List Nat → List Nat → Option (List Nat)
  | highBitBuckets, [] => some highBitBuckets
  | highBitBuckets, b :: rest =>
    let num := halve lowerBitNum b
    if num < highBitBuckets.length then
      countHigh lowerBitNum (highBitBuckets.set num (highBitBuckets.getD num 0 + 1)) rest
    else none

/-- Lines 112-118: every bucket contributes a 0 followed by as many 1s as it counts. -/
def upperRegion (highBitBuckets : List Nat) : List Bool :=
  highBitBuckets.flatMap fun c => false :: List.replicate c true

/-- Constructor `Encoder::Encoder(vector<size_t> sequence)`.  `sequence.back()` of
an empty vector is undefined.  The difference `maxBits_ - lowerBitNum_` is never
negative: with two or more elements the quotient is at most half of the last element
(`ceilLog2_quotient`). -/
def Encoder.new (sequence : List Nat) : Option Encoder := do
  let back ← sequence.getLast?
  let maxBits := (← ceilLog2 back) + 1
  let size := sequence.length
  if size = 1 then
    some { bitSequence_ := (List.range bits).map fun i => (sequence.getD 0 0).testBit i,
           maxBits_ := maxBits, size_ := size, lowerBitNum_ := 0 }
  else
    let lowerBitNum0 ← ceilLog2 (back / size)
    let highBitNum := maxBits - lowerBitNum0
    let lowerBitNum := maxBits - highBitNum
    let bitRepSequence := sequence.map (clearLower lowerBitNum)
    let highBitBuckets ←
      countHigh lowerBitNum (List.replicate (2 ^ highBitNum) 0) bitRepSequence
    some { bitSequence_ := lowerRegion sequence size lowerBitNum ++ upperRegion highBitBuckets,
           maxBits_ := maxBits, size_ := size, lowerBitNum_ := lowerBitNum }

/-- Loop `for (i = 0; i != n; ++i) binaryElement[off + i] = src(i)` on the bitset `b`. -/
def copyBits (src : Nat → Option Bool) (off : Nat) (n : Nat) (b : Nat) : Option Nat :=
  (List.range n).foldlM (fun acc i => do bitsetAssign acc (off + i) (← src i)) b

/-- Loop of lines 151-154 over the upper region: advance `pos` until `count` reaches
`target`; running off the end of the bit sequence is out of bounds. -/
def selectScan (target : Nat) : List Bool → Nat → Nat → Option Nat
  | [], count, pos => if count = target then some pos else none
  | bit :: rest, count, pos =>
    if count = target then some pos
    else selectScan target rest (if bit then count + 1 else count) (pos + 1)

/-- Method `Encoder::access(rank)`. -/
def Encoder.access (e : Encoder) (rank : Nat) : Option Nat :=
  if e.size_ = 1 then
    copyBits (fun i => e.bitSequence_[i]?) 0 e.bitSequence_.length 0
  else do
    let low ← copyBits
      (fun i => e.bitSequence_[sub64 (sub64 e.size_ rank) 1 * e.lowerBitNum_ + i]?)
      0 e.lowerBitNum_ 0
    let pos ← selectScan (rank + 1) (e.bitSequence_.drop (e.lowerBitNum_ * e.size_)) 0 0
    let highNum := sub64 (sub64 pos rank) 2
    copyBits (fun i => bitsetTest highNum i) e.lowerBitNum_ (e.maxBits_ - e.lowerBitNum_) low

/-- Index of the bucket that holds the `k`-th one (counting from 1) of the unary
code of `cs`; used to state where `selectScan` stops. -/
def bucketOf : List Nat → Nat → Nat
  | [], _ => 0
  | c :: rest, k => if k ≤ c then 0 else bucketOf rest (k - c) + 1

/-! ## node.h -/

/-- Body of the loops `if (i != 0) v[i] = v[i] + v[i - 1]` (node.h lines 243-245,
253-260, 361-363, 370-372) after the first element: `prev` is the value already
stored at `i - 1`. -/
def cumulativeLoop : Nat → List Nat → List Nat
  | _, [] => []
  | prev, x :: xs => add64 x prev :: cumulativeLoop (add64 x prev) xs

/-- In-place running sum of a vector of `size_t`; the first element stays. -/
def cumulativeSum : List Nat → List Nat
  | [] => []
  | x :: xs => x :: cumulativeLoop x xs

/-- Expression `e->access(i) - e->access(i - 1)` when `i != 0` and `e->access(0)`
otherwise, which recovers the `i`-th summand from an encoded running sum. -/
def decodeAt (e : Encoder) (i : Nat) : Option Nat :=
  if i ≠ 0 then do
    let a ← e.access i
    let b ← e.access (i - 1)
    some (sub64 a b)
  else e.access 0

/-- Data members of `class SortedEF`. -/
structure SortedEF where
  grams_ : Encoder
  pointers_ : Encoder
  size_ : Nat
deriving DecidableEq, Repr

/-- Data members of `class HashmapEF`. -/
structure HashmapEF where
  grams_ : Encoder
  pointers_ : Encoder
  size_ : Nat
deriving DecidableEq, Repr

/-- Data members of `class Node`; a null `successors_` or `topK_` is `none`.  The
static member `k_` is passed to the constructor as an argument. -/
structure Node where
  gram_ : Nat
  frequency_ : Nat
  successors_ : Option HashmapEF
  topK_ : Option SortedEF
deriving DecidableEq, Repr

/-- The two vocabulary maps `Encoder::vocabS2ID_` and `Encoder::vocabID2S_`, read
with `operator[]`: a word that is not a key yields 0, an id that is not a key yields
the empty string. -/
structure Vocab where
  vocabS2ID : String → Nat
  vocabID2S : Nat → String

/-- Heap of `Node` objects: address and contents of every node allocated so far. -/
abbrev Heap := List (Nat × Node)

/-- Dereference of a `Node*`; null and unallocated addresses are undefined. -/
def Heap.deref (heap : Heap) (p : Nat) : Option Node :=
  if p = 0 then none else heap.lookup p

/-- Constructor `SortedEF::SortedEF(const vector<Node*>& nodes)`. -/
def SortedEF.new (heap : Heap) (nodes : List Nat) : Option SortedEF := do
  let gramIDs ← nodes.mapM fun p => (heap.deref p).map Node.gram_
  let gramPointers := nodes
  let pointers ← Encoder.new (cumulativeSum gramPointers)
  let grams ← Encoder.new (cumulativeSum gramIDs)
  some { grams_ := grams, pointers_ := pointers, size_ := nodes.length }

/-- Search loop of `SortedEF::get` (lines 405-414) over the remaining values of `i`;
the result is the position at which the id was found, if any. -/
def SortedEF.getLoop (s : SortedEF) (ID : Nat) : List Nat → Option (Option Nat)
  | [] => some none
  | i :: rest => do
    let elementID ← decodeAt s.grams_ i
    if elementID = ID then some (some i) else SortedEF.getLoop s ID rest

/-- Method `SortedEF::get(gramName)`; the result 0 is the null pointer. -/
def SortedEF.get (vocab : Vocab) (s : SortedEF) (gramName : String) : Option Nat := do
  let ID := vocab.vocabS2ID gramName
  match ← SortedEF.getLoop s ID (List.range s.size_) with
  | some i => decodeAt s.pointers_ i
  | none => some 0

/-- Method `SortedEF::getRank(rank)`. -/
def SortedEF.getRank (s : SortedEF) (rank : Nat) : Option Nat :=
  if rank > s.size_ then some 0 else decodeAt s.pointers_ rank

/-- Method `HashmapEF::hash(ID)`, `ID % size_`; the remainder by 0 is undefined. -/
def HashmapEF.hash (size ID : Nat) : Option Nat :=
  if size = 0 then none else some (ID % size)

/-- Linear probing loop of the constructor (lines 230-239) for one node, over the
remaining values of `j`: the first empty slot receives the gram id and the pointer. -/
def HashmapEF.insertLoop (size gramID node hashValue : Nat) :
    List Nat → List (Option Nat) × List Nat → Option (List (Option Nat) × List Nat)
  | [], tables => some tables
  | j :: rest, (gramSlots, gramPointers) => do
    let slot ← HashmapEF.hash size (add64 hashValue j)
    match gramSlots[slot]? with
    | none => none
    | some none => some (gramSlots.set slot (some gramID), gramPointers.set slot node)
    | some (some _) =>
      HashmapEF.insertLoop size gramID node hashValue rest (gramSlots, gramPointers)

/-- Outer loop of the constructor (lines 225-240) over the nodes. -/
def HashmapEF.fill (heap : Heap) (size : Nat) :
    List Nat → List (Option Nat) × List Nat → Option (List (Option Nat) × List Nat)
  | [], tables => some tables
  | p :: rest, tables => do
    let n ← heap.deref p
    let tables ← HashmapEF.insertLoop size n.gram_ p n.gram_ (List.range size) tables
    HashmapEF.fill heap size rest tables

/-- Constructor `HashmapEF::HashmapEF(const vector<Node*>& nodes)`.  A slot of the
gram table that stayed empty is a null `size_t*`, dereferenced at lines 257-259. -/
def HashmapEF.new (heap : Heap) (nodes : List Nat) : Option HashmapEF := do
  let size := nodes.length
  let (gramSlots, gramPointers) ←
    HashmapEF.fill heap size nodes (List.replicate size none, List.replicate size 0)
  let pointers ← Encoder.new (cumulativeSum gramPointers)
  let nonPointerGrams ← gramSlots.mapM id
  let grams ← Encoder.new (cumulativeSum nonPointerGrams)
  some { grams_ := grams, pointers_ := pointers, size_ := size }

/-- Probe loop of `HashmapEF::get` (lines 294-308) over the remaining values of `i`;
the result is the slot at which the id was found, if any. -/
def HashmapEF.getLoop (h : HashmapEF) (ID index : Nat) : List Nat → Option (Option Nat)
  | [] => some none
  | i :: rest => do
    let slot ← HashmapEF.hash h.size_ (add64 index i)
    let elementID ← decodeAt h.grams_ slot
    if elementID = ID then some (some slot) else HashmapEF.getLoop h ID index rest

/-- Method `HashmapEF::get(gramName)`; the result 0 is the null pointer. -/
def HashmapEF.get (vocab : Vocab) (h : HashmapEF) (gramName : String) : Option Nat := do
  let ID := vocab.vocabS2ID gramName
  let index ← HashmapEF.hash h.size_ ID
  match ← HashmapEF.getLoop h ID index (List.range h.size_) with
  | some index => decodeAt h.pointers_ index
  | none => some 0

/-- The calls `sort(..., [](Node* a, Node* b) { return *a < *b; })` and `reverse`:
the pointers ordered by decreasing frequency.  `std::sort` leaves the order of nodes
of equal frequency open; the embedding fixes the one of insertion sort. -/
def sortDescending (heap : Heap) (ptrs : List Nat) : Option (List Nat) := do
  let withFreq ← ptrs.mapM fun p => (heap.deref p).map fun n => (p, n.frequency_)
  some (((withFreq.insertionSort fun a b => a.2 ≤ b.2).reverse).map Prod.fst)

/-- Method `HashmapEF::getRank(rank)`. -/
def HashmapEF.getRank (heap : Heap) (h : HashmapEF) (rank : Nat) : Option Nat :=
  if rank > h.size_ then some 0
  else do
    let sortedList ← (List.range h.size_).mapM (decodeAt h.pointers_)
    let sortedList ← sortDescending heap sortedList
    sortedList[rank]?

/-- Constructor `Node::Node(gramID, freq, k, successors)`. -/
def Node.new (heap : Heap) (gramID freq k : Nat) (successors : List Nat) : Option Node :=
  if successors.length = 0 then
    some { gram_ := gramID, frequency_ := freq, successors_ := none, topK_ := none }
  else do
    let successors ← sortDescending heap successors
    let sortedTopK :=
      successors.take (if k + 1 ≥ successors.length then successors.length else k)
    let topK ← SortedEF.new heap sortedTopK
    if k + 1 ≥ successors.length then
      some { gram_ := gramID, frequency_ := freq, successors_ := none, topK_ := some topK }
    else do
      let rest ← HashmapEF.new heap (successors.drop k)
      some { gram_ := gramID, frequency_ := freq, successors_ := some rest, topK_ := some topK }

/-- Method `Node::findSuccessor(word)`.  Both `topK_->get` and `successors_->get`
are calls through a pointer, undefined when the pointer is null. -/
def Node.findSuccessor (vocab : Vocab) (n : Node) (word : String) : Option Nat :=
  if n.topK_.isNone && n.successors_.isNone then some 0
  else do
    let topK ← n.topK_
    let element ← topK.get vocab word
    if element ≠ 0 then some element
    else do
      let successors ← n.successors_
      successors.get vocab word

/-- Method `Node::mostLikelyNext(num)`. -/
def Node.mostLikelyNext (heap : Heap) (vocab : Vocab) (n : Node) (num : Nat) :
    Option (List String) :=
  if n.topK_.isNone && n.successors_.isNone then some []
  else do
    let topK ← n.topK_
    let maxReturn := match n.successors_ with
      | some s => topK.size_ + s.size_
      | none => topK.size_
    let size := if maxReturn < num then maxReturn else num
    let i := min size topK.size_
    let fromTopK ← (List.range i).mapM fun r => do
      some (vocab.vocabID2S (← heap.deref (← topK.getRank r)).gram_)
    if i = size then some fromTopK
    else do
      let successors ← n.successors_
      let j := min (size - i) successors.size_
      let fromRest ← (List.range j).mapM fun r => do
        some (vocab.vocabID2S (← heap.deref (← successors.getRank heap r)).gram_)
      some (fromTopK ++ fromRest ++ List.replicate (size - i - j) "")

/-- Gram id stored in the node at address `p` (0 when `p` cannot be dereferenced);
used to state properties of the blocks. -/
def gramOf (heap : Heap) (p : Nat) : Nat :=
  ((heap.deref p).map Node.gram_).getD 0

/-- Frequency stored in the node at address `p` (0 when `p` cannot be dereferenced). -/
def freqOf (heap : Heap) (p : Nat) : Nat :=
  ((heap.deref p).map Node.frequency_).getD 0

/-- Every pointer of the list can be dereferenced in the heap. -/
def AllDeref (heap : Heap) (ptrs : List Nat) : Prop :=
  ∀ p, p ∈ ptrs → (heap.deref p).isSome = true

instance (heap : Heap) (ptrs : List Nat) : Decidable (AllDeref heap ptrs) := by
  unfold AllDeref
  infer_instance

/-- Conditions under which a list of children can be stored in an encoded block:
the nodes exist, every gram id is at least 3, and the running sums of the gram ids
and of the addresses stay within `2 ^ 63`. -/
def Storable (heap : Heap) (ptrs : List Nat) : Prop :=
  AllDeref heap ptrs ∧ (∀ p, p ∈ ptrs → 3 ≤ gramOf heap p) ∧
    (ptrs.map (gramOf heap)).sum ≤ 2 ^ 63 ∧ ptrs.sum ≤ 2 ^ 63

instance (heap : Heap) (ptrs : List Nat) : Decidable (Storable heap ptrs) := by
  unfold Storable
  infer_instance

/-- The two encoders of a block hold the gram ids `gs` and the pointers `ps`, slot by
slot, when read back through `decodeAt`. -/
def Holds (grams pointers : Encoder) (gs ps : List Nat) : Prop :=
  gs.length = ps.length ∧
    (∀ i, i < gs.length → decodeAt grams i = some (gs.getD i 0)) ∧
    (∀ i, i < ps.length → decodeAt pointers i = some (ps.getD i 0))

/-- Filled slots of the two tables of the `HashmapEF` constructor, as pairs of gram
id and pointer in slot order. -/
def filledSlots : List (Option Nat) → List Nat → List (Nat × Nat)
  | some g :: gramSlots, p :: gramPointers => (g, p) :: filledSlots gramSlots gramPointers
  | none :: gramSlots, _ :: gramPointers => filledSlots gramSlots gramPointers
  | _, _ => []

/-- Pointers stored in a `SortedEF`, decoded slot by slot as in the destructor loop
(lines 388-392). -/
def SortedEF.contents (s : SortedEF) : Option (List Nat) :=
  (List.range s.size_).mapM (decodeAt s.pointers_)

/-- Pointers stored in a `HashmapEF`, decoded slot by slot as in the loop of
`getRank` (lines 327-333). -/
def HashmapEF.contents (h : HashmapEF) : Option (List Nat) :=
  (List.range h.size_).mapM (decodeAt h.pointers_)

/-- Children stored in the two blocks of a node, the `topK_` block first; a leaf has
none. -/
def Node.children (n : Node) : Option (List Nat) :=
  match n.topK_, n.successors_ with
  | none, none => some []
  | some s, none => s.contents
  | some s, some h => do some ((← s.contents) ++ (← h.contents))
  | none, some h => h.contents

/-! ## trie.h -/

/-- Data member of `class Trie`. -/
structure Trie where
  roots_ : HashmapEF
deriving DecidableEq, Repr

/-- One record of the input: the words of the n-gram and its count
(`pair<vector<string>, int>`). -/
abbrev Line := List String × Nat

/-- Local variables `levelNodes` and `levelCounts` of the constructor, together with
the heap of nodes allocated so far. -/
structure BuildState where
  heap : Heap
  levelNodes : List (List Nat)
  levelCounts : List Nat

/-- Arguments of the constructor that stay fixed during the build, the two vocabulary
maps, the addresses handed out by `new Node` (`addr i` is the address of the `i`-th
node allocated), and `lastWord`, the text of the last token of the input, that is, of
the count of its last record: the read that runs into the end of the input fails
without assigning `word`, which still holds that text. -/
structure BuildEnv where
  addr : Nat → Nat
  vocab : Vocab
  gramLen : Nat
  k : Nat
  lastWord : String

/-- Addition of two non-negative `int` values; a sum of `2 ^ 31` or more overflows. -/
def intAdd (a b : Nat) : Option Nat :=
  if a + b < 2 ^ 31 then some (a + b) else none

/-- Comparison loop of lines 81-87 over the remaining values of `i`. -/
def similarLoop (contextFirst lineFirst : List String) : List Nat → Nat → Option Nat
  | [], similarCount => some similarCount
  | i :: rest, similarCount => do
    let a ← contextFirst[i]?
    let b ← lineFirst[i]?
    if a = b then similarLoop contextFirst lineFirst rest (similarCount + 1)
    else some similarCount

/-- Value of `similarCount` after lines 78-87.  The bound `context.first.size() - 1`
is a `size_t`; for an empty `context.first` it wraps and the first comparison reads
out of bounds. -/
def similarCountOf (contextFirst lineFirst : List String) : Option Nat :=
  if contextFirst.length = 0 then none
  else similarLoop contextFirst lineFirst (List.range (contextFirst.length - 1)) 0

/-- Expression `new Node(...)`: the node is stored at the next address. -/
def allocNode (addr : Nat → Nat) (heap : Heap) (n : Node) : Heap × Nat :=
  (heap ++ [(addr heap.length, n)], addr heap.length)

/-- Call `levelNodes[level].push_back(p)`. -/
def pushNode (levelNodes : List (List Nat)) (level p : Nat) : Option (List (List Nat)) := do
  let nodesHere ← levelNodes[level]?
  some (levelNodes.set level (nodesHere ++ [p]))

/-- Call `levelNodes[level].clear()`. -/
def clearLevel (levelNodes : List (List Nat)) (level : Nat) : Option (List (List Nat)) :=
  if level < levelNodes.length then some (levelNodes.set level []) else none

/-- Statement `levelCounts[level] += amount`. -/
def addCount (levelCounts : List Nat) (level amount : Nat) : Option (List Nat) := do
  let c ← levelCounts[level]?
  some (levelCounts.set level (← intAdd c amount))

/-- Leaf case, lines 93-96.  With `gramLen < 2` the index `gramLen - 2` is negative
or `levelCounts` is empty. -/
def leafCase (env : BuildEnv) (context : Line) (st : BuildState) : Option BuildState := do
  let word ← context.1[sub64 context.1.length 1]?
  let node ← Node.new st.heap (env.vocab.vocabS2ID word) context.2 env.k []
  let (heap, p) := allocNode env.addr st.heap node
  let levelNodes ← pushNode st.levelNodes (env.gramLen - 1) p
  if env.gramLen < 2 then none
  else do
    let levelCounts ← addCount st.levelCounts (env.gramLen - 2) context.2
    some { heap := heap, levelNodes := levelNodes, levelCounts := levelCounts }

/-- Intermediate node case, lines 103-108, for the loop variable `i`. -/
def intermediateCase (env : BuildEnv) (context : Line) (i : Nat) (st : BuildState) :
    Option BuildState := do
  let word ← context.1[sub64 context.1.length i]?
  let freq ← st.levelCounts[env.gramLen - i]?
  let children ← st.levelNodes[env.gramLen - i + 1]?
  let node ← Node.new st.heap (env.vocab.vocabS2ID word) freq env.k children
  let (heap, p) := allocNode env.addr st.heap node
  let levelNodes ← pushNode st.levelNodes (env.gramLen - i) p
  let levelCounts ← addCount st.levelCounts (env.gramLen - i - 1) freq
  let levelNodes ← clearLevel levelNodes (env.gramLen - i + 1)
  some { heap := heap, levelNodes := levelNodes,
         levelCounts := levelCounts.set (env.gramLen - i) 0 }

/-- Root case, lines 114-118. -/
def rootCase (env : BuildEnv) (context : Line) (st : BuildState) : Option BuildState := do
  let word ← context.1[0]?
  let freq ← st.levelCounts[0]?
  let children ← st.levelNodes[1]?
  let node ← Node.new st.heap (env.vocab.vocabS2ID word) freq env.k children
  let (heap, p) := allocNode env.addr st.heap node
  let levelNodes ← pushNode st.levelNodes 0 p
  let levelNodes ← clearLevel levelNodes 1
  some { heap := heap, levelNodes := levelNodes, levelCounts := st.levelCounts.set 0 0 }

/-- Loop of lines 99-110 over the remaining values of `i`. -/
def intermediateLoop (env : BuildEnv) (context : Line) (similarCount : Nat) (eof : Bool) :
    List Nat → BuildState → Option BuildState
  | [], st => some st
  | i :: rest, st =>
    if similarCount ≤ env.gramLen - i || eof then do
      let st ← intermediateCase env context i st
      intermediateLoop env context similarCount eof rest st
    else intermediateLoop env context similarCount eof rest st

/-- Value of `similarCount` for the stored record `context` and the record just read,
`none` once the end of the input has been reached.  In the pass that reaches the end of
the input (the input ends with a newline after the last count) the first read of lines
61-72 fails and leaves `word` as it was, `word == ""` is false, and the loop pushes that
text: `line.first` is the one-element vector `[lastWord]`.  Lines 81-87 compare
`context.first` with it: when the first word of the last record differs from the text
the count is 0; when it is the same and `gramLen ≥ 3`, the second comparison reads
`line.first[1]` out of bounds. -/
def similarCountAt (env : BuildEnv) (context : Line) : Option Line → Option Nat
  | some l => similarCountOf context.1 l.1
  | none => similarCountOf context.1 [env.lastWord]

/-- Lines 75-119 for one pass of the `while` loop: `context` is the stored previous
record and `current` the record just read, `none` once the end of the input has been
reached. -/
def transition (env : BuildEnv) (context : Line) (current : Option Line) (st : BuildState) :
    Option BuildState := do
  let eof := current.isNone
  let similarCount ← similarCountAt env context current
  let lastLevel ← st.levelNodes[env.gramLen - 1]?
  let st ← if similarCount ≤ env.gramLen - 1 || lastLevel.isEmpty || eof then
      leafCase env context st else some st
  let st ← intermediateLoop env context similarCount eof
    ((List.range (env.gramLen - 2)).map (· + 2)) st
  if similarCount = 0 || eof then rootCase env context st else some st

/-- The `while (true)` loop of the constructor once a first record is stored:
`context` is `storedLines.back()`, the list holds the records still to be read. -/
def buildLoop (env : BuildEnv) : Line → List Line → BuildState → Option (Heap × Trie)
  | context, [], st => do
    let st ← transition env context none st
    let roots ← HashmapEF.new st.heap (← st.levelNodes[0]?)
    some (st.heap, { roots_ := roots })
  | context, l :: rest, st => do
    let st ← transition env context (some l) st
    buildLoop env l rest st

/-- Constructor `Trie::Trie(inFile, gramLen, k)` on the records of `inFile`; the
result is the trie together with the heap that holds its nodes.  On an empty input
the second pass of the loop compares two empty vectors at index 0. -/
def Trie.new (env : BuildEnv) (inFile : List Line) : Option (Heap × Trie) :=
  match inFile with
  | [] => none
  | first :: rest =>
    buildLoop env first rest
      { heap := [], levelNodes := List.replicate env.gramLen [],
        levelCounts := List.replicate (env.gramLen - 1) 0 }

/-- Walk shared by the two queries (lines 144-146 and 153-155): the pointer `branch`
after the loop. -/
def Trie.walk (heap : Heap) (vocab : Vocab) (t : Trie) (tokens : List String) : Option Nat := do
  let first ← tokens[0]?
  let branch ← t.roots_.get vocab first
  tokens.tail.foldlM (fun branch w => do (← heap.deref branch).findSuccessor vocab w) branch

/-- Method `Trie::frequencyCount(tokens)`. -/
def Trie.frequencyCount (heap : Heap) (vocab : Vocab) (t : Trie) (tokens : List String) :
    Option Nat := do
  let branch ← t.walk heap vocab tokens
  some (← heap.deref branch).frequency_

/-- Method `Trie::mostLikelyNext(tokens, num)`. -/
def Trie.mostLikelyNext (heap : Heap) (vocab : Vocab) (t : Trie) (tokens : List String)
    (num : Nat) : Option (List String) := do
  let branch ← t.walk heap vocab tokens
  (← heap.deref branch).mostLikelyNext heap vocab num

/-! ## Sample data -/

/-- Vocabulary of the corpus `the cat sat 5, the cat ran 3, the dog sat 2`: ids from 3
by decreasing number of occurrences. -/
def sampleVocab : Vocab where
  vocabS2ID := fun w =>
    if w = "the" then 3 else if w = "sat" then 4 else if w = "cat" then 5
    else if w = "ran" then 6 else if w = "dog" then 7 else 0
  vocabID2S := fun i =>
    if i = 3 then "the" else if i = 4 then "sat" else if i = 5 then "cat"
    else if i = 6 then "ran" else if i = 7 then "dog" else ""

/-- Records of the sample corpus, trigrams. -/
def sampleCorpus : List Line :=
  [(["the", "cat", "sat"], 5), (["the", "cat", "ran"], 3), (["the", "dog", "sat"], 2)]

/-- Build parameters for the sample corpus: `gramLen = 3`, `k = 2`, nodes allocated
16 bytes apart; the input ends with the count `2`. -/
def sampleEnv : BuildEnv :=
  { addr := fun i => 16 * (i + 1), vocab := sampleVocab, gramLen := 3, k := 2,
    lastWord := "2" }

/-- Leaf node with the given gram id and frequency. -/
def leafNode (gram freq : Nat) : Node :=
  { gram_ := gram, frequency_ := freq, successors_ := none, topK_ := none }

/-- Heap with four leaves, for the words `sat`, `cat`, `ran` and `dog`. -/
def sampleHeap : Heap :=
  [(16, leafNode 4 5), (32, leafNode 5 3), (48, leafNode 6 2), (64, leafNode 7 9)]

/-! ## Invariants of the build -/

/-- Sum of the counts of a list of records. -/
def countSum (rs : List Line) : Nat :=
  (rs.map Prod.snd).sum

/-- Addresses handed out by `new Node` for the first `M` nodes: none is null, two
live nodes never share an address, and `M` of them add up to at most `2 ^ 63`. -/
def AddrOK (env : BuildEnv) (M : Nat) : Prop :=
  (∀ i, i < M → env.addr i ≠ 0 ∧ env.addr i * M ≤ 2 ^ 63) ∧
    ∀ i, i < M → ∀ j, j < M → env.addr i = env.addr j → i = j

instance (env : BuildEnv) (M : Nat) : Decidable (AddrOK env M) := by
  unfold AddrOK
  infer_instance

/-- State of the build loop between two statements: the vectors have their declared
sizes, node `i` of the heap sits at `addr i`, every pending pointer is a node of the
heap with a storable gram id, the pending pointers are no more than the nodes
allocated, every pending count is the sum of the frequencies of the pending nodes one
level below, the counts add up to at most `T`, and every node of the heap carries the
sum of the frequencies of its children. -/
structure Good (env : BuildEnv) (M T : Nat) (st : BuildState) : Prop where
  lenNodes : st.levelNodes.length = env.gramLen
  lenCounts : st.levelCounts.length = env.gramLen - 1
  keys : st.heap.map Prod.fst = (List.range st.heap.length).map env.addr
  ptrs : ∀ ps, ps ∈ st.levelNodes → ∀ p, p ∈ ps →
    p ∈ st.heap.map Prod.fst ∧ 3 ≤ gramOf st.heap p ∧ gramOf st.heap p * M ≤ 2 ^ 63
  room : (st.levelNodes.map List.length).sum ≤ st.heap.length
  counts : ∀ d ps c, st.levelNodes[d + 1]? = some ps → st.levelCounts[d]? = some c →
    c = (ps.map (freqOf st.heap)).sum
  total : st.levelCounts.sum ≤ T
  nodes : ∀ p n, st.heap.deref p = some n →
    ∃ l, n.children = some l ∧ (∀ q, q ∈ l → q ∈ st.heap.map Prod.fst) ∧
      ((n.topK_.isSome = true ∨ n.successors_.isSome = true) →
        n.frequency_ = (l.map (freqOf st.heap)).sum)

/-- State after a node has been allocated and pushed at level `lv`: the level below is
cleared, the count of level `lv` moves up to level `lv - 1`.  For a leaf `lv + 1` and
`lv` lie outside the two vectors, for a root the count moved up is overwritten by 0. -/
def emitState (env : BuildEnv) (lv freq : Nat) (node : Node) (st : BuildState) : BuildState :=
  { heap := st.heap ++ [(env.addr st.heap.length, node)],
    levelNodes :=
      (st.levelNodes.set lv (st.levelNodes.getD lv [] ++ [env.addr st.heap.length])).set
        (lv + 1) [],
    levelCounts :=
      (st.levelCounts.set (lv - 1) (st.levelCounts.getD (lv - 1) 0 + freq)).set lv 0 }

/-- Word at position `d` of a record (the empty string beyond its end). -/
def tokenAt (c : Line) (d : Nat) : String :=
  c.1.getD d ""

/-- Gram id of the word at position `d` of a record. -/
def idAt (env : BuildEnv) (c : Line) (d : Nat) : Nat :=
  env.vocab.vocabS2ID (tokenAt c d)

/-- One allocation of the build: the leaf emitted for a record, or the node that
closes level `d` (an intermediate node for `d ≥ 1`, a root for `d = 0`), named after
the record `context` whose words it takes. -/
inductive Event where
  | leaf (context : Line)
  | close (d : Nat) (context : Line)

/-- Statement executed for an event. -/
def execEvent (env : BuildEnv) : Event → BuildState → Option BuildState
  | Event.leaf c, st => leafCase env c st
  | Event.close 0 c, st => rootCase env c st
  | Event.close (d + 1) c, st => intermediateCase env c (env.gramLen - (d + 1)) st

/-- Statements executed for a list of events, in order. -/
def execEvents (env : BuildEnv) (es : List Event) (st : BuildState) : Option BuildState :=
  es.foldlM (fun st e => execEvent env e st) st

/-- Levels closed in one pass of the loop whose `similarCount` is `s`: from
`gramLen - 2` down to `s`. -/
def closes (gramLen : Nat) (c : Line) (s : Nat) : List Event :=
  (List.range (gramLen - 1 - s)).map fun j => Event.close (gramLen - 2 - j) c

/-- Events of one pass of the loop: the leaf, then the levels closed. -/
def eventsOf (gramLen : Nat) (c : Line) (s : Nat) : List Event :=
  Event.leaf c :: closes gramLen c s

/-- Value of `similarCount` for two consecutive records (0 when the comparison runs
out of bounds). -/
def sim (a b : Line) : Nat :=
  (similarCountOf a.1 b.1).getD 0

/-- Maximal runs of consecutive records that stay together at level `d`: two
neighbours are in the same run when their `similarCount` exceeds `d`. -/
def runs (d : Nat) : List Line → List (List Line)
  | [] => []
  | [r] => [[r]]
  | r :: x :: rest =>
    if d < sim r x then
      match runs d (x :: rest) with
      | run :: more => (r :: run) :: more
      | [] => [[r]]
    else [r] :: runs d (x :: rest)

/-- Last record of a run. -/
def lastOf (run : List Line) : Line :=
  run.getLastD ([], 0)

/-- Events of the build of the nodes of level `d` and below for the records `R`, where
`m` levels lie below `d`: every run at level `d` is built recursively and then
closed.  At the leaf level every record is emitted. -/
def runEvents : Nat → Nat → List Line → List Event
  | 0, _, R => R.map Event.leaf
  | m + 1, d, R =>
    (runs d R).flatMap fun run => runEvents m (d + 1) run ++ [Event.close d (lastOf run)]

/-- Events of the passes of the loop over the records `R`, restricted to the levels
`d` and below; after the last record every level closes. -/
def passEvents (gramLen d : Nat) : List Line → List Event
  | [] => []
  | [c] => eventsOf gramLen c d
  | c :: l :: rest => eventsOf gramLen c (max (sim c l) d) ++ passEvents gramLen d (l :: rest)

/-- Last statement of the constructor, line 124: the roots are stored in a
`HashmapEF`. -/
def finishBuild (st : BuildState) : Option (Heap × Trie) := do
  let roots ← HashmapEF.new st.heap (← st.levelNodes[0]?)
  some (st.heap, { roots_ := roots })

/-- Levels below `d` hold no pending node and levels `d` and below hold no pending
count. -/
def Clean (d : Nat) (st : BuildState) : Prop :=
  (∀ e, d < e → st.levelNodes.getD e [] = []) ∧ (∀ e, d ≤ e → st.levelCounts.getD e 0 = 0)

/-- Record with `gramLen` words whose ids are at least 3 and small enough for `M` of
them to add up to at most `2 ^ 63`. -/
def RecOK (env : BuildEnv) (M : Nat) (r : Line) : Prop :=
  r.1.length = env.gramLen ∧
    ∀ d, d < env.gramLen → 3 ≤ idAt env r d ∧ idAt env r d * M ≤ 2 ^ 63

instance (env : BuildEnv) (M : Nat) (r : Line) : Decidable (RecOK env M r) := by
  unfold RecOK
  infer_instance

/-- Node at address `p` represents the run `R` at level `d`, with `m` levels below:
its gram id is that of word `d` of the run, its frequency the sum of the counts of
the run, and its children represent, in some order known to `findSuccessor`, the runs
of `R` one level below. -/
def Rep (env : BuildEnv) (heap : Heap) : Nat → Nat → List Line → Nat → Prop
  | 0, d, R, p =>
    ∃ n, heap.deref p = some n ∧ n.gram_ = idAt env (lastOf R) d ∧ n.frequency_ = countSum R
  | m + 1, d, R, p =>
    ∃ n, heap.deref p = some n ∧ n.gram_ = idAt env (lastOf R) d ∧
      n.frequency_ = countSum R ∧
      ∃ ps, List.Forall₂ (Rep env heap m (d + 1)) (runs (d + 1) R) ps ∧
        ((ps.map (gramOf heap)).Nodup → ∀ q word, q ∈ ps →
          env.vocab.vocabS2ID word = gramOf heap q →
            n.findSuccessor env.vocab word = some q)

/-- Effect on the build state of executing the events of the runs `Rs` at level `d`:
the invariant holds with the counts of the runs added, the levels below are clean
again, one node per run has been pushed at level `d` and represents it, the count of
the level above has grown by the counts of the runs, nothing else has changed, and at
most `budget` nodes have been allocated. -/
structure BuiltRuns (env : BuildEnv) (M T m d : Nat) (Rs : List (List Line)) (budget : Nat)
    (st st' : BuildState) (ps : List Nat) : Prop where
  good : Good env M (T + countSum Rs.flatten) st'
  clean : Clean d st'
  here : st'.levelNodes.getD d [] = st.levelNodes.getD d [] ++ ps
  above : ∀ e, e < d → st'.levelNodes.getD e [] = st.levelNodes.getD e []
  count : 1 ≤ d →
    st'.levelCounts.getD (d - 1) 0 = st.levelCounts.getD (d - 1) 0 + countSum Rs.flatten
  countsAbove : ∀ e, e + 1 < d → st'.levelCounts.getD e 0 = st.levelCounts.getD e 0
  heapExt : ∃ ext, st'.heap = st.heap ++ ext
  heapLen : st'.heap.length ≤ st.heap.length + budget
  rep : List.Forall₂ (Rep env st'.heap m d) Rs ps

/-- Conditions on the input of the constructor under which the build stays within the
machine's ranges: a gram length and a `k` of at least 2, records of `gramLen` words
with storable ids, addresses that are distinct, non-null and storable for the at most
`rs.length * gramLen` nodes of the trie, and counts whose sum fits in an `int`. -/
def BuildOK (env : BuildEnv) (rs : List Line) : Prop :=
  2 ≤ env.gramLen ∧ 2 ≤ env.k ∧ AddrOK env (rs.length * env.gramLen) ∧
    (∀ r, r ∈ rs → RecOK env (rs.length * env.gramLen) r) ∧ countSum rs < 2 ^ 31

instance (env : BuildEnv) (rs : List Line) : Decidable (BuildOK env rs) := by
  unfold BuildOK
  infer_instance

/-- The first word of the last record is not the text of the last count, so that the
comparison of the pass that reaches the end of the input stops at index 0. -/
def EofOK (env : BuildEnv) (rs : List Line) : Prop :=
  rs.getLast?.map (fun l => l.1.getD 0 "") ≠ some env.lastWord

instance (env : BuildEnv) (rs : List Line) : Decidable (EofOK env rs) := by
  unfold EofOK
  infer_instance

/-- State of the build before the first record is processed. -/
def initState (env : BuildEnv) : BuildState :=
  { heap := [], levelNodes := List.replicate env.gramLen [],
    levelCounts := List.replicate (env.gramLen - 1) 0 }

/-! ## Sorted corpora -/

/-- Records with the same key are adjacent: whenever `x` comes before `y` and `y`
before `z`, and `z` has the key of `x`, then `y` has it too. -/
def Adjacent {α : Type} (key : Line → α) : List Line → Prop
  | [] => True
  | x :: R => R.Pairwise (fun y z => key z = key x → key y = key x) ∧ Adjacent key R

instance decidableAdjacent {α : Type} [DecidableEq α] (key : Line → α) :
    (R : List Line) → Decidable (Adjacent key R)
  | [] => isTrue trivial
  | x :: R =>
    have : Decidable (Adjacent key R) := decidableAdjacent key R
    inferInstanceAs
      (Decidable (R.Pairwise (fun y z => key z = key x → key y = key x) ∧ Adjacent key R))

/-- Conditions of the query claims on a corpus: for every length `d`, records that
share their first `d` words are adjacent (as in a lexicographically sorted file); no
word sequence occurs twice; two different words of the corpus have different ids. -/
def SortedCorpus (env : BuildEnv) (rs : List Line) : Prop :=
  (∀ d, d < env.gramLen + 1 → Adjacent (fun r : Line => r.1.take d) rs) ∧
    (rs.map Prod.fst).Nodup ∧
    ∀ r, r ∈ rs → ∀ r', r' ∈ rs → ∀ w, w ∈ r.1 → ∀ w', w' ∈ r'.1 →
      env.vocab.vocabS2ID w = env.vocab.vocabS2ID w' → w = w'

instance (env : BuildEnv) (rs : List Line) : Decidable (SortedCorpus env rs) := by
  unfold SortedCorpus
  infer_instance

/-- Nodes whose words `Node::mostLikelyNext(num)` writes into `result`, in the order
of the slots they fill: the pointers `topK_->getRank(i)` of line 194 followed by the
pointers `successors_->getRank(j)` of line 203. -/
def Node.mostLikelyNodes (heap : Heap) (n : Node) (num : Nat) : Option (List Nat) :=
  if n.topK_.isNone && n.successors_.isNone then some []
  else do
    let topK ← n.topK_
    let maxReturn := match n.successors_ with
      | some s => topK.size_ + s.size_
      | none => topK.size_
    let size := if maxReturn < num then maxReturn else num
    let i := min size topK.size_
    let fromTopK ← (List.range i).mapM fun r => topK.getRank r
    if i = size then some fromTopK
    else do
      let successors ← n.successors_
      let j := min (size - i) successors.size_
      let fromRest ← (List.range j).mapM fun r => successors.getRank heap r
      some (fromTopK ++ fromRest)

/-! ## vocab.h -/

/-- Statement `++allWords[word]` (line 61) on a map kept as the list of its entries: the
count of a word already present grows by one, a new word enters with count 1. -/
def countWord : List (String × Nat) → String → List (String × Nat)
  | [], word => [(word, 1)]
  | e :: rest, word =>
    if e.1 = word then (e.1, e.2 + 1) :: rest else e :: countWord rest word

/-- Map `allWords` after the reading loop (lines 54-66) has counted the words
`words` that it read from the file. -/
def countWords (words : List String) : List (String × Nat) :=
  words.foldl countWord []

/-- Loop of lines 84-88 from index `i` on: entry `i` of `wordsToSort` receives the id
`startNum + i` with `startNum = 3`, in both maps. -/
def assignLoop : List (String × Nat) → Nat → Vocab → Vocab
  | [], _, v => v
  | e :: rest, i, v =>
    assignLoop rest (i + 1)
      { vocabID2S := fun id => if id = 3 + i then e.1 else v.vocabID2S id,
        vocabS2ID := fun w => if w = e.1 then 3 + i else v.vocabS2ID w }

/-- Lines 69-79: the entries of the map in the order `iterate` in which the
`unordered_map` is traversed, sorted by increasing count and reversed.  `std::sort`
leaves the order of entries of equal count open; the embedding fixes the one of
insertion sort. -/
def sortWords (iterate : List (String × Nat) → List (String × Nat))
    (allWords : List (String × Nat)) : List (String × Nat) :=
  ((iterate allWords).insertionSort fun a b => a.2 ≤ b.2).reverse

/-- Constructor `Vocab::Vocab(inFile, gramLen)` on the words that the reading loop
takes from the file; the two static maps start empty.  The order in which an
`unordered_map` is traversed is left to the library and is the parameter `iterate`. -/
def Vocab.new (iterate : List (String × Nat) → List (String × Nat)) (words : List String) :
    Vocab :=
  assignLoop (sortWords iterate (countWords words)) 0
    { vocabS2ID := fun _ => 0, vocabID2S := fun _ => "" }

/-- Words of the sample corpus in the order read. -/
def sampleWords : List String :=
  ["the", "cat", "sat", "the", "cat", "ran", "the", "dog", "sat"]

/-- Build parameters for 4-grams over the sample vocabulary: `gramLen = 4`, `k = 2`; the
input ends with the count `3`. -/
def sampleEnv4 : BuildEnv :=
  { addr := fun i => 16 * (i + 1), vocab := sampleVocab, gramLen := 4, k := 2,
    lastWord := "3" }

/-- Vocabulary of the one-record corpus `7 b c`, ids from 3. -/
def staleVocab : Vocab where
  vocabS2ID := fun w => if w = "7" then 3 else if w = "b" then 4 else if w = "c" then 5 else 0
  vocabID2S := fun i => if i = 3 then "7" else if i = 4 then "b" else if i = 5 then "c" else ""

/-- Records of the input file whose only line is `7 b c<TAB>7`. -/
def staleCorpus : List Line :=
  [(["7", "b", "c"], 7)]

/-- Build parameters for `staleCorpus`: `gramLen = 3`, `k = 2`; the input ends with the
count `7`. -/
def staleEnv : BuildEnv :=
  { addr := fun i => 16 * (i + 1), vocab := staleVocab, gramLen := 3, k := 2,
    lastWord := "7" }

/-- Two records that share the words `the cat`, each with the count 2000000000. -/
def overflowCorpus : List Line :=
  [(["the", "cat", "sat"], 2000000000), (["the", "cat", "ran"], 2000000000)]

/-- Build parameters for `overflowCorpus`: those of the sample corpus, the input ending
with the count `2000000000`. -/
def overflowEnv : BuildEnv :=
  { sampleEnv with lastWord := "2000000000" }

/-- Two records that share the word `the` only, each with the count 1500000000. -/
def overflowCorpus2 : List Line :=
  [(["the", "cat", "sat"], 1500000000), (["the", "dog", "sat"], 1500000000)]

/-- Build parameters for `overflowCorpus2`: those of the sample corpus, the input ending
with the count `1500000000`. -/
def overflowEnv2 : BuildEnv :=
  { sampleEnv with lastWord := "1500000000" }

/-! # Theorems -/

theorem find_range_least (p : Nat → Bool) :
    ∀ n, (∃ k, k < n ∧ p k = true) →
      ∃ c, c < n ∧ (List.range n).find? p = some c ∧ p c = true ∧ ∀ k, k < c → p k = false := by
  intro n
  induction n with
  | zero => rintro ⟨k, hk, _⟩; omega
  | succ n ih =>
    intro h
    by_cases h' : ∃ k, k < n ∧ p k = true
    · obtain ⟨c, hc, hf, hp, hmin⟩ := ih h'
      refine ⟨c, by omega, ?_, hp, hmin⟩
      rw [List.range_succ, List.find?_append, hf]; rfl
    · have hall : ∀ k, k < n → p k = false := by
        intro k hk
        by_contra hne
        exact h' ⟨k, hk, by simpa using hne⟩
      obtain ⟨k, hk, hpk⟩ := h
      have hkn : k = n := by
        by_contra hne
        have : k < n := by omega
        rw [hall k this] at hpk; cases hpk
      subst hkn
      refine ⟨k, by omega, ?_, hpk, hall⟩
      have hnone : (List.range k).find? p = none := by
        rw [List.find?_eq_none]
        intro x hx
        simp [hall x (List.mem_range.mp hx)]
      rw [List.range_succ, List.find?_append, hnone]
      simp [List.find?, hpk]

theorem exactCeilLog2_spec (x : Nat) (hx : x ≤ 2 ^ bits) :
    ∃ c, exactCeilLog2 x = some c ∧ c ≤ bits ∧ x ≤ 2 ^ c ∧ ∀ k, k < c → 2 ^ k < x := by
  obtain ⟨c, hc, hf, hp, hmin⟩ :=
    find_range_least (fun k => decide (x ≤ 2 ^ k)) (bits + 1) ⟨bits, by omega, by simpa using hx⟩
  refine ⟨c, hf, by omega, by simpa using hp, ?_⟩
  intro k hk
  have := hmin k hk
  simpa using this

theorem toDouble_cases (x : Nat) :
    toDouble x = x ∨
      ∃ e, 1 ≤ e ∧ 2 ^ (52 + e) ≤ x ∧ 0 < x % 2 ^ e ∧
        (toDouble x = x / 2 ^ e * 2 ^ e ∨ toDouble x = (x / 2 ^ e + 1) * 2 ^ e) := by
  unfold toDouble
  cases hf : (List.range 12).find? (fun e => decide (x < 2 ^ (53 + e))) with
  | none => exact Or.inl rfl
  | some e =>
    have hmem := List.mem_of_find?_eq_some hf
    have hpe := List.find?_some hf
    obtain ⟨c, _, hfc, _, hmin⟩ := find_range_least (fun e => decide (x < 2 ^ (53 + e))) 12
      ⟨e, List.mem_range.mp hmem, hpe⟩
    rw [hf] at hfc
    cases hfc
    simp only
    by_cases hrem : x % 2 ^ e = 0
    · left
      have hnot : ¬ (2 ^ e < 2 * (x % 2 ^ e) ∨ (2 * (x % 2 ^ e) = 2 ^ e ∧ x / 2 ^ e % 2 = 1)) := by
        rw [hrem]
        have : 0 < 2 ^ e := by positivity
        omega
      rw [if_neg hnot]
      have := Nat.div_add_mod x (2 ^ e)
      rw [hrem] at this
      rw [Nat.mul_comm]
      omega
    · right
      have he1 : 1 ≤ e := by
        by_contra h0
        have : e = 0 := by omega
        subst this
        apply hrem
        simp [Nat.mod_one]
      have hlow := hmin (e - 1) (by omega)
      simp only [decide_eq_false_iff_not, not_lt] at hlow
      have he' : 53 + (e - 1) = 52 + e := by omega
      rw [he'] at hlow
      refine ⟨e, he1, hlow, by omega, ?_⟩
      split
      · exact Or.inr rfl
      · exact Or.inl rfl

theorem toDouble_le (x k : Nat) (h : x ≤ 2 ^ k) : toDouble x ≤ 2 ^ k := by
  rcases toDouble_cases x with hd | ⟨e, he1, hlow, hrem, hd | hd⟩
  · rw [hd]; exact h
  · rw [hd]
    exact le_trans (Nat.div_mul_le_self _ _) h
  · rw [hd]
    have hke : 52 + e ≤ k := by
      by_contra hlt
      have : (2:Nat) ^ k < 2 ^ (52 + e) := Nat.pow_lt_pow_right (by norm_num) (by omega)
      omega
    have hsplit : (2:Nat) ^ k = 2 ^ (k - e) * 2 ^ e := by
      rw [← pow_add]
      congr 1
      omega
    have hne : x ≠ 2 ^ k := by
      intro heq
      rw [heq, hsplit, Nat.mul_mod_left] at hrem
      omega
    have hlt : x < 2 ^ (k - e) * 2 ^ e := by
      rw [← hsplit]
      omega
    have hq : x / 2 ^ e < 2 ^ (k - e) := Nat.div_lt_of_lt_mul (by rw [Nat.mul_comm]; exact hlt)
    rw [hsplit]
    exact Nat.mul_le_mul_right _ hq

theorem toDouble_ge (x k : Nat) (h : 2 ^ k ≤ x) : 2 ^ k ≤ toDouble x := by
  rcases toDouble_cases x with hd | ⟨e, he1, hlow, hrem, hd | hd⟩
  · rw [hd]; exact h
  · rw [hd]
    by_cases hke : e ≤ k
    · have hsplit : (2:Nat) ^ k = 2 ^ (k - e) * 2 ^ e := by
        rw [← pow_add]
        congr 1
        omega
      rw [hsplit] at h ⊢
      exact Nat.mul_le_mul_right _ ((Nat.le_div_iff_mul_le (by positivity)).mpr h)
    · have h1 : (2:Nat) ^ k ≤ 2 ^ e := Nat.pow_le_pow_right (by norm_num) (by omega)
      have h2 : 1 ≤ x / 2 ^ e := by
        rw [Nat.le_div_iff_mul_le (by positivity), Nat.one_mul]
        exact le_trans (Nat.pow_le_pow_right (by norm_num) (by omega)) hlow
      calc 2 ^ k ≤ 2 ^ e := h1
        _ = 1 * 2 ^ e := by ring
        _ ≤ x / 2 ^ e * 2 ^ e := Nat.mul_le_mul_right _ h2
  · rw [hd]
    have h1 := Nat.div_add_mod x (2 ^ e)
    have h2 := Nat.mod_lt x (show 0 < 2 ^ e by positivity)
    have h3 : (x / 2 ^ e + 1) * 2 ^ e = 2 ^ e * (x / 2 ^ e) + 2 ^ e := by ring
    omega

theorem ceilLog2_spec (x : Nat) (h0 : x ≠ 0) (hx : x ≤ 2 ^ bits) :
    ∃ r c, ceilLog2 x = some r ∧ exactCeilLog2 x = some c ∧ r ≤ c ∧ c ≤ r + 1 ∧ c ≤ bits ∧
      x < 2 ^ (r + 1) ∧ x ≤ 2 ^ c ∧ (∀ k, k < c → 2 ^ k < x) ∧ (x ≤ 2 ^ 49 → r = c) := by
  obtain ⟨c, hc, hcb, hxc, hcmin⟩ := exactCeilLog2_spec x hx
  obtain ⟨cd, hcd, _, hdc, hdmin⟩ := exactCeilLog2_spec (toDouble x) (toDouble_le x bits hx)
  have hcdc : cd ≤ c := by
    by_contra hlt
    have := hdmin c (by omega)
    have := toDouble_le x c hxc
    omega
  have key : ∀ r, (r = cd ∨ (r + 1 = cd ∧ toDouble x < 2 ^ cd) ∨ (r = 0 ∧ cd = 0)) →
      x < 2 ^ (r + 1) ∧ c ≤ r + 1 := by
    intro r hr
    have hlt : x < 2 ^ (r + 1) := by
      by_contra hge
      have h1 := toDouble_ge x (r + 1) (by omega)
      rcases hr with hr | ⟨hr, hd⟩ | ⟨hr, hd⟩
      · subst hr
        have : (2:Nat) ^ r < 2 ^ (r + 1) := Nat.pow_lt_pow_right (by norm_num) (by omega)
        omega
      · rw [hr] at h1
        omega
      · subst hr
        subst hd
        simp at hdc h1
        omega
    refine ⟨hlt, ?_⟩
    by_contra hc'
    have := hcmin (r + 1) (by omega)
    omega
  by_cases hcond : toDouble x * 2 ^ 52 ≤ (2 ^ 52 + 11) * 2 ^ (cd - 1)
  · have hr : ceilLog2 x = some (cd - 1) := by
      simp only [ceilLog2, h0, if_false, hcd, Option.bind_eq_bind, Option.some_bind, if_pos hcond]
    have hcase : cd - 1 = cd ∨ (cd - 1 + 1 = cd ∧ toDouble x < 2 ^ cd) ∨ (cd - 1 = 0 ∧ cd = 0) := by
      by_cases h1 : cd = 0
      · right; right
        omega
      · right; left
        refine ⟨by omega, ?_⟩
        have hp : (2:Nat) ^ cd = 2 * 2 ^ (cd - 1) := by
          rw [← pow_succ']
          congr 1
          omega
        have hpos : 0 < 2 ^ (cd - 1) := by positivity
        rw [hp]
        omega
    obtain ⟨h1, h2⟩ := key (cd - 1) hcase
    refine ⟨cd - 1, c, hr, hc, by omega, h2, hcb, h1, hxc, hcmin, ?_⟩
    intro h49
    have hdx : toDouble x = x := by
      rcases toDouble_cases x with hd | ⟨e, he1, hlow, _⟩
      · exact hd
      · have : (2:Nat) ^ 53 ≤ 2 ^ (52 + e) := Nat.pow_le_pow_right (by norm_num) (by omega)
        omega
    rw [hdx] at hcd hcond
    rw [hc] at hcd
    cases hcd
    by_cases hc0 : c = 0
    · omega
    · exfalso
      have hc49 : c ≤ 49 := by
        by_contra hlt
        have := hcmin 49 (by omega)
        omega
      have hx1 := hcmin (c - 1) (by omega)
      have hP : (2:Nat) ^ (c - 1) ≤ 2 ^ 48 := Nat.pow_le_pow_right (by norm_num) (by omega)
      omega
  · have hr : ceilLog2 x = some cd := by
      simp only [ceilLog2, h0, if_false, hcd, Option.bind_eq_bind, Option.some_bind, if_neg hcond]
    obtain ⟨h1, h2⟩ := key cd (Or.inl rfl)
    refine ⟨cd, c, hr, hc, hcdc, h2, hcb, h1, hxc, hcmin, ?_⟩
    intro h49
    have hdx : toDouble x = x := by
      rcases toDouble_cases x with hd | ⟨e, he1, hlow, _⟩
      · exact hd
      · have : (2:Nat) ^ 53 ≤ 2 ^ (52 + e) := Nat.pow_le_pow_right (by norm_num) (by omega)
        omega
    rw [hdx, hc] at hcd
    cases hcd
    rfl

theorem ceilLog2_le_63 (U c : Nat) (hU : U ≤ 2 ^ 63) (hc : ceilLog2 U = some c) : c ≤ 63 := by
  have h0 : U ≠ 0 := by
    intro h
    simp [ceilLog2, h] at hc
  obtain ⟨r, c', hr, _, hrc, _, _, _, _, hmin, _⟩ := ceilLog2_spec U h0
    (le_trans hU (Nat.pow_le_pow_right (by norm_num) (by simp [bits])))
  rw [hc] at hr
  cases hr
  by_contra hlt
  have := hmin 63 (by omega)
  omega

theorem ceilLog2_lt (U c : Nat) (hU : U ≤ 2 ^ bits) (hc : ceilLog2 U = some c) :
    U < 2 ^ (c + 1) := by
  have h0 : U ≠ 0 := by
    intro h
    simp [ceilLog2, h] at hc
  obtain ⟨r, _, hr, _, _, _, _, hlt, _⟩ := ceilLog2_spec U h0 hU
  rw [hc] at hr
  cases hr
  exact hlt

theorem ceilLog2_exact (U c : Nat) (hU : U ≤ 2 ^ 49) (hc : ceilLog2 U = some c) :
    exactCeilLog2 U = some c ∧ U ≤ 2 ^ c ∧ ∀ k, k < c → 2 ^ k < U := by
  have h0 : U ≠ 0 := by
    intro h
    simp [ceilLog2, h] at hc
  obtain ⟨r, c', hr, hc', _, _, _, _, hle, hmin, hex⟩ := ceilLog2_spec U h0
    (le_trans hU (Nat.pow_le_pow_right (by norm_num) (by simp [bits])))
  rw [hc] at hr
  cases hr
  have := hex hU
  subst this
  exact ⟨hc', hle, hmin⟩

theorem ceilLog2_quotient (U N c q : Nat) (hN : 2 ≤ N) (hUN : N ≤ U) (hU : U ≤ 2 ^ bits)
    (hc : ceilLog2 U = some c) (hq : ceilLog2 (U / N) = some q) : q ≤ c := by
  have hq0 : U / N ≠ 0 := by
    have := Nat.div_pos hUN (by omega)
    omega
  obtain ⟨r1, c1, hr1, _, _, hc1r, _, _, hUc1, hmin1, _⟩ := ceilLog2_spec U (by omega) hU
  obtain ⟨r2, c2, hr2, _, hrc2, _, _, _, _, hmin2, _⟩ := ceilLog2_spec (U / N) hq0
    (le_trans (Nat.div_le_self _ _) hU)
  rw [hc] at hr1
  rw [hq] at hr2
  cases hr1
  cases hr2
  have hc1pos : 1 ≤ c1 := by
    by_contra h0
    have : c1 = 0 := by omega
    subst this
    simp at hUc1
    omega
  have hhalf : U / N ≤ 2 ^ (c1 - 1) := by
    have h1 : U / N ≤ U / 2 := Nat.div_le_div_left hN (by norm_num)
    have hp : (2:Nat) ^ c1 = 2 * 2 ^ (c1 - 1) := by
      rw [← pow_succ']
      congr 1
      omega
    have h2 : U / 2 ≤ 2 ^ (c1 - 1) := by
      rw [hp] at hUc1
      omega
    omega
  have : c2 ≤ c1 - 1 := by
    by_contra hlt
    have := hmin2 (c1 - 1) (by omega)
    omega
  omega

theorem bitsetAssign_testBit (b pos : Nat) (v : Bool) (b' : Nat)
    (h : bitsetAssign b pos v = some b') (j : Nat) :
    b'.testBit j = if j = pos then v else b.testBit j := by
  unfold bitsetAssign at h
  split at h
  · injection h with h
    subst h
    by_cases hv : b.testBit pos = v
    · simp only [hv, if_true]
      split
      · next hj => subst hj; exact hv
      · rfl
    · simp only [hv, if_false]
      rw [Nat.testBit_xor, Nat.testBit_two_pow]
      by_cases hj : j = pos
      · subst hj
        simp
        cases hb : b.testBit j <;> cases v <;> simp_all
      · have : ¬ pos = j := fun h => hj h.symm
        simp [hj, this]
  · cases h

theorem copyBits_spec (src : Nat → Option Bool) (f : Nat → Bool) (off : Nat) :
    ∀ (n b : Nat), off + n ≤ bits → (∀ i, i < n → src i = some (f i)) →
      ∃ b', copyBits src off n b = some b' ∧
        ∀ j, b'.testBit j = if off ≤ j ∧ j < off + n then f (j - off) else b.testBit j := by
  intro n
  induction n with
  | zero =>
    intro b _ _
    refine ⟨b, by simp [copyBits], ?_⟩
    intro j
    have : ¬ (off ≤ j ∧ j < off + 0) := by omega
    rw [if_neg this]
  | succ n ih =>
    intro b hle hsrc
    obtain ⟨b1, hb1, ht1⟩ := ih b (by omega) (fun i hi => hsrc i (by omega))
    have hlt : off + n < bits := by omega
    have hassign : bitsetAssign b1 (off + n) (f n) =
        some (if b1.testBit (off + n) = f n then b1 else b1 ^^^ 2 ^ (off + n)) := by
      simp [bitsetAssign, hlt]
    refine ⟨(if b1.testBit (off + n) = f n then b1 else b1 ^^^ 2 ^ (off + n)), ?_, ?_⟩
    · unfold copyBits at hb1 ⊢
      rw [List.range_succ, List.foldlM_append, hb1]
      simp only [List.foldlM, hsrc n (by omega), Option.bind_eq_bind, Option.some_bind,
        Option.pure_def, bind_pure]
      rw [hassign]; rfl
    · intro j
      rw [bitsetAssign_testBit _ _ _ _ hassign j, ht1 j]
      by_cases hj : j = off + n
      · subst hj
        simp
      · simp only [hj, if_false]
        by_cases hin : off ≤ j ∧ j < off + n
        · have : off ≤ j ∧ j < off + (n + 1) := by omega
          simp [hin, this]
        · have : ¬ (off ≤ j ∧ j < off + (n + 1)) := by omega
          simp [hin, this]

theorem clearLower_testBit (v : Nat) :
    ∀ (l j : Nat), (clearLower l v).testBit j =
      (decide (l ≤ j) && decide (j < bits) && v.testBit j) := by
  intro l
  induction l with
  | zero =>
    intro j
    simp [clearLower, Nat.testBit_mod_two_pow]
  | succ l ih =>
    intro j
    have hstep : clearLower (l + 1) v =
        (if (clearLower l v).testBit l then clearLower l v ^^^ 2 ^ l else clearLower l v) := by
      simp [clearLower, List.range_succ, List.foldl_append]
    rw [hstep]
    by_cases hb : (clearLower l v).testBit l = true
    · rw [if_pos hb, Nat.testBit_xor, Nat.testBit_two_pow, ih j]
      by_cases hj : l = j
      · subst hj
        rw [ih l] at hb
        simp at hb
        simp [hb.1, hb.2]
      · by_cases h1 : l ≤ j
        · have h2 : l + 1 ≤ j := by omega
          simp [hj, h1, h2]
        · have h2 : ¬ l + 1 ≤ j := by omega
          simp [hj, h1, h2]
    · rw [if_neg hb, ih j]
      by_cases hj : l = j
      · subst hj
        rw [ih l] at hb
        simp at hb
        by_cases hlt : l < bits
        · simp [hlt, hb hlt]
        · simp [hlt]
      · by_cases h1 : l ≤ j
        · have h2 : l + 1 ≤ j := by omega
          simp [h1, h2]
        · have h2 : ¬ l + 1 ≤ j := by omega
          simp [h1, h2]

theorem halve_eq (num : Nat) : ∀ l, halve l num = num / 2 ^ l := by
  intro l
  induction l with
  | zero => simp [halve]
  | succ l ih =>
    have hstep : halve (l + 1) num = halve l num / 2 := by
      simp [halve, List.range_succ, List.foldl_append]
    rw [hstep, ih, Nat.div_div_eq_div_mul, pow_succ]

theorem halve_clearLower (l v : Nat) (hv : v < 2 ^ bits) :
    halve l (clearLower l v) = v / 2 ^ l := by
  rw [halve_eq]
  apply Nat.eq_of_testBit_eq
  intro i
  rw [← Nat.shiftRight_eq_div_pow, ← Nat.shiftRight_eq_div_pow, Nat.testBit_shiftRight,
    Nat.testBit_shiftRight, clearLower_testBit]
  by_cases hlt : l + i < bits
  · simp [hlt]
  · have hbig : v < 2 ^ (l + i) :=
      lt_of_lt_of_le hv (Nat.pow_le_pow_right (by norm_num) (by omega))
    simp [hlt, Nat.testBit_lt_two_pow hbig]

theorem countHigh_spec (l : Nat) :
    ∀ (vs buckets : List Nat), (∀ v, v ∈ vs → halve l v < buckets.length) →
      ∃ out, countHigh l buckets vs = some out ∧ out.length = buckets.length ∧
        ∀ b, out.getD b 0 = buckets.getD b 0 + (vs.map (halve l)).count b := by
  intro vs
  induction vs with
  | nil =>
    intro buckets _
    exact ⟨buckets, rfl, rfl, by simp⟩
  | cons v rest ih =>
    intro buckets hb
    have hv : halve l v < buckets.length := hb v (List.mem_cons_self _ _)
    obtain ⟨out, ho, hlen, hcount⟩ :=
      ih (buckets.set (halve l v) (buckets.getD (halve l v) 0 + 1))
        (by
          intro w hw
          rw [List.length_set]
          exact hb w (List.mem_cons_of_mem _ hw))
    refine ⟨out, ?_, ?_, ?_⟩
    · simp only [countHigh, hv, if_true]
      exact ho
    · rw [hlen, List.length_set]
    · intro b
      rw [hcount b, List.map_cons, List.count_cons]
      by_cases hbv : halve l v = b
      · subst hbv
        simp [List.getD_eq_getElem?_getD, List.getElem?_set, hv]
        omega
      · have hne : ¬ (b = halve l v) := fun h => hbv h.symm
        simp [List.getD_eq_getElem?_getD, List.getElem?_set, hbv, hne]

theorem selectScan_ones (target : Nat) (rest : List Bool) :
    ∀ (c count pos : Nat), count ≤ target →
      selectScan target (List.replicate c true ++ rest) count pos =
        if target ≤ count + c then some (pos + (target - count))
        else selectScan target rest (count + c) (pos + c) := by
  intro c
  induction c with
  | zero =>
    intro count pos hle
    by_cases h : target ≤ count
    · have heq : count = target := by omega
      subst heq
      cases rest <;> simp [selectScan]
    · simp [h]
  | succ c ih =>
    intro count pos hle
    rw [List.replicate_succ, List.cons_append]
    by_cases heq : count = target
    · subst heq
      simp [selectScan]
    · simp only [selectScan, heq, if_false, if_true]
      rw [ih (count + 1) (pos + 1) (by omega)]
      by_cases h : target ≤ count + 1 + c
      · have h' : target ≤ count + (c + 1) := by omega
        rw [if_pos h, if_pos h']
        congr 1
        omega
      · have h' : ¬ target ≤ count + (c + 1) := by omega
        rw [if_neg h, if_neg h']
        congr 1 <;> omega

theorem upperRegion_cons (c : Nat) (cs : List Nat) :
    upperRegion (c :: cs) = false :: (List.replicate c true ++ upperRegion cs) := by
  simp [upperRegion, List.flatMap_cons]

theorem selectScan_upperRegion (target : Nat) (tail : List Bool) :
    ∀ (cs : List Nat) (count pos : Nat), count < target → target - count ≤ cs.sum →
      selectScan target (upperRegion cs ++ tail) count pos =
        some (pos + bucketOf cs (target - count) + 1 + (target - count)) := by
  intro cs
  induction cs with
  | nil =>
    intro count pos hlt hsum
    simp at hsum
    omega
  | cons c rest ih =>
    intro count pos hlt hsum
    rw [upperRegion_cons, List.cons_append, List.append_assoc]
    have hne : count ≠ target := by omega
    simp only [selectScan, hne, if_false, Bool.false_eq_true]
    rw [selectScan_ones target _ c count (pos + 1) (by omega)]
    by_cases h : target ≤ count + c
    · have hk : target - count ≤ c := by omega
      rw [if_pos h]
      simp only [bucketOf, hk, if_true]
    · have hk : ¬ target - count ≤ c := by omega
      rw [if_neg h]
      rw [ih (count + c) (pos + 1 + c) (by omega) (by simp at hsum; omega)]
      simp only [bucketOf, hk, if_false]
      have : target - (count + c) = target - count - c := by omega
      rw [this]
      congr 1; omega

theorem sorted_count_split (base : Nat) :
    ∀ hs : List Nat, hs.Pairwise (· ≤ ·) → (∀ x, x ∈ hs → base ≤ x) →
      hs = List.replicate (hs.count base) base ++ hs.drop (hs.count base) ∧
        ∀ x, x ∈ hs.drop (hs.count base) → base + 1 ≤ x := by
  intro hs
  induction hs with
  | nil => intro _ _; simp
  | cons x t ih =>
    intro hp hge
    rw [List.pairwise_cons] at hp
    obtain ⟨hxt, hpt⟩ := hp
    by_cases hx : x = base
    · subst hx
      obtain ⟨h1, h2⟩ := ih hpt (fun y hy => hge y (List.mem_cons_of_mem _ hy))
      have hc : (x :: t).count x = t.count x + 1 := by simp
      rw [hc, List.replicate_succ, List.drop_succ_cons, List.cons_append]
      exact ⟨by rw [← h1], h2⟩
    · have hgt : base < x := by
        have := hge x (List.mem_cons_self _ _)
        omega
      have hc : (x :: t).count base = 0 := by
        rw [List.count_eq_zero]
        intro hmem
        rcases List.mem_cons.mp hmem with h | h
        · exact hx h.symm
        · have := hxt base h
          omega
      rw [hc]
      refine ⟨by simp, ?_⟩
      intro y hy
      rw [List.drop_zero] at hy
      rcases List.mem_cons.mp hy with h | h
      · omega
      · have := hxt y h
        omega

theorem bucketOf_histogram :
    ∀ (cs : List Nat) (base : Nat) (hs : List Nat), hs.Pairwise (· ≤ ·) →
      (∀ x, x ∈ hs → base ≤ x ∧ x < base + cs.length) →
      (∀ b, b < cs.length → cs.getD b 0 = hs.count (base + b)) →
      ∀ r, r < hs.length → bucketOf cs (r + 1) = hs.getD r 0 - base ∧ r + 1 ≤ cs.sum := by
  intro cs
  induction cs with
  | nil =>
    intro base hs _ hrange _ r hr
    have hmem : hs.getD r 0 ∈ hs := by
      rw [List.getD_eq_getElem _ _ hr]
      exact List.getElem_mem hr
    have := hrange _ hmem
    simp at this
    omega
  | cons c rest ih =>
    intro base hs hp hrange hcount r hr
    obtain ⟨hsplit, htail⟩ := sorted_count_split base hs hp (fun x hx => (hrange x hx).1)
    have hc : c = hs.count base := by
      have := hcount 0 (by simp)
      simpa using this
    have hdroplen : (hs.drop c).length = hs.length - c := List.length_drop _ _
    have hcle : c ≤ hs.length := by rw [hc]; exact List.count_le_length _ _
    by_cases hk : r + 1 ≤ c
    · refine ⟨?_, by simp; omega⟩
      simp only [bucketOf, hk, if_true]
      rw [hsplit, ← hc, List.getD_eq_getElem?_getD, List.getElem?_append_left (by simp; omega)]
      simp [List.getElem?_replicate]
      have : r < c := by omega
      simp [this]
    · have hp' : (hs.drop c).Pairwise (· ≤ ·) := List.Pairwise.sublist (List.drop_sublist _ _) hp
      have hrange' : ∀ x, x ∈ hs.drop c → base + 1 ≤ x ∧ x < base + 1 + rest.length := by
        intro x hx
        have h1 := htail x (by rw [← hc]; exact hx)
        have h2 := (hrange x (List.mem_of_mem_drop hx)).2
        simp at h2
        omega
      have hcount' : ∀ b, b < rest.length → rest.getD b 0 = (hs.drop c).count (base + 1 + b) := by
        intro b hb
        have h1 := hcount (b + 1) (by simp; omega)
        have h2 : hs.count (base + (b + 1)) =
            (List.replicate c base ++ hs.drop c).count (base + (b + 1)) := by
          conv_lhs => rw [hsplit, ← hc]
        rw [List.count_append] at h2
        have h3 : (List.replicate c base).count (base + (b + 1)) = 0 := by
          rw [List.count_eq_zero]
          intro hmem
          have := List.eq_of_mem_replicate hmem
          omega
        have h4 : base + 1 + b = base + (b + 1) := by omega
        have h5 : rest.getD b 0 = hs.count (base + (b + 1)) := by simpa using h1
        rw [h4, h5, h2, h3, Nat.zero_add]
      obtain ⟨hb, hsum⟩ := ih (base + 1) (hs.drop c) hp' hrange' hcount' (r - c)
        (by rw [hdroplen]; omega)
      have hrc : r - c + 1 = r + 1 - c := by omega
      refine ⟨?_, ?_⟩
      · simp only [bucketOf, hk, if_false]
        rw [← hrc, hb]
        have hget : (hs.drop c).getD (r - c) 0 = hs.getD r 0 := by
          rw [List.getD_eq_getElem?_getD, List.getD_eq_getElem?_getD, List.getElem?_drop]
          congr 2
          omega
        rw [hget]
        have hmem : (hs.drop c).getD (r - c) 0 ∈ hs.drop c := by
          rw [List.getD_eq_getElem _ _ (by rw [hdroplen]; omega)]
          exact List.getElem_mem _
        have := (hrange' _ hmem).1
        rw [hget] at this
        omega
      · simp
        omega

theorem chunks_length (l : Nat) (g : Nat → Nat → Bool) :
    ∀ n, ((List.range n).flatMap fun i => (List.range l).map (g i)).length = n * l := by
  intro n
  induction n with
  | zero => simp
  | succ n ih =>
    rw [List.range_succ, List.flatMap_append, List.length_append, ih]
    simp [List.flatMap_cons]
    ring

theorem chunks_getElem (l : Nat) (g : Nat → Nat → Bool) :
    ∀ n i j, i < n → j < l →
      ((List.range n).flatMap fun i => (List.range l).map (g i))[i * l + j]? = some (g i j) := by
  intro n
  induction n with
  | zero => intro i j hi; omega
  | succ n ih =>
    intro i j hi hj
    rw [List.range_succ, List.flatMap_append]
    by_cases hin : i < n
    · have hlt : i * l + j < n * l := by
        have : (i + 1) * l ≤ n * l := Nat.mul_le_mul_right l (by omega)
        have h2 : (i + 1) * l = i * l + l := by ring
        omega
      rw [List.getElem?_append_left (by rw [chunks_length]; exact hlt)]
      exact ih i j hin hj
    · have hieq : i = n := by omega
      subst hieq
      rw [List.getElem?_append_right (by rw [chunks_length]; omega), chunks_length]
      simp [List.flatMap_cons, hj]

theorem lowerRegion_length (sequence : List Nat) (size l : Nat) :
    (lowerRegion sequence size l).length = size * l := by
  unfold lowerRegion
  exact chunks_length l _ size

theorem lowerRegion_getElem (sequence : List Nat) (size l : Nat) (tail : List Bool)
    (i j : Nat) (hi : i < size) (hj : j < l) :
    (lowerRegion sequence size l ++ tail)[i * l + j]? =
      some ((sequence.getD (size - i - 1) 0).testBit j) := by
  have hlt : i * l + j < size * l := by
    have : (i + 1) * l ≤ size * l := Nat.mul_le_mul_right l (by omega)
    have h2 : (i + 1) * l = i * l + l := by ring
    omega
  rw [List.getElem?_append_left (by rw [lowerRegion_length]; exact hlt)]
  unfold lowerRegion
  exact chunks_getElem l _ size i j hi hj

theorem lowerRegion_drop (sequence : List Nat) (size l : Nat) (tail : List Bool) :
    (lowerRegion sequence size l ++ tail).drop (l * size) = tail := by
  have h : l * size = (lowerRegion sequence size l).length := by
    rw [lowerRegion_length, Nat.mul_comm]
  rw [h, List.drop_left]

theorem sub64_of_le (a b : Nat) (hb : b ≤ a) (ha : a < 2 ^ bits) : sub64 a b = a - b := by
  simp only [sub64, bits] at *
  omega

theorem sub64_scan (h i : Nat) (hh : h < 2 ^ bits) : sub64 (sub64 (h + 1 + (i + 1)) i) 2 = h := by
  simp only [sub64, bits] at *
  omega

theorem le_last_of_sorted : ∀ (sequence : List Nat) (U : Nat), sequence.Pairwise (· ≤ ·) →
    sequence.getLast? = some U → ∀ x, x ∈ sequence → x ≤ U := by
  intro sequence
  induction sequence with
  | nil => intro U _ h; simp at h
  | cons a t ih =>
    intro U hp hl x hx
    rw [List.pairwise_cons] at hp
    cases t with
    | nil =>
      simp at hl hx
      omega
    | cons b t' =>
      have hl' : (b :: t').getLast? = some U := by
        rw [List.getLast?_cons_cons] at hl
        exact hl
      rcases List.mem_cons.mp hx with h | h
      · subst h
        have h1 := hp.1 U (List.mem_of_getLast?_eq_some hl')
        exact h1
      · exact ih U hp.2 hl' x h

theorem Encoder.new_eq (sequence : List Nat) (U c q : Nat) (out : List Nat)
    (hlast : sequence.getLast? = some U) (hc : ceilLog2 U = some c)
    (hq : ceilLog2 (U / sequence.length) = some q) (hqc : q ≤ c)
    (hlen : sequence.length ≠ 1)
    (hout : countHigh q (List.replicate (2 ^ (c + 1 - q)) 0) (sequence.map (clearLower q)) =
      some out) :
    Encoder.new sequence =
      some { bitSequence_ := lowerRegion sequence sequence.length q ++ upperRegion out,
             maxBits_ := c + 1, size_ := sequence.length, lowerBitNum_ := q } := by
  have hsub : c + 1 - (c + 1 - q) = q := by omega
  simp only [Encoder.new, hlast, hc, hq, hlen, hsub, hout, Option.bind_eq_bind, Option.some_bind,
    Option.pure_def, if_false]

theorem Encoder.new_single (v c : Nat) (hc : ceilLog2 v = some c) :
    Encoder.new [v] =
      some { bitSequence_ := (List.range bits).map fun i => v.testBit i,
             maxBits_ := c + 1, size_ := 1, lowerBitNum_ := 0 } := by
  simp [Encoder.new, hc]

theorem Encoder.access_single (e : Encoder) (v : Nat) (hv : v < 2 ^ bits) (hsize : e.size_ = 1)
    (hbits : e.bitSequence_ = (List.range bits).map fun i => v.testBit i) (rank : Nat) :
    e.access rank = some v := by
  have hlen : e.bitSequence_.length = bits := by rw [hbits]; simp
  obtain ⟨b', hb', ht⟩ := copyBits_spec (fun i => e.bitSequence_[i]?) (fun i => v.testBit i) 0
    bits 0 (by omega) (by
      intro i hi
      show e.bitSequence_[i]? = some (v.testBit i)
      rw [hbits]
      simp [hi])
  have hval : b' = v := by
    apply Nat.eq_of_testBit_eq
    intro j
    rw [ht j]
    by_cases hj : j < bits
    · have : 0 ≤ j ∧ j < 0 + bits := by omega
      rw [if_pos this, Nat.sub_zero]
    · have : ¬ (0 ≤ j ∧ j < 0 + bits) := by omega
      rw [if_neg this]
      have hbig : v < 2 ^ j := lt_of_lt_of_le hv (Nat.pow_le_pow_right (by norm_num) (by omega))
      simp [Nat.testBit_lt_two_pow hbig]
  simp only [Encoder.access, hsize, if_true, hlen]
  rw [hb', hval]

theorem Encoder.access_spec (sequence : List Nat) (c q : Nat) (out : List Nat)
    (hsorted : sequence.Pairwise (· ≤ ·)) (hN : sequence.length ≠ 1)
    (hN64 : sequence.length < 2 ^ bits) (hm : c + 1 ≤ bits) (hqc : q ≤ c)
    (hval : ∀ x, x ∈ sequence → x < 2 ^ (c + 1))
    (hlen : out.length = 2 ^ (c + 1 - q))
    (hcount : ∀ b, out.getD b 0 = (sequence.map (fun v => v / 2 ^ q)).count b)
    (i : Nat) (hi : i < sequence.length) :
    ({ bitSequence_ := lowerRegion sequence sequence.length q ++ upperRegion out,
       maxBits_ := c + 1, size_ := sequence.length, lowerBitNum_ := q } : Encoder).access i =
      some (sequence.getD i 0) := by
  set v := sequence.getD i 0 with hv
  have hvmem : v ∈ sequence := by
    rw [hv, List.getD_eq_getElem _ _ hi]
    exact List.getElem_mem hi
  have hvlt : v < 2 ^ (c + 1) := hval v hvmem
  -- the lower bits
  have hidx : sub64 (sub64 sequence.length i) 1 = sequence.length - i - 1 := by
    rw [sub64_of_le _ _ (by omega) hN64, sub64_of_le _ _ (by omega) (by omega)]
  obtain ⟨low, hlow, hlowbit⟩ := copyBits_spec
    (fun j => (lowerRegion sequence sequence.length q ++ upperRegion out)[
      sub64 (sub64 sequence.length i) 1 * q + j]?)
    (fun j => v.testBit j) 0 q 0 (by omega) (by
      intro j hj
      show (lowerRegion sequence sequence.length q ++ upperRegion out)[
        sub64 (sub64 sequence.length i) 1 * q + j]? = some (v.testBit j)
      rw [hidx, lowerRegion_getElem sequence sequence.length q _ _ j (by omega) hj]
      have : sequence.length - (sequence.length - i - 1) - 1 = i := by omega
      rw [this])
  -- the upper bits
  have hhs : (sequence.map (fun v => v / 2 ^ q)).Pairwise (· ≤ ·) := by
    rw [List.pairwise_map]
    exact hsorted.imp (fun h => Nat.div_le_div_right h)
  have hbucket := bucketOf_histogram out 0 (sequence.map (fun v => v / 2 ^ q)) hhs
    (by
      intro x hx
      obtain ⟨y, hy, rfl⟩ := List.mem_map.mp hx
      refine ⟨Nat.zero_le _, ?_⟩
      rw [Nat.zero_add, hlen, Nat.div_lt_iff_lt_mul (by positivity), ← pow_add]
      have : c + 1 - q + q = c + 1 := by omega
      rw [this]
      exact hval y hy)
    (by intro b _; rw [Nat.zero_add]; exact hcount b)
    i (by simpa using hi)
  have hhigh : (sequence.map (fun v => v / 2 ^ q)).getD i 0 = v / 2 ^ q := by
    rw [List.getD_eq_getElem _ _ (by simpa using hi), hv, List.getD_eq_getElem _ _ hi]
    simp
  rw [hhigh, Nat.sub_zero] at hbucket
  have hscan := selectScan_upperRegion (i + 1) [] out 0 0 (by omega) (by simpa using hbucket.2)
  rw [List.append_nil, Nat.sub_zero, hbucket.1, Nat.zero_add] at hscan
  have hh64 : v / 2 ^ q < 2 ^ bits := by
    have h1 : v / 2 ^ q ≤ v := Nat.div_le_self _ _
    have h2 : v < 2 ^ bits := lt_of_lt_of_le hvlt (Nat.pow_le_pow_right (by norm_num) hm)
    omega
  obtain ⟨res, hres, hresbit⟩ := copyBits_spec (fun j => bitsetTest (v / 2 ^ q) j)
    (fun j => (v / 2 ^ q).testBit j) q (c + 1 - q) low (by omega) (by
      intro j hj
      have : j < bits := by omega
      simp [bitsetTest, this])
  have hfinal : res = v := by
    apply Nat.eq_of_testBit_eq
    intro j
    rw [hresbit j]
    by_cases hj : q ≤ j ∧ j < q + (c + 1 - q)
    · have hjq : q + (j - q) = j := by omega
      rw [if_pos hj, ← Nat.shiftRight_eq_div_pow, Nat.testBit_shiftRight, hjq]
    · rw [if_neg hj, hlowbit j]
      by_cases hjq : j < q
      · have : 0 ≤ j ∧ j < 0 + q := by omega
        rw [if_pos this, Nat.sub_zero]
      · have : ¬ (0 ≤ j ∧ j < 0 + q) := by omega
        rw [if_neg this]
        have hbig : v < 2 ^ j := lt_of_lt_of_le hvlt (Nat.pow_le_pow_right (by norm_num) (by omega))
        simp [Nat.testBit_lt_two_pow hbig]
  simp only [Encoder.access, hN, if_false, Option.bind_eq_bind]
  rw [hlow, Option.some_bind, lowerRegion_drop, hscan, Option.some_bind, sub64_scan _ _ hh64, hres,
    hfinal]

theorem Encoder.roundtrip (sequence : List Nat) (U : Nat)
    (hsorted : sequence.Pairwise (· ≤ ·)) (hlast : sequence.getLast? = some U)
    (hUN : sequence.length ≤ U) (hU : U ≤ 2 ^ 63) :
    ∃ e, Encoder.new sequence = some e ∧ e.size_ = sequence.length ∧
      ∀ i, i < sequence.length → e.access i = some (sequence.getD i 0) := by
  have hne : sequence ≠ [] := by
    intro h
    simp [h] at hlast
  have hlenpos : 0 < sequence.length := List.length_pos.mpr hne
  have hU0 : U ≠ 0 := by omega
  have hU64 : U ≤ 2 ^ bits := le_trans hU (Nat.pow_le_pow_right (by norm_num) (by simp [bits]))
  obtain ⟨c, _, hc, _, _, _, _, hUc, _⟩ := ceilLog2_spec U hU0 hU64
  have hc63 := ceilLog2_le_63 U c hU hc
  have hle : ∀ x, x ∈ sequence → x ≤ U := le_last_of_sorted sequence U hsorted hlast
  by_cases h1 : sequence.length = 1
  · obtain ⟨v, hv⟩ := List.length_eq_one.mp h1
    subst hv
    have hvU : v = U := by simpa using hlast
    subst hvU
    refine ⟨_, Encoder.new_single v c hc, rfl, ?_⟩
    intro i hi
    have hi0 : i = 0 := by simpa using hi
    subst hi0
    have hv64 : v < 2 ^ bits := by
      have : (2:Nat) ^ 63 < 2 ^ bits := Nat.pow_lt_pow_right (by norm_num) (by simp [bits])
      omega
    exact Encoder.access_single _ v hv64 rfl rfl 0
  · have hq0 : U / sequence.length ≠ 0 := by
      have := Nat.div_pos hUN hlenpos
      omega
    have hqU : U / sequence.length ≤ U := Nat.div_le_self _ _
    obtain ⟨q, _, hq, _⟩ := ceilLog2_spec (U / sequence.length) hq0 (le_trans hqU hU64)
    have hqc : q ≤ c := ceilLog2_quotient U sequence.length c q (by omega) hUN hU64 hc hq
    have hval : ∀ x, x ∈ sequence → x < 2 ^ (c + 1) := by
      intro x hx
      have h1 := hle x hx
      omega
    have hval64 : ∀ x, x ∈ sequence → x < 2 ^ bits := by
      intro x hx
      exact lt_of_lt_of_le (hval x hx) (Nat.pow_le_pow_right (by norm_num) (by simp [bits]; omega))
    obtain ⟨out, hout, houtlen, houtcount⟩ := countHigh_spec q (sequence.map (clearLower q))
      (List.replicate (2 ^ (c + 1 - q)) 0) (by
        intro w hw
        obtain ⟨x, hx, rfl⟩ := List.mem_map.mp hw
        rw [halve_clearLower q x (hval64 x hx), List.length_replicate,
          Nat.div_lt_iff_lt_mul (by positivity), ← pow_add]
        have : c + 1 - q + q = c + 1 := by omega
        rw [this]
        exact hval x hx)
    have hmapeq : (sequence.map (clearLower q)).map (halve q) =
        sequence.map (fun v => v / 2 ^ q) := by
      rw [List.map_map]
      apply List.map_congr_left
      intro x hx
      exact halve_clearLower q x (hval64 x hx)
    refine ⟨_, Encoder.new_eq sequence U c q out hlast hc hq hqc h1 hout, rfl, ?_⟩
    intro i hi
    have hN64 : sequence.length < 2 ^ bits := by
      have : (2:Nat) ^ 63 < 2 ^ bits := Nat.pow_lt_pow_right (by norm_num) (by simp [bits])
      omega
    refine Encoder.access_spec sequence c q out hsorted h1 hN64 (by simp [bits]; omega) hqc hval
      (by rw [houtlen, List.length_replicate]) ?_ i hi
    intro b
    rw [houtcount b, hmapeq]
    simp [List.getD_eq_getElem?_getD, List.getElem?_replicate]
    split <;> rfl

theorem cumulativeLoop_length : ∀ (xs : List Nat) (prev : Nat),
    (cumulativeLoop prev xs).length = xs.length := by
  intro xs
  induction xs with
  | nil => intro _; rfl
  | cons x t ih => intro prev; simp [cumulativeLoop, ih]

theorem add64_of_lt (a b : Nat) (h : a + b < 2 ^ bits) : add64 a b = a + b := by
  simp only [add64]
  exact Nat.mod_eq_of_lt h

theorem cumulativeLoop_getD : ∀ (xs : List Nat) (prev : Nat), prev + xs.sum < 2 ^ bits →
    ∀ i, i < xs.length →
      (cumulativeLoop prev xs).getD i 0 = prev + (xs.take (i + 1)).sum := by
  intro xs
  induction xs with
  | nil => intro _ _ i hi; simp at hi
  | cons x t ih =>
    intro prev hsum i hi
    simp only [List.sum_cons] at hsum
    have hadd : add64 x prev = prev + x := by
      rw [add64_of_lt _ _ (by omega)]; omega
    cases i with
    | zero => simp [cumulativeLoop, hadd]
    | succ i =>
      simp only [cumulativeLoop, List.getD_cons_succ, hadd]
      rw [ih (prev + x) (by omega) i (by simpa using hi)]
      simp [List.take_succ_cons]
      omega

theorem cumulativeLoop_sorted : ∀ (xs : List Nat) (prev : Nat), prev + xs.sum < 2 ^ bits →
    (cumulativeLoop prev xs).Pairwise (· ≤ ·) ∧ ∀ y, y ∈ cumulativeLoop prev xs → prev ≤ y := by
  intro xs
  induction xs with
  | nil => intro _ _; simp [cumulativeLoop]
  | cons x t ih =>
    intro prev hsum
    simp only [List.sum_cons] at hsum
    have hadd : add64 x prev = prev + x := by
      rw [add64_of_lt _ _ (by omega)]; omega
    obtain ⟨hp, hge⟩ := ih (prev + x) (by omega)
    simp only [cumulativeLoop, hadd]
    refine ⟨List.pairwise_cons.mpr ⟨hge, hp⟩, ?_⟩
    intro y hy
    rcases List.mem_cons.mp hy with h | h
    · omega
    · have := hge y h
      omega

theorem cumulativeLoop_getLast : ∀ (xs : List Nat) (prev : Nat), prev + xs.sum < 2 ^ bits →
    (prev :: cumulativeLoop prev xs).getLast? = some (prev + xs.sum) := by
  intro xs
  induction xs with
  | nil => intro prev _; simp [cumulativeLoop]
  | cons x t ih =>
    intro prev hsum
    simp only [List.sum_cons] at hsum
    have hadd : add64 x prev = prev + x := by
      rw [add64_of_lt _ _ (by omega)]; omega
    simp only [cumulativeLoop, hadd, List.getLast?_cons_cons]
    rw [ih (prev + x) (by omega)]
    simp only [List.sum_cons]
    congr 1
    omega

theorem cumulativeSum_length (xs : List Nat) : (cumulativeSum xs).length = xs.length := by
  cases xs with
  | nil => rfl
  | cons x t => simp [cumulativeSum, cumulativeLoop_length]

theorem cumulativeSum_getD (xs : List Nat) (hsum : xs.sum < 2 ^ bits) (i : Nat)
    (hi : i < xs.length) : (cumulativeSum xs).getD i 0 = (xs.take (i + 1)).sum := by
  cases xs with
  | nil => simp at hi
  | cons x t =>
    simp only [List.sum_cons] at hsum
    cases i with
    | zero => simp [cumulativeSum]
    | succ i =>
      simp only [cumulativeSum, List.getD_cons_succ]
      rw [cumulativeLoop_getD t x hsum i (by simpa using hi)]
      simp [List.take_succ_cons]

theorem cumulativeSum_sorted (xs : List Nat) (hsum : xs.sum < 2 ^ bits) :
    (cumulativeSum xs).Pairwise (· ≤ ·) := by
  cases xs with
  | nil => simp [cumulativeSum]
  | cons x t =>
    simp only [List.sum_cons] at hsum
    obtain ⟨hp, hge⟩ := cumulativeLoop_sorted t x hsum
    exact List.pairwise_cons.mpr ⟨hge, hp⟩

theorem cumulativeSum_getLast (xs : List Nat) (hne : xs ≠ []) (hsum : xs.sum < 2 ^ bits) :
    (cumulativeSum xs).getLast? = some xs.sum := by
  cases xs with
  | nil => exact absurd rfl hne
  | cons x t =>
    simp only [List.sum_cons] at hsum
    simp only [cumulativeSum, List.sum_cons]
    exact cumulativeLoop_getLast t x hsum

theorem length_le_sum (A : List Nat) (hpos : ∀ x, x ∈ A → 1 ≤ x) : A.length ≤ A.sum := by
  induction A with
  | nil => simp
  | cons x t ih =>
    have h1 := hpos x (List.mem_cons_self _ _)
    have h2 := ih (fun y hy => hpos y (List.mem_cons_of_mem _ hy))
    simp only [List.length_cons, List.sum_cons]
    omega

theorem sum_take_le (A : List Nat) (i : Nat) : (A.take i).sum ≤ A.sum := by
  conv_rhs => rw [← List.take_append_drop i A, List.sum_append]
  omega

theorem decodeAt_cumulativeSum (A : List Nat) (hne : A ≠ []) (hpos : ∀ x, x ∈ A → 1 ≤ x)
    (hsum : A.sum ≤ 2 ^ 63) :
    ∃ e, Encoder.new (cumulativeSum A) = some e ∧ e.size_ = A.length ∧
      ∀ i, i < A.length → decodeAt e i = some (A.getD i 0) := by
  have h63 : (2:Nat) ^ 63 < 2 ^ bits := Nat.pow_lt_pow_right (by norm_num) (by simp [bits])
  have hsum64 : A.sum < 2 ^ bits := by omega
  obtain ⟨e, he, hsize, hacc⟩ := Encoder.roundtrip (cumulativeSum A) A.sum
    (cumulativeSum_sorted A hsum64) (cumulativeSum_getLast A hne hsum64)
    (by rw [cumulativeSum_length]; exact length_le_sum A hpos) hsum
  rw [cumulativeSum_length] at hsize hacc
  refine ⟨e, he, hsize, ?_⟩
  intro i hi
  cases i with
  | zero =>
    simp only [decodeAt, ne_eq, not_true_eq_false, if_false]
    rw [hacc 0 hi, cumulativeSum_getD A hsum64 0 hi]
    cases A with
    | nil => simp at hi
    | cons x t => simp
  | succ i =>
    have hne0 : i + 1 ≠ 0 := by omega
    simp only [decodeAt, ne_eq, hne0, not_false_eq_true, if_true, Option.bind_eq_bind,
      Nat.add_sub_cancel]
    rw [hacc (i + 1) hi, hacc i (by omega), cumulativeSum_getD A hsum64 (i + 1) hi,
      cumulativeSum_getD A hsum64 i (by omega)]
    simp only [Option.some_bind]
    rw [List.sum_take_succ A (i + 1) hi, List.getD_eq_getElem _ _ hi]
    have hle := sum_take_le A (i + 1)
    have hle2 := sum_take_le A (i + 1 + 1)
    rw [List.sum_take_succ A (i + 1) hi] at hle2
    congr 1
    simp only [sub64, bits] at *
    omega

theorem mapM_option_eq {α β : Type} (f : α → Option β) (g : α → β) :
    ∀ (l : List α), (∀ x, x ∈ l → f x = some (g x)) → l.mapM f = some (l.map g) := by
  intro l
  induction l with
  | nil => intro _; rfl
  | cons x t ih =>
    intro h
    rw [List.mapM_cons, h x (List.mem_cons_self _ _),
      ih (fun y hy => h y (List.mem_cons_of_mem _ hy))]
    rfl

theorem deref_ne_zero (heap : Heap) (p : Nat) (n : Node) (h : heap.deref p = some n) : p ≠ 0 := by
  intro h0
  simp [Heap.deref, h0] at h

theorem gramOf_eq (heap : Heap) (p : Nat) (n : Node) (h : heap.deref p = some n) :
    gramOf heap p = n.gram_ := by
  simp [gramOf, h]

theorem freqOf_eq (heap : Heap) (p : Nat) (n : Node) (h : heap.deref p = some n) :
    freqOf heap p = n.frequency_ := by
  simp [freqOf, h]

theorem AllDeref.pos (heap : Heap) (ptrs : List Nat) (h : AllDeref heap ptrs) :
    ∀ p, p ∈ ptrs → 1 ≤ p := by
  intro p hp
  obtain ⟨n, hn⟩ := Option.isSome_iff_exists.mp (h p hp)
  have := deref_ne_zero heap p n hn
  omega

theorem AllDeref.mapM_gram (heap : Heap) (ptrs : List Nat) (h : AllDeref heap ptrs) :
    ptrs.mapM (fun p => (heap.deref p).map Node.gram_) = some (ptrs.map (gramOf heap)) := by
  apply mapM_option_eq
  intro p hp
  obtain ⟨n, hn⟩ := Option.isSome_iff_exists.mp (h p hp)
  simp [gramOf, hn]

theorem getD_map_gram (heap : Heap) (ptrs : List Nat) (i : Nat) (hi : i < ptrs.length) :
    (ptrs.map (gramOf heap)).getD i 0 = gramOf heap (ptrs.getD i 0) := by
  rw [List.getD_eq_getElem _ _ (by simpa using hi), List.getD_eq_getElem _ _ hi]
  simp

theorem SortedEF_new_spec (heap : Heap) (nodes : List Nat) (hne : nodes ≠ [])
    (hst : Storable heap nodes) :
    ∃ s, SortedEF.new heap nodes = some s ∧ s.size_ = nodes.length ∧
      (∀ i, i < nodes.length → decodeAt s.grams_ i = some (gramOf heap (nodes.getD i 0))) ∧
      (∀ i, i < nodes.length → decodeAt s.pointers_ i = some (nodes.getD i 0)) := by
  obtain ⟨hderef, hgram, hgsum, hpsum⟩ := hst
  obtain ⟨ep, hep, _, hpdec⟩ := decodeAt_cumulativeSum nodes hne (AllDeref.pos heap nodes hderef)
    hpsum
  obtain ⟨eg, heg, _, hgdec⟩ := decodeAt_cumulativeSum (nodes.map (gramOf heap))
    (by simpa using hne)
    (by
      intro x hx
      obtain ⟨p, hp, rfl⟩ := List.mem_map.mp hx
      have := hgram p hp
      omega)
    hgsum
  refine ⟨{ grams_ := eg, pointers_ := ep, size_ := nodes.length }, ?_, rfl, ?_, hpdec⟩
  · simp only [SortedEF.new, AllDeref.mapM_gram heap nodes hderef, hep, heg,
      Option.bind_eq_bind, Option.some_bind]
  · intro i hi
    rw [hgdec i (by simpa using hi), getD_map_gram heap nodes i hi]

theorem getD_nodup_inj (gs : List Nat) (hnd : gs.Nodup) (i j : Nat) (hi : i < gs.length)
    (hj : j < gs.length) (h : gs.getD i 0 = gs.getD j 0) : i = j := by
  rw [List.getD_eq_getElem _ _ hi, List.getD_eq_getElem _ _ hj] at h
  exact (List.Nodup.getElem_inj_iff hnd).mp h

theorem getD_mem (gs : List Nat) (i : Nat) (hi : i < gs.length) : gs.getD i 0 ∈ gs := by
  rw [List.getD_eq_getElem _ _ hi]
  exact List.getElem_mem hi

theorem SortedEF_getLoop_eq (s : SortedEF) (gs ps : List Nat) (ID : Nat)
    (hh : Holds s.grams_ s.pointers_ gs ps) :
    ∀ (is : List Nat), (∀ i, i ∈ is → i < gs.length) →
      SortedEF.getLoop s ID is = some (is.find? (fun i => decide (gs.getD i 0 = ID))) := by
  intro is
  induction is with
  | nil => intro _; rfl
  | cons i rest ih =>
    intro hlt
    have hi := hlt i (List.mem_cons_self _ _)
    simp only [SortedEF.getLoop, hh.2.1 i hi, Option.bind_eq_bind, Option.some_bind]
    by_cases heq : gs.getD i 0 = ID
    · rw [if_pos heq, List.find?_cons_of_pos _ (by simp only [heq, decide_True])]
    · rw [if_neg heq, ih (fun j hj => hlt j (List.mem_cons_of_mem _ hj)),
        List.find?_cons_of_neg _ (by simp only [heq, decide_False, Bool.false_eq_true,
          not_false_eq_true])]

theorem SortedEF_get_hit (vocab : Vocab) (s : SortedEF) (gs ps : List Nat)
    (hh : Holds s.grams_ s.pointers_ gs ps) (hsize : s.size_ = gs.length) (hnd : gs.Nodup)
    (word : String) (i : Nat) (hi : i < gs.length) (hw : vocab.vocabS2ID word = gs.getD i 0) :
    s.get vocab word = some (ps.getD i 0) := by
  obtain ⟨c, hc, hfind, hpc, _⟩ := find_range_least
    (fun j => decide (gs.getD j 0 = vocab.vocabS2ID word)) gs.length ⟨i, hi, by simp [hw]⟩
  have hci : c = i := by
    apply getD_nodup_inj gs hnd c i hc hi
    rw [← hw]
    simpa using hpc
  subst hci
  simp only [SortedEF.get, hsize, Option.bind_eq_bind]
  rw [SortedEF_getLoop_eq s gs ps _ hh _ (fun j hj => List.mem_range.mp hj), hfind]
  simp only [Option.some_bind]
  exact hh.2.2 c (by rw [← hh.1]; exact hc)

theorem SortedEF_get_miss (vocab : Vocab) (s : SortedEF) (gs ps : List Nat)
    (hh : Holds s.grams_ s.pointers_ gs ps) (hsize : s.size_ = gs.length)
    (word : String) (hw : vocab.vocabS2ID word ∉ gs) :
    s.get vocab word = some 0 := by
  have hnone : (List.range gs.length).find?
      (fun j => decide (gs.getD j 0 = vocab.vocabS2ID word)) = none := by
    rw [List.find?_eq_none]
    intro j hj
    have hjlt := List.mem_range.mp hj
    have hmem := getD_mem gs j hjlt
    simp only [decide_eq_true_eq]
    intro heq
    exact hw (heq ▸ hmem)
  simp only [SortedEF.get, hsize, Option.bind_eq_bind]
  rw [SortedEF_getLoop_eq s gs ps _ hh _ (fun j hj => List.mem_range.mp hj), hnone]
  rfl

theorem HashmapEF_getLoop_eq (h : HashmapEF) (gs ps : List Nat) (ID index : Nat)
    (hh : Holds h.grams_ h.pointers_ gs ps) (hsize : h.size_ = gs.length)
    (hpos : 0 < gs.length) :
    ∀ (is : List Nat), (∀ i, i ∈ is → index + i < 2 ^ bits) →
      HashmapEF.getLoop h ID index is =
        some ((is.find? (fun i => decide (gs.getD ((index + i) % gs.length) 0 = ID))).map
          (fun i => (index + i) % gs.length)) := by
  intro is
  induction is with
  | nil => intro _; rfl
  | cons i rest ih =>
    intro hlt
    have hi := hlt i (List.mem_cons_self _ _)
    have hne : gs.length ≠ 0 := by omega
    have hslot : (index + i) % gs.length < gs.length := Nat.mod_lt _ hpos
    simp only [HashmapEF.getLoop, HashmapEF.hash, hsize, hne, if_false, add64_of_lt _ _ hi,
      Option.bind_eq_bind, Option.some_bind, hh.2.1 _ hslot]
    by_cases heq : gs.getD ((index + i) % gs.length) 0 = ID
    · rw [if_pos heq, List.find?_cons_of_pos _ (by simp only [heq, decide_True])]
      rfl
    · rw [if_neg heq, ih (fun j hj => hlt j (List.mem_cons_of_mem _ hj)),
        List.find?_cons_of_neg _ (by simp only [heq, decide_False, Bool.false_eq_true,
          not_false_eq_true])]

theorem probe_bound (n ID i : Nat) (hn : n ≤ 2 ^ 63) (hpos : 0 < n) (hi : i < n) :
    ID % n + i < 2 ^ bits := by
  have h1 : ID % n < n := Nat.mod_lt _ hpos
  have h2 : (2:Nat) ^ 63 + 2 ^ 63 = 2 ^ bits := by simp [bits]
  omega

theorem HashmapEF_get_hit (vocab : Vocab) (h : HashmapEF) (gs ps : List Nat)
    (hh : Holds h.grams_ h.pointers_ gs ps) (hsize : h.size_ = gs.length)
    (hN : gs.length ≤ 2 ^ 63) (hnd : gs.Nodup)
    (word : String) (s : Nat) (hs : s < gs.length) (hw : vocab.vocabS2ID word = gs.getD s 0) :
    h.get vocab word = some (ps.getD s 0) := by
  have hpos : 0 < gs.length := by omega
  have hne : gs.length ≠ 0 := by omega
  set ID := vocab.vocabS2ID word with hID
  set index := ID % gs.length with hindex
  have hidx : index < gs.length := Nat.mod_lt _ hpos
  -- the probe reaches slot `s`
  have hreach : (index + (s + gs.length - index) % gs.length) % gs.length = s := by
    rw [Nat.add_mod_mod]
    have : index + (s + gs.length - index) = s + gs.length := by omega
    rw [this, Nat.add_mod_right, Nat.mod_eq_of_lt hs]
  obtain ⟨c, hc, hfind, hpc, _⟩ := find_range_least
    (fun i => decide (gs.getD ((index + i) % gs.length) 0 = ID)) gs.length
    ⟨(s + gs.length - index) % gs.length, Nat.mod_lt _ hpos, by
      simp only [decide_eq_true_eq]
      rw [hreach, hw]⟩
  have hslot : (index + c) % gs.length = s := by
    apply getD_nodup_inj gs hnd _ s (Nat.mod_lt _ hpos) hs
    rw [← hw]
    simpa using hpc
  simp only [HashmapEF.get, HashmapEF.hash, hsize, hne, if_false, Option.bind_eq_bind,
    Option.some_bind]
  rw [HashmapEF_getLoop_eq h gs ps ID index hh hsize hpos _
    (fun i hi => probe_bound gs.length ID i hN hpos (List.mem_range.mp hi)), hfind]
  simp only [Option.map_some', Option.some_bind, hslot]
  exact hh.2.2 s (by rw [← hh.1]; exact hs)

theorem HashmapEF_get_miss (vocab : Vocab) (h : HashmapEF) (gs ps : List Nat)
    (hh : Holds h.grams_ h.pointers_ gs ps) (hsize : h.size_ = gs.length)
    (hN : gs.length ≤ 2 ^ 63) (hpos : 0 < gs.length)
    (word : String) (hw : vocab.vocabS2ID word ∉ gs) :
    h.get vocab word = some 0 := by
  have hne : gs.length ≠ 0 := by omega
  have hnone : (List.range gs.length).find?
      (fun i => decide (gs.getD ((vocab.vocabS2ID word % gs.length + i) % gs.length) 0 =
        vocab.vocabS2ID word)) = none := by
    rw [List.find?_eq_none]
    intro j _
    have hmem := getD_mem gs ((vocab.vocabS2ID word % gs.length + j) % gs.length)
      (Nat.mod_lt _ hpos)
    simp only [decide_eq_true_eq]
    intro heq
    exact hw (heq ▸ hmem)
  simp only [HashmapEF.get, HashmapEF.hash, hsize, hne, if_false, Option.bind_eq_bind,
    Option.some_bind]
  rw [HashmapEF_getLoop_eq h gs ps _ _ hh hsize hpos _
    (fun i hi => probe_bound gs.length _ i hN hpos (List.mem_range.mp hi)), hnone]
  rfl

theorem probe_reach (g s n : Nat) (hs : s < n) : ∃ j, j < n ∧ (g + j) % n = s := by
  have hpos : 0 < n := by omega
  refine ⟨(s + n - g % n) % n, Nat.mod_lt _ hpos, ?_⟩
  have h1 : g % n < n := Nat.mod_lt _ hpos
  rw [Nat.add_mod, Nat.mod_mod, ← Nat.add_mod]
  have h2 : g + (s + n - g % n) = s + n + n * (g / n) := by
    have := Nat.mod_add_div g n
    omega
  rw [h2, Nat.add_mul_mod_self_left, Nat.add_mod_right, Nat.mod_eq_of_lt hs]

theorem filledSlots_set (g p : Nat) :
    ∀ (l1 : List (Option Nat)) (l2 : List Nat) (i : Nat), l1.length = l2.length →
      l1[i]? = some none →
      List.Perm (filledSlots (l1.set i (some g)) (l2.set i p)) ((g, p) :: filledSlots l1 l2) := by
  intro l1
  induction l1 with
  | nil => intro l2 i _ h; simp at h
  | cons o t ih =>
    intro l2 i hlen h
    cases l2 with
    | nil => simp at hlen
    | cons q t2 =>
      have hlen' : t.length = t2.length := by simpa using hlen
      cases i with
      | zero =>
        simp at h
        subst h
        simp [filledSlots]
      | succ i =>
        have h' : t[i]? = some none := by simpa using h
        have := ih t2 i hlen' h'
        cases o with
        | none => simpa [filledSlots] using this
        | some x =>
          simp only [List.set_cons_succ, filledSlots]
          exact (List.Perm.cons _ this).trans (List.Perm.swap _ _ _)

theorem filledSlots_length_le : ∀ (l1 : List (Option Nat)) (l2 : List Nat),
    (filledSlots l1 l2).length ≤ l1.length := by
  intro l1
  induction l1 with
  | nil => intro l2; simp [filledSlots]
  | cons o t ih =>
    intro l2
    cases l2 with
    | nil => cases o <;> simp [filledSlots]
    | cons q t2 =>
      have := ih t2
      cases o <;> simp [filledSlots] <;> omega

theorem exists_empty_slot : ∀ (l1 : List (Option Nat)) (l2 : List Nat),
    l1.length = l2.length → (filledSlots l1 l2).length < l1.length →
      ∃ s, s < l1.length ∧ l1[s]? = some none := by
  intro l1
  induction l1 with
  | nil => intro l2 _ h; simp at h
  | cons o t ih =>
    intro l2 hlen h
    cases l2 with
    | nil => simp at hlen
    | cons q t2 =>
      cases o with
      | none => exact ⟨0, by simp, by simp⟩
      | some x =>
        simp only [filledSlots, List.length_cons] at h
        obtain ⟨s, hs, hs'⟩ := ih t2 (by simpa using hlen) (by omega)
        exact ⟨s + 1, by simpa using hs, by simpa using hs'⟩

theorem filledSlots_full : ∀ (l1 : List (Option Nat)) (l2 : List Nat),
    l1.length = l2.length → (filledSlots l1 l2).length = l1.length →
      ∃ gs, l1.mapM id = some gs ∧ gs.length = l1.length ∧ filledSlots l1 l2 = List.zip gs l2 := by
  intro l1
  induction l1 with
  | nil => intro l2 _ _; exact ⟨[], rfl, rfl, by simp [filledSlots]⟩
  | cons o t ih =>
    intro l2 hlen h
    cases l2 with
    | nil => simp at hlen
    | cons q t2 =>
      cases o with
      | none =>
        simp only [filledSlots, List.length_cons] at h
        have := filledSlots_length_le t t2
        omega
      | some x =>
        simp only [filledSlots, List.length_cons] at h
        obtain ⟨gs, hgs, hl, hz⟩ := ih t2 (by simpa using hlen) (by omega)
        refine ⟨x :: gs, ?_, by simp [hl], by simp [filledSlots, hz]⟩
        rw [List.mapM_cons, hgs]
        rfl

theorem HashmapEF.insertLoop_spec (size g p : Nat) (gsl : List (Option Nat)) (ptl : List Nat)
    (hlen : gsl.length = size) (hpos : 0 < size) :
    ∀ (js : List Nat), (∀ j, j ∈ js → g + j < 2 ^ bits) →
      (∃ j, j ∈ js ∧ gsl[(g + j) % size]? = some none) →
      ∃ slot, slot < size ∧ gsl[slot]? = some none ∧
        HashmapEF.insertLoop size g p g js (gsl, ptl) =
          some (gsl.set slot (some g), ptl.set slot p) := by
  intro js
  induction js with
  | nil => rintro _ ⟨j, hj, _⟩; simp at hj
  | cons j rest ih =>
    intro hb hex
    have hne : size ≠ 0 := by omega
    have hslot : (g + j) % size < size := Nat.mod_lt _ hpos
    have hadd := add64_of_lt g j (hb j (List.mem_cons_self _ _))
    cases hget : gsl[(g + j) % size]? with
    | none =>
      rw [List.getElem?_eq_none_iff] at hget
      omega
    | some o =>
      cases o with
      | none =>
        refine ⟨(g + j) % size, hslot, hget, ?_⟩
        simp only [HashmapEF.insertLoop, HashmapEF.hash, hne, if_false, hadd,
          Option.bind_eq_bind, Option.some_bind, hget]
      | some y =>
        obtain ⟨slot, hs, hempty, hins⟩ := ih (fun k hk => hb k (List.mem_cons_of_mem _ hk)) (by
          obtain ⟨k, hk, hkn⟩ := hex
          rcases List.mem_cons.mp hk with h | h
          · subst h
            rw [hget] at hkn
            cases hkn
          · exact ⟨k, h, hkn⟩)
        refine ⟨slot, hs, hempty, ?_⟩
        simp only [HashmapEF.insertLoop, HashmapEF.hash, hne, if_false, hadd,
          Option.bind_eq_bind, Option.some_bind, hget]
        exact hins

theorem HashmapEF.fill_spec (heap : Heap) (size : Nat) (hpos : 0 < size) (hsize : size ≤ 2 ^ 63) :
    ∀ (nodes : List Nat) (gsl : List (Option Nat)) (ptl : List Nat),
      gsl.length = size → ptl.length = size → AllDeref heap nodes →
      (∀ p, p ∈ nodes → gramOf heap p ≤ 2 ^ 63) →
      (filledSlots gsl ptl).length + nodes.length ≤ size →
      ∃ gsl' ptl', HashmapEF.fill heap size nodes (gsl, ptl) = some (gsl', ptl') ∧
        gsl'.length = size ∧ ptl'.length = size ∧
        List.Perm (filledSlots gsl' ptl')
          (filledSlots gsl ptl ++ nodes.map (fun p => (gramOf heap p, p))) := by
  intro nodes
  induction nodes with
  | nil =>
    intro gsl ptl h1 h2 _ _ _
    exact ⟨gsl, ptl, rfl, h1, h2, by simp⟩
  | cons p rest ih =>
    intro gsl ptl h1 h2 hderef hg hroom
    obtain ⟨n, hn⟩ := Option.isSome_iff_exists.mp (hderef p (List.mem_cons_self _ _))
    have hgram : n.gram_ = gramOf heap p := (gramOf_eq heap p n hn).symm
    have hgle : gramOf heap p ≤ 2 ^ 63 := hg p (List.mem_cons_self _ _)
    have h64 : (2:Nat) ^ 63 + 2 ^ 63 = 2 ^ bits := by simp [bits]
    obtain ⟨s, hs, hsnone⟩ := exists_empty_slot gsl ptl (by omega) (by
      simp only [List.length_cons] at hroom
      omega)
    obtain ⟨j, hj, hjs⟩ := probe_reach (gramOf heap p) s size (by omega)
    obtain ⟨slot, hslot, hempty, hins⟩ := HashmapEF.insertLoop_spec size (gramOf heap p) p gsl ptl
      h1 hpos (List.range size)
      (by
        intro k hk
        have := List.mem_range.mp hk
        omega)
      ⟨j, List.mem_range.mpr hj, by rw [hjs]; exact hsnone⟩
    have hperm := filledSlots_set (gramOf heap p) p gsl ptl slot (by omega) hempty
    obtain ⟨gsl', ptl', hfill, hl1, hl2, hp'⟩ := ih (gsl.set slot (some (gramOf heap p)))
      (ptl.set slot p) (by simpa using h1) (by simpa using h2)
      (fun q hq => hderef q (List.mem_cons_of_mem _ hq))
      (fun q hq => hg q (List.mem_cons_of_mem _ hq))
      (by
        rw [hperm.length_eq]
        simp only [List.length_cons] at hroom ⊢
        omega)
    refine ⟨gsl', ptl', ?_, hl1, hl2, ?_⟩
    · simp only [HashmapEF.fill, hn, hgram, Option.bind_eq_bind, Option.some_bind, hins]
      exact hfill
    · refine hp'.trans ?_
      rw [List.map_cons]
      exact (List.Perm.append_right _ hperm).trans (by
        rw [List.cons_append]
        exact List.perm_middle.symm)

theorem mem_le_sum (l : List Nat) : ∀ x, x ∈ l → x ≤ l.sum := by
  induction l with
  | nil => intro x hx; simp at hx
  | cons a t ih =>
    intro x hx
    simp only [List.sum_cons]
    rcases List.mem_cons.mp hx with h | h
    · omega
    · have := ih x h
      omega

theorem filledSlots_replicate : ∀ n, filledSlots (List.replicate n none) (List.replicate n 0) = [] := by
  intro n
  induction n with
  | zero => rfl
  | succ n ih => simp [List.replicate_succ, filledSlots, ih]

theorem HashmapEF_new_spec (heap : Heap) (nodes : List Nat) (hne : nodes ≠ [])
    (hst : Storable heap nodes) :
    ∃ h gs ps, HashmapEF.new heap nodes = some h ∧ h.size_ = nodes.length ∧
      Holds h.grams_ h.pointers_ gs ps ∧ gs.length = nodes.length ∧
      List.Perm (List.zip gs ps) (nodes.map (fun p => (gramOf heap p, p))) := by
  obtain ⟨hderef, hgram, hgsum, hpsum⟩ := hst
  have hlenpos : 0 < nodes.length := List.length_pos.mpr hne
  have hlen63 : nodes.length ≤ 2 ^ 63 :=
    le_trans (length_le_sum nodes (AllDeref.pos heap nodes hderef)) hpsum
  obtain ⟨gsl, ptl, hfill, hl1, hl2, hperm⟩ := HashmapEF.fill_spec heap nodes.length hlenpos hlen63
    nodes (List.replicate nodes.length none) (List.replicate nodes.length 0) (by simp) (by simp)
    hderef
    (by
      intro p hp
      exact le_trans (mem_le_sum _ _ (List.mem_map_of_mem _ hp)) hgsum)
    (by rw [filledSlots_replicate]; simp)
  rw [filledSlots_replicate, List.nil_append] at hperm
  obtain ⟨gs, hgs, hgslen, hzip⟩ := filledSlots_full gsl ptl (by omega) (by
    rw [hperm.length_eq, List.length_map, hl1])
  rw [hzip] at hperm
  have hgsl : gs.length = ptl.length := by omega
  have hpperm : List.Perm ptl nodes := by
    have := hperm.map Prod.snd
    rw [List.map_snd_zip _ _ (by omega), List.map_map] at this
    have hid : (Prod.snd ∘ fun p => (gramOf heap p, p)) = id := rfl
    rw [hid, List.map_id] at this
    exact this
  have hgperm : List.Perm gs (nodes.map (gramOf heap)) := by
    have := hperm.map Prod.fst
    rw [List.map_fst_zip _ _ (by omega), List.map_map] at this
    exact this
  obtain ⟨ep, hep, _, hpdec⟩ := decodeAt_cumulativeSum ptl
    (by intro h; rw [h] at hl2; simp at hl2; omega)
    (fun x hx => AllDeref.pos heap nodes hderef x (hpperm.subset hx))
    (by rw [hpperm.sum_eq]; exact hpsum)
  obtain ⟨eg, heg, _, hgdec⟩ := decodeAt_cumulativeSum gs
    (by intro h; rw [h] at hgslen; simp at hgslen; omega)
    (by
      intro x hx
      obtain ⟨p, hp, rfl⟩ := List.mem_map.mp (hgperm.subset hx)
      have := hgram p hp
      omega)
    (by rw [hgperm.sum_eq]; exact hgsum)
  refine ⟨{ grams_ := eg, pointers_ := ep, size_ := nodes.length }, gs, ptl, ?_, rfl,
    ⟨hgsl, hgdec, hpdec⟩, by omega, hperm⟩
  simp only [HashmapEF.new, hfill, Option.bind_eq_bind, Option.some_bind, hep, hgs, heg]

theorem AllDeref.get (heap : Heap) (ptrs : List Nat) (h : AllDeref heap ptrs) (p : Nat)
    (hp : p ∈ ptrs) : ∃ n, heap.deref p = some n :=
  Option.isSome_iff_exists.mp (h p hp)

theorem mem_zip_getD : ∀ (l1 l2 : List Nat) (a b : Nat), (a, b) ∈ List.zip l1 l2 →
    ∃ i, i < l1.length ∧ i < l2.length ∧ l1.getD i 0 = a ∧ l2.getD i 0 = b := by
  intro l1
  induction l1 with
  | nil => intro l2 a b h; simp at h
  | cons x t ih =>
    intro l2 a b h
    cases l2 with
    | nil => simp at h
    | cons y t2 =>
      rw [List.zip_cons_cons] at h
      rcases List.mem_cons.mp h with h | h
      · cases h
        exact ⟨0, by simp, by simp, rfl, rfl⟩
      · obtain ⟨i, h1, h2, h3, h4⟩ := ih t2 a b h
        exact ⟨i + 1, by simpa using h1, by simpa using h2, by simpa using h3, by simpa using h4⟩

theorem getD_zip_mem : ∀ (l1 l2 : List Nat) (i : Nat), i < l1.length → i < l2.length →
    (l1.getD i 0, l2.getD i 0) ∈ List.zip l1 l2 := by
  intro l1
  induction l1 with
  | nil => intro l2 i h; simp at h
  | cons x t ih =>
    intro l2 i h1 h2
    cases l2 with
    | nil => simp at h2
    | cons y t2 =>
      cases i with
      | zero => simp
      | succ i =>
        have := ih t2 i (by simpa using h1) (by simpa using h2)
        rw [List.zip_cons_cons]
        exact List.mem_cons_of_mem _ (by simpa using this)

theorem map_getD_range (ps : List Nat) :
    (List.range ps.length).map (fun i => ps.getD i 0) = ps := by
  apply List.ext_getElem
  · simp
  · intro i h1 h2
    simp [List.getD_eq_getElem?_getD, h2]

theorem contents_of_holds (grams pointers : Encoder) (gs ps : List Nat)
    (hh : Holds grams pointers gs ps) :
    (List.range ps.length).mapM (decodeAt pointers) = some ps := by
  have := mapM_option_eq (decodeAt pointers) (fun i => ps.getD i 0) (List.range ps.length)
    (fun i hi => hh.2.2 i (List.mem_range.mp hi))
  rw [this, map_getD_range]

theorem HashmapEF_lookup (heap : Heap) (vocab : Vocab) (nodes : List Nat) (hne : nodes ≠ [])
    (hst : Storable heap nodes) :
    ∃ h, HashmapEF.new heap nodes = some h ∧ h.size_ = nodes.length ∧
      (∃ l, h.contents = some l ∧ List.Perm l nodes) ∧
      (∀ word, vocab.vocabS2ID word ∉ nodes.map (gramOf heap) → h.get vocab word = some 0) ∧
      ((nodes.map (gramOf heap)).Nodup → ∀ p word, p ∈ nodes →
        vocab.vocabS2ID word = gramOf heap p → h.get vocab word = some p) := by
  obtain ⟨h, gs, ps, hnew, hsize, hh, hlen, hperm⟩ := HashmapEF_new_spec heap nodes hne hst
  have hlenpos : 0 < nodes.length := List.length_pos.mpr hne
  have hlen63 : nodes.length ≤ 2 ^ 63 :=
    le_trans (length_le_sum nodes (AllDeref.pos heap nodes hst.1)) hst.2.2.2
  have hgperm : List.Perm gs (nodes.map (gramOf heap)) := by
    have := hperm.map Prod.fst
    rw [List.map_fst_zip _ _ (by rw [hh.1]), List.map_map] at this
    exact this
  have hpperm : List.Perm ps nodes := by
    have := hperm.map Prod.snd
    rw [List.map_snd_zip _ _ (by rw [hh.1]), List.map_map] at this
    have hid : (Prod.snd ∘ fun p => (gramOf heap p, p)) = id := rfl
    rw [hid, List.map_id] at this
    exact this
  refine ⟨h, hnew, hsize, ⟨ps, ?_, hpperm⟩, ?_, ?_⟩
  · have hc := contents_of_holds h.grams_ h.pointers_ gs ps hh
    rw [← hh.1, hlen, ← hsize] at hc
    exact hc
  · intro word hw
    exact HashmapEF_get_miss vocab h gs ps hh (by omega) (by omega) (by omega) word
      (fun hmem => hw (hgperm.subset hmem))
  · intro hnd p word hp hw
    have hmem : (gramOf heap p, p) ∈ List.zip gs ps :=
      hperm.symm.subset (List.mem_map_of_mem (fun p => (gramOf heap p, p)) hp)
    obtain ⟨s, hs1, _, hs3, hs4⟩ := mem_zip_getD gs ps _ _ hmem
    rw [← hs4]
    exact HashmapEF_get_hit vocab h gs ps hh (by omega) (by omega) (hgperm.nodup_iff.mpr hnd)
      word s hs1 (by rw [hw, hs3])

theorem sortDescending_spec (heap : Heap) (ptrs : List Nat) (hderef : AllDeref heap ptrs) :
    ∃ sorted, sortDescending heap ptrs = some sorted ∧ List.Perm sorted ptrs := by
  have hmap : ptrs.mapM (fun p => (heap.deref p).map fun n => (p, n.frequency_)) =
      some (ptrs.map fun p => (p, freqOf heap p)) := by
    apply mapM_option_eq
    intro p hp
    obtain ⟨n, hn⟩ := AllDeref.get heap ptrs hderef p hp
    simp [freqOf, hn]
  refine ⟨((List.insertionSort (fun a b : Nat × Nat => a.2 ≤ b.2)
    (ptrs.map fun p => (p, freqOf heap p))).reverse).map Prod.fst, ?_, ?_⟩
  · simp only [sortDescending, hmap, Option.bind_eq_bind, Option.some_bind]
  have h1 : List.Perm
      ((List.insertionSort (fun a b : Nat × Nat => a.2 ≤ b.2)
        (ptrs.map fun p => (p, freqOf heap p))).reverse)
      (ptrs.map fun p => (p, freqOf heap p)) :=
    (List.reverse_perm _).trans (List.perm_insertionSort _ _)
  have h2 := h1.map Prod.fst
  rw [List.map_map] at h2
  have hid : (Prod.fst ∘ fun p => (p, freqOf heap p)) = id := rfl
  rw [hid, List.map_id] at h2
  exact h2

theorem Storable.perm (heap : Heap) (l1 l2 : List Nat) (h : Storable heap l1)
    (hp : List.Perm l2 l1) : Storable heap l2 := by
  obtain ⟨h1, h2, h3, h4⟩ := h
  refine ⟨fun p hq => h1 p (hp.subset hq), fun p hq => h2 p (hp.subset hq), ?_, ?_⟩
  · rw [(hp.map (gramOf heap)).sum_eq]; exact h3
  · rw [hp.sum_eq]; exact h4

theorem Storable.take (heap : Heap) (l : List Nat) (k : Nat) (h : Storable heap l) :
    Storable heap (l.take k) := by
  obtain ⟨h1, h2, h3, h4⟩ := h
  refine ⟨fun p hq => h1 p (List.mem_of_mem_take hq), fun p hq => h2 p (List.mem_of_mem_take hq),
    ?_, ?_⟩
  · rw [← List.take_append_drop k l, List.map_append, List.sum_append] at h3
    omega
  · exact le_trans (sum_take_le l k) h4

theorem Storable.drop (heap : Heap) (l : List Nat) (k : Nat) (h : Storable heap l) :
    Storable heap (l.drop k) := by
  obtain ⟨h1, h2, h3, h4⟩ := h
  refine ⟨fun p hq => h1 p (List.mem_of_mem_drop hq), fun p hq => h2 p (List.mem_of_mem_drop hq),
    ?_, ?_⟩
  · rw [← List.take_append_drop k l, List.map_append, List.sum_append] at h3
    omega
  · rw [← List.take_append_drop k l, List.sum_append] at h4
    omega

theorem mem_getD_index (l : List Nat) (c : Nat) (hc : c ∈ l) :
    ∃ i, i < l.length ∧ l.getD i 0 = c := by
  obtain ⟨i, hi, heq⟩ := List.mem_iff_getElem.mp hc
  exact ⟨i, hi, by rw [List.getD_eq_getElem _ _ hi, heq]⟩

theorem SortedEF_lookup (heap : Heap) (vocab : Vocab) (nodes : List Nat) (hne : nodes ≠ [])
    (hst : Storable heap nodes) :
    ∃ s, SortedEF.new heap nodes = some s ∧ s.size_ = nodes.length ∧
      s.contents = some nodes ∧
      (∀ word, vocab.vocabS2ID word ∉ nodes.map (gramOf heap) → s.get vocab word = some 0) ∧
      ((nodes.map (gramOf heap)).Nodup → ∀ p word, p ∈ nodes →
        vocab.vocabS2ID word = gramOf heap p → s.get vocab word = some p) := by
  obtain ⟨s, hnew, hsize, hg, hp⟩ := SortedEF_new_spec heap nodes hne hst
  have hh : Holds s.grams_ s.pointers_ (nodes.map (gramOf heap)) nodes := by
    refine ⟨by simp, ?_, hp⟩
    intro i hi
    have hi' : i < nodes.length := by simpa using hi
    rw [hg i hi', getD_map_gram heap nodes i hi']
  refine ⟨s, hnew, hsize, ?_, ?_, ?_⟩
  · have hc := contents_of_holds s.grams_ s.pointers_ _ nodes hh
    rw [← hsize] at hc
    exact hc
  · intro word hw
    exact SortedEF_get_miss vocab s _ nodes hh (by simpa using hsize) word hw
  · intro hnd p word hmem hw
    obtain ⟨i, hi, hget⟩ := mem_getD_index nodes p hmem
    rw [← hget]
    exact SortedEF_get_hit vocab s _ nodes hh (by simpa using hsize) hnd word i (by simpa using hi)
      (by rw [hw, getD_map_gram heap nodes i hi, hget])

theorem Node.new_leaf (heap : Heap) (g f k : Nat) :
    Node.new heap g f k [] =
      some { gram_ := g, frequency_ := f, successors_ := none, topK_ := none } := by
  simp [Node.new]

theorem Node.new_small (heap : Heap) (vocab : Vocab) (g f k : Nat) (cs : List Nat)
    (hne : cs ≠ []) (hst : Storable heap cs) (hk : k + 1 ≥ cs.length) :
    ∃ n s, Node.new heap g f k cs = some n ∧ n.gram_ = g ∧ n.frequency_ = f ∧
      n.topK_ = some s ∧ n.successors_ = none ∧
      (∃ l, n.children = some l ∧ List.Perm l cs) ∧
      (∀ word, vocab.vocabS2ID word ∉ cs.map (gramOf heap) → s.get vocab word = some 0) ∧
      ((cs.map (gramOf heap)).Nodup → ∀ c word, c ∈ cs →
        vocab.vocabS2ID word = gramOf heap c →
          s.get vocab word = some c ∧ n.findSuccessor vocab word = some c) := by
  obtain ⟨sorted, hsort, hperm⟩ := sortDescending_spec heap cs hst.1
  have hlen : sorted.length = cs.length := hperm.length_eq
  have hsne : sorted ≠ [] := by
    intro h
    rw [h] at hlen
    exact hne (List.length_eq_zero.mp hlen.symm)
  have hsst : Storable heap sorted := Storable.perm heap cs sorted hst hperm
  obtain ⟨s, hnew, hsize, hcont, hmiss, hhit⟩ := SortedEF_lookup heap vocab sorted hsne hsst
  have hlen0 : cs.length ≠ 0 := by
    intro h
    exact hne (List.length_eq_zero.mp h)
  have hk' : k + 1 ≥ sorted.length := by omega
  refine ⟨{ gram_ := g, frequency_ := f, successors_ := none, topK_ := some s }, s, ?_, rfl, rfl,
    rfl, rfl, ⟨sorted, ?_, hperm⟩, ?_, ?_⟩
  · simp only [Node.new, hlen0, if_false, hsort, Option.bind_eq_bind, Option.some_bind, hk',
      if_true, List.take_length, hnew]
  · simp only [Node.children, hcont]
  · intro word hw
    exact hmiss word (fun hmem => hw ((hperm.map (gramOf heap)).subset hmem))
  · intro hnd c word hc hw
    have hget := hhit ((hperm.map (gramOf heap)).nodup_iff.mpr hnd) c word (hperm.symm.subset hc) hw
    have hc0 : c ≠ 0 := by
      have := AllDeref.pos heap cs hst.1 c hc
      omega
    exact ⟨hget, by simp [Node.findSuccessor, hget, hc0]⟩

theorem Node.findSuccessor_null_rest (vocab : Vocab) (n : Node) (s : SortedEF) (word : String)
    (htop : n.topK_ = some s) (hrest : n.successors_ = none)
    (hmiss : s.get vocab word = some 0) : n.findSuccessor vocab word = none := by
  simp [Node.findSuccessor, htop, hrest, hmiss]

theorem Node.new_large (heap : Heap) (vocab : Vocab) (g f k : Nat) (cs : List Nat)
    (hk1 : 1 ≤ k) (hst : Storable heap cs) (hk : ¬ k + 1 ≥ cs.length) :
    ∃ n s h, Node.new heap g f k cs = some n ∧ n.gram_ = g ∧ n.frequency_ = f ∧
      n.topK_ = some s ∧ n.successors_ = some h ∧
      (∃ l, n.children = some l ∧ List.Perm l cs) ∧
      (∀ word, vocab.vocabS2ID word ∉ cs.map (gramOf heap) →
        n.findSuccessor vocab word = some 0) ∧
      ((cs.map (gramOf heap)).Nodup → ∀ c word, c ∈ cs →
        vocab.vocabS2ID word = gramOf heap c → n.findSuccessor vocab word = some c) := by
  obtain ⟨sorted, hsort, hperm⟩ := sortDescending_spec heap cs hst.1
  have hlen : sorted.length = cs.length := hperm.length_eq
  have hsst : Storable heap sorted := Storable.perm heap cs sorted hst hperm
  have htake : sorted.take k ≠ [] := by
    intro h
    have := congrArg List.length h
    rw [List.length_take, List.length_nil] at this
    omega
  have hdrop : sorted.drop k ≠ [] := by
    intro h
    have := congrArg List.length h
    rw [List.length_drop, List.length_nil] at this
    omega
  obtain ⟨s, hsnew, hssize, hscont, hsmiss, hshit⟩ :=
    SortedEF_lookup heap vocab (sorted.take k) htake (Storable.take heap sorted k hsst)
  obtain ⟨h, hhnew, hhsize, ⟨l, hhcont, hlperm⟩, hhmiss, hhhit⟩ :=
    HashmapEF_lookup heap vocab (sorted.drop k) hdrop (Storable.drop heap sorted k hsst)
  have hlen0 : cs.length ≠ 0 := by omega
  have hk' : ¬ k + 1 ≥ sorted.length := by omega
  have hsplit : sorted.take k ++ sorted.drop k = sorted := List.take_append_drop k sorted
  refine ⟨{ gram_ := g, frequency_ := f, successors_ := some h, topK_ := some s }, s, h, ?_, rfl,
    rfl, rfl, rfl, ⟨sorted.take k ++ l, ?_, ?_⟩, ?_, ?_⟩
  · simp only [Node.new, hlen0, if_false, hsort, Option.bind_eq_bind, Option.some_bind, hk',
      hsnew, hhnew]
  · simp only [Node.children, hscont, hhcont, Option.bind_eq_bind, Option.some_bind]
  · refine List.Perm.trans ?_ hperm
    conv_rhs => rw [← hsplit]
    exact List.Perm.append_left _ hlperm
  · intro word hw
    have hw' : vocab.vocabS2ID word ∉ sorted.map (gramOf heap) :=
      fun hmem => hw ((hperm.map (gramOf heap)).subset hmem)
    have h1 := hsmiss word (fun hmem => hw' (by
      rw [← hsplit, List.map_append]
      exact List.mem_append_left _ hmem))
    have h2 := hhmiss word (fun hmem => hw' (by
      rw [← hsplit, List.map_append]
      exact List.mem_append_right _ hmem))
    simp [Node.findSuccessor, h1, h2]
  · intro hnd c word hc hw
    have hnd' : (sorted.map (gramOf heap)).Nodup := (hperm.map (gramOf heap)).nodup_iff.mpr hnd
    rw [← hsplit, List.map_append, List.nodup_append] at hnd'
    obtain ⟨hnd1, hnd2, hdisj⟩ := hnd'
    have hc' : c ∈ sorted.take k ++ sorted.drop k := by
      rw [hsplit]
      exact hperm.symm.subset hc
    have hc0 : c ≠ 0 := by
      have := AllDeref.pos heap cs hst.1 c hc
      omega
    rcases List.mem_append.mp hc' with hin | hin
    · have hget := hshit hnd1 c word hin hw
      simp [Node.findSuccessor, hget, hc0]
    · have h1 := hsmiss word (fun hmem => by
        rw [hw] at hmem
        exact hdisj hmem (List.mem_map_of_mem _ hin))
      have h2 := hhhit hnd2 c word hin hw
      simp [Node.findSuccessor, h1, h2]

/-- C3 (code defect): the constructor's comment promises correct encoding for every
non-decreasing sequence of numbers greater than 2, yet for `[3, 3, 3, 3]` the last
element is smaller than the length, the quotient fed to `log2` is 0, and the
conversion of `-inf` to `int` is undefined: no encoder is produced. -/
theorem C3_encoder_undefined_when_last_below_length : Encoder.new [3, 3, 3, 3] = none := by
  decide

set_option maxRecDepth 100000 in
/-- C4 (code defect): for `A = [3, 3 * 2 ^ 62]` the running sums `[3, 3 * 2 ^ 62 + 3]` fit
in 64 bits, the encoder is built with `maxBits_ = 65`, and `access(0)` writes bit 64 of
a `bitset<64>`, which is undefined, instead of returning `A[0] = 3`. -/
theorem C4_access_undefined_above_two_pow_63 :
    ((Encoder.new (cumulativeSum [3, 3 * 2 ^ 62])).map Encoder.maxBits_ = some 65) ∧
      (Encoder.new (cumulativeSum [3, 3 * 2 ^ 62])).bind (fun e => e.access 0) = none := by
  decide

/-- C5: for a non-empty list of storable nodes (gram ids at least 3, running sums within
`2 ^ 63`) with pairwise distinct gram ids, the `HashmapEF` built from the list returns,
for a word whose id is the gram id of a node `p` of the list, the pointer `p`. -/
theorem C5_hashmap_get_hit (heap : Heap) (vocab : Vocab) (nodes : List Nat) (hne : nodes ≠ [])
    (hst : Storable heap nodes) (hnd : (nodes.map (gramOf heap)).Nodup)
    (p : Nat) (hp : p ∈ nodes) (word : String) (hw : vocab.vocabS2ID word = gramOf heap p) :
    (HashmapEF.new heap nodes).bind (fun h => h.get vocab word) = some p := by
  obtain ⟨h, hnew, _, _, _, hhit⟩ := HashmapEF_lookup heap vocab nodes hne hst
  rw [hnew, Option.some_bind]
  exact hhit hnd p word hp hw

set_option maxRecDepth 100000 in
/-- C5 at the sample heap: the word `ran` (id 6) is found at address 48. -/
theorem C5_hashmap_get_hit_witness :
    (HashmapEF.new sampleHeap [16, 32, 48, 64]).bind (fun h => h.get sampleVocab "ran") =
      some 48 :=
  C5_hashmap_get_hit sampleHeap sampleVocab [16, 32, 48, 64] (by decide) (by decide) (by decide)
    48 (by decide) "ran" (by decide)

/-- C6: for a `HashmapEF` built from a non-empty list of storable nodes and a word whose
id is not the gram id of any of them (id 0 for a word outside the vocabulary included),
the probe loop of `get` runs over all `N` slots without a match and `get` returns the
null pointer. -/
theorem C6_hashmap_get_miss (heap : Heap) (vocab : Vocab) (nodes : List Nat) (hne : nodes ≠ [])
    (hst : Storable heap nodes) (word : String)
    (hw : vocab.vocabS2ID word ∉ nodes.map (gramOf heap)) :
    ∃ h, HashmapEF.new heap nodes = some h ∧
      HashmapEF.getLoop h (vocab.vocabS2ID word) (vocab.vocabS2ID word % nodes.length)
        (List.range nodes.length) = some none ∧
      h.get vocab word = some 0 := by
  obtain ⟨h, gs, ps, hnew, hsize, hh, hlen, hperm⟩ := HashmapEF_new_spec heap nodes hne hst
  have hlenpos : 0 < nodes.length := List.length_pos.mpr hne
  have hlen63 : nodes.length ≤ 2 ^ 63 :=
    le_trans (length_le_sum nodes (AllDeref.pos heap nodes hst.1)) hst.2.2.2
  have hgperm : List.Perm gs (nodes.map (gramOf heap)) := by
    have := hperm.map Prod.fst
    rw [List.map_fst_zip _ _ (by rw [hh.1]), List.map_map] at this
    exact this
  have hw' : vocab.vocabS2ID word ∉ gs := fun hmem => hw (hgperm.subset hmem)
  refine ⟨h, hnew, ?_, HashmapEF_get_miss vocab h gs ps hh (by omega) (by omega) (by omega)
    word hw'⟩
  have hnone : (List.range gs.length).find?
      (fun i => decide (gs.getD ((vocab.vocabS2ID word % gs.length + i) % gs.length) 0 =
        vocab.vocabS2ID word)) = none := by
    rw [List.find?_eq_none]
    intro j _
    have hmem := getD_mem gs ((vocab.vocabS2ID word % gs.length + j) % gs.length)
      (Nat.mod_lt _ (by omega))
    simp only [decide_eq_true_eq]
    intro heq
    exact hw' (heq ▸ hmem)
  rw [← hlen, HashmapEF_getLoop_eq h gs ps _ _ hh (by omega) (by omega) _
    (fun i hi => probe_bound gs.length _ i (by omega) (by omega) (List.mem_range.mp hi)), hnone]
  rfl

set_option maxRecDepth 100000 in
/-- C6 at the sample heap: the word `xyz` is outside the vocabulary, its id is 0. -/
theorem C6_hashmap_get_miss_witness :
    ∃ h, HashmapEF.new sampleHeap [16, 32, 48, 64] = some h ∧
      HashmapEF.getLoop h (sampleVocab.vocabS2ID "xyz")
        (sampleVocab.vocabS2ID "xyz" % [16, 32, 48, 64].length)
        (List.range [16, 32, 48, 64].length) = some none ∧
      h.get sampleVocab "xyz" = some 0 :=
  C6_hashmap_get_miss sampleHeap sampleVocab [16, 32, 48, 64] (by decide) (by decide) "xyz"
    (by decide)

/-- C8: for a node built with `k ≥ 2` from a non-empty list of storable children with
pairwise distinct gram ids, `findSuccessor` of a word whose id is the gram id of a child
`c` returns the pointer `c`, whether `c` sits in `topK_` or in `successors_`; and when
there are at most `k + 1` children the node has no `successors_` block and the lookup
succeeds in `topK_`. -/
theorem C8_findSuccessor_hit (heap : Heap) (vocab : Vocab) (g f k : Nat) (cs : List Nat)
    (hk : 2 ≤ k) (hne : cs ≠ []) (hst : Storable heap cs)
    (hnd : (cs.map (gramOf heap)).Nodup) (c : Nat) (hc : c ∈ cs) (word : String)
    (hw : vocab.vocabS2ID word = gramOf heap c) :
    (Node.new heap g f k cs).bind (fun n => n.findSuccessor vocab word) = some c ∧
      (cs.length ≤ k + 1 →
        (Node.new heap g f k cs).map Node.successors_ = some none ∧
        (Node.new heap g f k cs).bind
          (fun n => n.topK_.bind (fun s => s.get vocab word)) = some c) := by
  by_cases hsmall : k + 1 ≥ cs.length
  · obtain ⟨n, s, hnew, _, _, htop, hrest, _, _, hhit⟩ :=
      Node.new_small heap vocab g f k cs hne hst hsmall
    obtain ⟨h1, h2⟩ := hhit hnd c word hc hw
    rw [hnew]
    refine ⟨by simpa using h2, fun _ => ⟨by simp [hrest], ?_⟩⟩
    simp [htop, h1]
  · obtain ⟨n, s, h, hnew, _, _, _, _, _, _, hhit⟩ :=
      Node.new_large heap vocab g f k cs (by omega) hst hsmall
    rw [hnew]
    refine ⟨by simpa using hhit hnd c word hc hw, fun hle => ?_⟩
    omega

set_option maxRecDepth 100000 in
/-- C8 at the sample heap with `k = 2` and four children: `ran` has the lowest frequency
and is found through the `successors_` block. -/
theorem C8_findSuccessor_hit_witness :
    (Node.new sampleHeap 3 19 2 [16, 32, 48, 64]).bind
        (fun n => n.findSuccessor sampleVocab "ran") = some 48 ∧
      ([16, 32, 48, 64].length ≤ 2 + 1 →
        (Node.new sampleHeap 3 19 2 [16, 32, 48, 64]).map Node.successors_ = some none ∧
        (Node.new sampleHeap 3 19 2 [16, 32, 48, 64]).bind
          (fun n => n.topK_.bind (fun s => s.get sampleVocab "ran")) = some 48) :=
  C8_findSuccessor_hit sampleHeap sampleVocab 3 19 2 [16, 32, 48, 64] (by decide) (by decide)
    (by decide) (by decide) 48 (by decide) "ran" (by decide)

set_option maxRecDepth 100000 in
/-- C9 (code defect): a node built with `k = 2` from the two children `sat` and `cat` has a
`topK_` block and a null `successors_`; for the word `dog`, which is none of its
children, `topK_->get` misses and `findSuccessor` goes on to call `successors_->get`
through the null pointer, which is undefined, instead of returning null.  On a leaf and
on a node with both blocks the same miss returns null. -/
theorem C9_findSuccessor_miss_dereferences_null :
    (Node.new sampleHeap 3 8 2 [16, 32]).map Node.successors_ = some none ∧
      (Node.new sampleHeap 3 8 2 [16, 32]).bind
        (fun n => n.topK_.bind (fun s => s.get sampleVocab "dog")) = some 0 ∧
      (Node.new sampleHeap 3 8 2 [16, 32]).bind
        (fun n => n.findSuccessor sampleVocab "dog") = none ∧
      (Node.new sampleHeap 3 8 2 []).bind
        (fun n => n.findSuccessor sampleVocab "dog") = some 0 ∧
      (Node.new sampleHeap 3 19 2 [16, 32, 48, 64]).bind
        (fun n => n.findSuccessor sampleVocab "the") = some 0 := by
  decide

set_option maxRecDepth 100000 in
/-- C7 (code defect): on the trie of the sample corpus the word `xyz` is not a root, so
`roots_->get` returns null; `frequencyCount` then reads the frequency and
`mostLikelyNext` calls a method through the null pointer, which is undefined, instead of
returning 0 and the empty list. -/
theorem C7_query_miss_dereferences_null :
    (Trie.new sampleEnv sampleCorpus).bind
        (fun r => r.2.roots_.get sampleVocab "xyz") = some 0 ∧
      (Trie.new sampleEnv sampleCorpus).bind
        (fun r => r.2.frequencyCount r.1 sampleVocab ["xyz"]) = none ∧
      (Trie.new sampleEnv sampleCorpus).bind
        (fun r => r.2.mostLikelyNext r.1 sampleVocab ["xyz"] 5) = none := by
  decide

theorem lookup_of_mem_keys (heap : Heap) (p : Nat) (hp : p ∈ heap.map Prod.fst) :
    ∃ n, heap.lookup p = some n := by
  induction heap with
  | nil => simp at hp
  | cons c t ih =>
    obtain ⟨a, v⟩ := c
    rw [List.lookup_cons]
    by_cases h : p = a
    · subst h
      exact ⟨v, by simp⟩
    · have : (p == a) = false := by simpa using h
      rw [this]
      apply ih
      simpa [h] using hp

theorem mem_keys_of_lookup (heap : Heap) (p : Nat) (n : Node) (h : heap.lookup p = some n) :
    p ∈ heap.map Prod.fst := by
  induction heap with
  | nil => simp at h
  | cons c t ih =>
    obtain ⟨a, v⟩ := c
    rw [List.lookup_cons] at h
    by_cases hpa : p = a
    · subst hpa
      simp
    · have : (p == a) = false := by simpa using hpa
      rw [this] at h
      exact List.mem_cons_of_mem _ (ih h)

theorem deref_append_of_mem (heap ext : Heap) (p : Nat) (hp : p ∈ heap.map Prod.fst) :
    Heap.deref (heap ++ ext) p = heap.deref p := by
  obtain ⟨n, hn⟩ := lookup_of_mem_keys heap p hp
  simp only [Heap.deref, List.lookup_append, hn, Option.or_some]

theorem deref_append_new (heap : Heap) (a : Nat) (n : Node) (ha : a ∉ heap.map Prod.fst)
    (h0 : a ≠ 0) : Heap.deref (heap ++ [(a, n)]) a = some n := by
  have hnone : heap.lookup a = none := by
    cases h : heap.lookup a with
    | none => rfl
    | some v => exact absurd (mem_keys_of_lookup heap a v h) ha
  simp [Heap.deref, h0, List.lookup_append, hnone, List.lookup_cons]

theorem deref_append_cases (heap : Heap) (a : Nat) (n m : Node) (p : Nat)
    (h : Heap.deref (heap ++ [(a, n)]) p = some m) :
    heap.deref p = some m ∨ (p = a ∧ m = n ∧ p ∉ heap.map Prod.fst) := by
  by_cases hp : p ∈ heap.map Prod.fst
  · rw [deref_append_of_mem heap _ p hp] at h
    exact Or.inl h
  · right
    have hnone : heap.lookup p = none := by
      cases h' : heap.lookup p with
      | none => rfl
      | some v => exact absurd (mem_keys_of_lookup heap p v h') hp
    unfold Heap.deref at h
    split at h
    · cases h
    · rw [List.lookup_append, hnone, Option.none_or, List.lookup_cons] at h
      by_cases hpa : p = a
      · subst hpa
        simp at h
        exact ⟨rfl, h.symm, hp⟩
      · have : (p == a) = false := by simpa using hpa
        rw [this] at h
        simp at h

theorem gramOf_append (heap ext : Heap) (p : Nat) (hp : p ∈ heap.map Prod.fst) :
    gramOf (heap ++ ext) p = gramOf heap p := by
  simp only [gramOf, deref_append_of_mem heap ext p hp]

theorem freqOf_append (heap ext : Heap) (p : Nat) (hp : p ∈ heap.map Prod.fst) :
    freqOf (heap ++ ext) p = freqOf heap p := by
  simp only [freqOf, deref_append_of_mem heap ext p hp]

theorem map_freqOf_append (heap ext : Heap) (l : List Nat)
    (hl : ∀ q, q ∈ l → q ∈ heap.map Prod.fst) :
    l.map (freqOf (heap ++ ext)) = l.map (freqOf heap) := by
  apply List.map_congr_left
  intro q hq
  exact freqOf_append heap ext q (hl q hq)

theorem sum_le_of_scaled (l : List Nat) (M C : Nat) (hl : ∀ x, x ∈ l → x * M ≤ C)
    (hlen : l.length ≤ M) : l.sum ≤ C := by
  have h : l.sum * M ≤ l.length * C := by
    induction l with
    | nil => simp
    | cons a t ih =>
      have h1 := hl a (List.mem_cons_self _ _)
      have h2 := ih (fun x hx => hl x (List.mem_cons_of_mem _ hx))
        (by simp only [List.length_cons] at hlen; omega)
      simp only [List.sum_cons, List.length_cons]
      calc (a + t.sum) * M = a * M + t.sum * M := by ring
        _ ≤ C + t.length * C := by omega
        _ = (t.length + 1) * C := by ring
  by_cases hM : M = 0
  · subst hM
    have : l = [] := List.length_eq_zero.mp (by omega)
    subst this
    simp
  · have h3 : l.length * C ≤ M * C := Nat.mul_le_mul_right C hlen
    have h4 : l.sum * M ≤ C * M := by
      rw [Nat.mul_comm C M]
      omega
    exact Nat.le_of_mul_le_mul_right h4 (by omega)

theorem length_le_sum_lengths (ls : List (List Nat)) (ps : List Nat) (h : ps ∈ ls) :
    ps.length ≤ (ls.map List.length).sum :=
  mem_le_sum _ _ (List.mem_map_of_mem _ h)

theorem Good.key_facts (env : BuildEnv) (M T : Nat) (st : BuildState) (hg : Good env M T st)
    (ha : AddrOK env M) (hM : st.heap.length ≤ M) (p : Nat) (hp : p ∈ st.heap.map Prod.fst) :
    p ≠ 0 ∧ p * M ≤ 2 ^ 63 ∧ ∃ n, st.heap.deref p = some n := by
  have hp' := hp
  rw [hg.keys] at hp'
  obtain ⟨i, hi, rfl⟩ := List.mem_map.mp hp'
  have hiM : i < M := by
    have := List.mem_range.mp hi
    omega
  obtain ⟨h0, hb⟩ := ha.1 i hiM
  refine ⟨h0, hb, ?_⟩
  obtain ⟨n, hn⟩ := lookup_of_mem_keys st.heap _ hp
  exact ⟨n, by simp [Heap.deref, h0, hn]⟩

theorem Good.fresh (env : BuildEnv) (M T : Nat) (st : BuildState) (hg : Good env M T st)
    (ha : AddrOK env M) (hM : st.heap.length < M) :
    env.addr st.heap.length ∉ st.heap.map Prod.fst ∧ env.addr st.heap.length ≠ 0 := by
  refine ⟨?_, (ha.1 _ hM).1⟩
  rw [hg.keys]
  intro hmem
  obtain ⟨i, hi, heq⟩ := List.mem_map.mp hmem
  have hlt := List.mem_range.mp hi
  have := ha.2 i (by omega) st.heap.length hM heq
  omega

theorem Good.storable (env : BuildEnv) (M T : Nat) (st : BuildState) (hg : Good env M T st)
    (ha : AddrOK env M) (hM : st.heap.length ≤ M) (ps : List Nat) (hps : ps ∈ st.levelNodes) :
    Storable st.heap ps := by
  have hlen : ps.length ≤ M :=
    le_trans (le_trans (length_le_sum_lengths _ ps hps) hg.room) hM
  refine ⟨?_, ?_, ?_, ?_⟩
  · intro p hp
    obtain ⟨_, _, n, hn⟩ := Good.key_facts env M T st hg ha hM p (hg.ptrs ps hps p hp).1
    simp [hn]
  · intro p hp
    exact (hg.ptrs ps hps p hp).2.1
  · apply sum_le_of_scaled _ M _ _ (by simpa using hlen)
    intro x hx
    obtain ⟨p, hp, rfl⟩ := List.mem_map.mp hx
    exact (hg.ptrs ps hps p hp).2.2
  · apply sum_le_of_scaled _ M _ _ hlen
    intro p hp
    exact (Good.key_facts env M T st hg ha hM p (hg.ptrs ps hps p hp).1).2.1

theorem sum_set_add : ∀ (l : List Nat) (i x : Nat), i < l.length →
    (l.set i x).sum + l.getD i 0 = l.sum + x := by
  intro l
  induction l with
  | nil => intro i x h; simp at h
  | cons a t ih =>
    intro i x h
    cases i with
    | zero => simp; omega
    | succ i =>
      have := ih i x (by simpa using h)
      simp only [List.set_cons_succ, List.sum_cons, List.getD_cons_succ]
      omega

theorem sum_set_le (l : List Nat) (i x : Nat) : (l.set i x).sum ≤ l.sum + x := by
  by_cases h : i < l.length
  · have := sum_set_add l i x h
    omega
  · rw [List.set_eq_of_length_le (by omega)]
    omega

theorem getD_add_getD_le_sum : ∀ (l : List Nat) (i j : Nat), i ≠ j →
    l.getD i 0 + l.getD j 0 ≤ l.sum := by
  intro l
  induction l with
  | nil => intro i j _; simp
  | cons a t ih =>
    intro i j hij
    cases i with
    | zero =>
      cases j with
      | zero => exact absurd rfl hij
      | succ j =>
        simp only [List.getD_cons_zero, List.getD_cons_succ, List.sum_cons]
        by_cases hj : j < t.length
        · have := mem_le_sum t _ (getD_mem t j hj)
          omega
        · rw [List.getD_eq_default _ _ (by omega)]
          omega
    | succ i =>
      cases j with
      | zero =>
        simp only [List.getD_cons_zero, List.getD_cons_succ, List.sum_cons]
        by_cases hi : i < t.length
        · have := mem_le_sum t _ (getD_mem t i hi)
          omega
        · rw [List.getD_eq_default _ _ (by omega)]
          omega
      | succ j =>
        have := ih i j (by omega)
        simp only [List.getD_cons_succ, List.sum_cons]
        omega

theorem getD_le_sum (l : List Nat) (i : Nat) : l.getD i 0 ≤ l.sum := by
  by_cases hi : i < l.length
  · exact mem_le_sum l _ (getD_mem l i hi)
  · rw [List.getD_eq_default _ _ (by omega)]
    omega

theorem sum_lengths_set (ls : List (List Nat)) (i : Nat) (x : List Nat) :
    ((ls.set i x).map List.length).sum + (ls.getD i []).length ≤
      (ls.map List.length).sum + x.length := by
  by_cases h : i < ls.length
  · have h1 := sum_set_add (ls.map List.length) i x.length (by simpa using h)
    have h2 : (ls.set i x).map List.length = (ls.map List.length).set i x.length := by
      rw [List.map_set]
    have h3 : (ls.map List.length).getD i 0 = (ls.getD i []).length := by
      rw [List.getD_eq_getElem _ _ (by simpa using h), List.getD_eq_getElem _ _ h]
      simp
    rw [h2]
    omega
  · rw [List.set_eq_of_length_le (by omega), List.getD_eq_default _ _ (by omega)]
    simp

theorem mem_set_cases {α : Type} (l : List α) (i : Nat) (x y : α) (h : y ∈ l.set i x) :
    y ∈ l ∨ y = x := by
  rcases List.mem_or_eq_of_mem_set h with h | h
  · exact Or.inl h
  · exact Or.inr h

theorem getD_nil_or_mem (ls : List (List Nat)) (i : Nat) :
    ls.getD i [] = [] ∨ ls.getD i [] ∈ ls := by
  by_cases h : i < ls.length
  · right
    rw [List.getD_eq_getElem _ _ h]
    exact List.getElem_mem h
  · left
    exact List.getD_eq_default _ _ (by omega)

theorem Good.emit (env : BuildEnv) (M T T' : Nat) (st : BuildState) (hg : Good env M T st)
    (ha : AddrOK env M) (hM : st.heap.length < M) (lv freq : Nat) (node : Node)
    (hlv : lv < env.gramLen)
    (hgram : 3 ≤ node.gram_ ∧ node.gram_ * M ≤ 2 ^ 63)
    (hfreq : node.frequency_ = freq)
    (hchildren : ∃ l, node.children = some l ∧ List.Perm l (st.levelNodes.getD (lv + 1) []))
    (hsum : (node.topK_.isSome = true ∨ node.successors_.isSome = true) →
      freq = ((st.levelNodes.getD (lv + 1) []).map (freqOf st.heap)).sum)
    (hT : st.levelCounts.sum + freq ≤ T' + st.levelCounts.getD lv 0) :
    Good env M T' (emitState env lv freq node st) := by
  obtain ⟨hfresh, hne0⟩ := Good.fresh env M T st hg ha hM
  have hderefNew : Heap.deref (st.heap ++ [(env.addr st.heap.length, node)])
      (env.addr st.heap.length) = some node := deref_append_new _ _ _ hfresh hne0
  have hkeysub : ∀ q, q ∈ st.heap.map Prod.fst →
      q ∈ (st.heap ++ [(env.addr st.heap.length, node)]).map Prod.fst := by
    intro q hq
    rw [List.map_append]
    exact List.mem_append_left _ hq
  have hold : ∀ ps, ps ∈ st.levelNodes → ∀ q, q ∈ ps → q ∈ st.heap.map Prod.fst :=
    fun ps hps q hq => (hg.ptrs ps hps q hq).1
  have holdD : ∀ i q, q ∈ st.levelNodes.getD i [] → q ∈ st.heap.map Prod.fst := by
    intro i q hq
    rcases getD_nil_or_mem st.levelNodes i with h | h
    · rw [h] at hq
      simp at hq
    · exact hold _ h q hq
  refine ⟨?_, ?_, ?_, ?_, ?_, ?_, ?_, ?_⟩
  · simp [emitState, hg.lenNodes]
  · simp [emitState, hg.lenCounts]
  · simp only [emitState, List.map_append, List.length_append, List.length_singleton,
      List.range_succ, hg.keys, List.map_cons, List.map_nil]
  · intro ps hps p hp
    simp only [emitState] at hps ⊢
    rcases mem_set_cases _ _ _ _ hps with h1 | h1
    · rcases mem_set_cases _ _ _ _ h1 with h2 | h2
      · obtain ⟨hk, h3, h4⟩ := hg.ptrs ps h2 p hp
        exact ⟨hkeysub p hk, by rw [gramOf_append _ _ p hk]; exact h3,
          by rw [gramOf_append _ _ p hk]; exact h4⟩
      · subst h2
        rcases List.mem_append.mp hp with h3 | h3
        · have hk := holdD lv p h3
          rcases getD_nil_or_mem st.levelNodes lv with h5 | h5
          · rw [h5] at h3
            simp at h3
          · obtain ⟨_, h6, h7⟩ := hg.ptrs _ h5 p h3
            exact ⟨hkeysub p hk, by rw [gramOf_append _ _ p hk]; exact h6,
              by rw [gramOf_append _ _ p hk]; exact h7⟩
        · have hpa : p = env.addr st.heap.length := by simpa using h3
          subst hpa
          refine ⟨by simp, ?_, ?_⟩
          · rw [gramOf_eq _ _ _ hderefNew]; exact hgram.1
          · rw [gramOf_eq _ _ _ hderefNew]; exact hgram.2
    · subst h1
      simp at hp
  · simp only [emitState, List.length_append, List.length_singleton]
    have h1 := sum_lengths_set
      (st.levelNodes.set lv (st.levelNodes.getD lv [] ++ [env.addr st.heap.length])) (lv + 1) []
    have h2 := sum_lengths_set st.levelNodes lv
      (st.levelNodes.getD lv [] ++ [env.addr st.heap.length])
    have h3 := hg.room
    simp only [List.length_append, List.length_singleton, List.length_nil] at h1 h2
    omega
  · intro d ps c hps hc
    simp only [emitState] at hps hc ⊢
    rw [List.getElem?_set] at hps hc
    by_cases hd : lv = d
    · subst hd
      rw [if_pos rfl] at hps hc
      split at hps
      · split at hc
        · cases hps
          cases hc
          simp
        · cases hc
      · cases hps
    · rw [if_neg (by omega)] at hps
      rw [if_neg hd] at hc
      rw [List.getElem?_set] at hps hc
      by_cases hd1 : lv = d + 1
      · rw [if_pos hd1] at hps
        have hd' : lv - 1 = d := by omega
        rw [if_pos hd'] at hc
        split at hps
        · split at hc
          · cases hps
            cases hc
            rw [List.map_append, List.sum_append, List.map_singleton, List.sum_singleton,
              freqOf_eq _ _ _ hderefNew, hfreq, map_freqOf_append _ _ _ (holdD lv)]
            congr 1
            rename_i hlt1 hlt2
            have hI2 := hg.counts d (st.levelNodes.getD lv []) (st.levelCounts.getD (lv - 1) 0)
              (by rw [← hd1, List.getD_eq_getElem?_getD]
                  rw [List.getElem?_eq_getElem hlt1]; rfl)
              (by rw [← hd', List.getD_eq_getElem?_getD]
                  rw [List.getElem?_eq_getElem hlt2]; rfl)
            exact hI2
          · cases hc
        · cases hps
      · rw [if_neg hd1] at hps
        have hd' : ¬ lv - 1 = d := by omega
        rw [if_neg hd'] at hc
        rw [hg.counts d ps c hps hc]
        have hmem : ps ∈ st.levelNodes := by
          obtain ⟨h, heq⟩ := List.getElem?_eq_some_iff.mp hps
          rw [← heq]
          exact List.getElem_mem h
        rw [map_freqOf_append _ _ _ (hold ps hmem)]
  · simp only [emitState]
    by_cases hlv0 : lv < st.levelCounts.length
    · have h1 := sum_set_add
        (st.levelCounts.set (lv - 1) (st.levelCounts.getD (lv - 1) 0 + freq)) lv 0
        (by simpa using hlv0)
      by_cases hlv1 : lv = 0
      · subst hlv1
        simp only [Nat.zero_sub, List.set_set] at h1 ⊢
        have h2 := sum_set_add st.levelCounts 0 0 hlv0
        omega
      · have h2 := sum_set_add st.levelCounts (lv - 1) (st.levelCounts.getD (lv - 1) 0 + freq)
          (by omega)
        have h3 : (st.levelCounts.set (lv - 1) (st.levelCounts.getD (lv - 1) 0 + freq)).getD lv 0 =
            st.levelCounts.getD lv 0 := by
          rw [List.getD_eq_getElem?_getD, List.getElem?_set_ne (by omega),
            ← List.getD_eq_getElem?_getD]
        rw [h3] at h1
        omega
    · rw [List.set_eq_of_length_le (by simp; omega)]
      have h2 := sum_set_le st.levelCounts (lv - 1) (st.levelCounts.getD (lv - 1) 0 + freq)
      have h3 : st.levelCounts.getD lv 0 = 0 := List.getD_eq_default _ _ (by omega)
      by_cases hlv2 : lv - 1 < st.levelCounts.length
      · have h4 := sum_set_add st.levelCounts (lv - 1)
          (st.levelCounts.getD (lv - 1) 0 + freq) hlv2
        omega
      · rw [List.set_eq_of_length_le (by omega)]
        omega
  · intro p n hp
    simp only [emitState] at hp ⊢
    rcases deref_append_cases _ _ _ _ _ hp with h1 | ⟨h1, h2, _⟩
    · obtain ⟨l, hl, hsub, hfs⟩ := hg.nodes p n h1
      refine ⟨l, hl, fun q hq => hkeysub q (hsub q hq), ?_⟩
      intro htop
      rw [hfs htop, map_freqOf_append _ _ _ hsub]
    · subst h2
      obtain ⟨l, hl, hperm⟩ := hchildren
      have hsub : ∀ q, q ∈ l → q ∈ st.heap.map Prod.fst :=
        fun q hq => holdD (lv + 1) q (hperm.subset hq)
      refine ⟨l, hl, fun q hq => hkeysub q (hsub q hq), ?_⟩
      intro htop
      rw [hfreq, hsum htop, map_freqOf_append _ _ _ hsub, (hperm.map (freqOf st.heap)).sum_eq]

theorem Node.new_any (heap : Heap) (vocab : Vocab) (g f k : Nat) (cs : List Nat) (hk : 1 ≤ k)
    (hst : Storable heap cs) :
    ∃ n, Node.new heap g f k cs = some n ∧ n.gram_ = g ∧ n.frequency_ = f ∧
      (∃ l, n.children = some l ∧ List.Perm l cs) ∧
      ((cs.map (gramOf heap)).Nodup → ∀ c word, c ∈ cs →
        vocab.vocabS2ID word = gramOf heap c → n.findSuccessor vocab word = some c) := by
  by_cases hne : cs = []
  · subst hne
    refine ⟨_, Node.new_leaf heap g f k, rfl, rfl, ⟨[], rfl, List.Perm.refl _⟩, ?_⟩
    intro _ c word hc
    simp at hc
  · by_cases hsmall : k + 1 ≥ cs.length
    · obtain ⟨n, s, hnew, hg, hf, _, _, hch, _, hhit⟩ :=
        Node.new_small heap vocab g f k cs hne hst hsmall
      exact ⟨n, hnew, hg, hf, hch, fun hnd c word hc hw => (hhit hnd c word hc hw).2⟩
    · obtain ⟨n, s, h, hnew, hg, hf, _, _, hch, _, hhit⟩ :=
        Node.new_large heap vocab g f k cs hk hst hsmall
      exact ⟨n, hnew, hg, hf, hch, hhit⟩

theorem getElem?_getD_string (l : List String) (d : Nat) (h : d < l.length) :
    l[d]? = some (l.getD d "") := by
  rw [List.getD_eq_getElem _ _ h, List.getElem?_eq_getElem h]

theorem getElem?_getD_nat (l : List Nat) (d : Nat) (h : d < l.length) :
    l[d]? = some (l.getD d 0) := by
  rw [List.getD_eq_getElem _ _ h, List.getElem?_eq_getElem h]

theorem getElem?_getD_list (l : List (List Nat)) (d : Nat) (h : d < l.length) :
    l[d]? = some (l.getD d []) := by
  rw [List.getD_eq_getElem _ _ h, List.getElem?_eq_getElem h]

theorem leafCase_spec (env : BuildEnv) (M T : Nat) (st : BuildState) (hg : Good env M T st)
    (c : Line) (hL : 2 ≤ env.gramLen) (hL64 : env.gramLen < 2 ^ bits)
    (hc : c.1.length = env.gramLen) (hT : T + c.2 < 2 ^ 31) :
    leafCase env c st =
      some (emitState env (env.gramLen - 1) c.2
        (leafNode (idAt env c (env.gramLen - 1)) c.2) st) := by
  have hword : c.1[sub64 c.1.length 1]? = some (tokenAt c (env.gramLen - 1)) := by
    rw [sub64_of_le _ _ (by omega) (by omega), hc]
    exact getElem?_getD_string _ _ (by omega)
  have hnodes : st.levelNodes[env.gramLen - 1]? =
      some (st.levelNodes.getD (env.gramLen - 1) []) :=
    getElem?_getD_list _ _ (by rw [hg.lenNodes]; omega)
  have hcounts : st.levelCounts[env.gramLen - 2]? =
      some (st.levelCounts.getD (env.gramLen - 2) 0) :=
    getElem?_getD_nat _ _ (by rw [hg.lenCounts]; omega)
  have hle : st.levelCounts.getD (env.gramLen - 2) 0 ≤ T :=
    le_trans (getD_le_sum _ _) hg.total
  have hint : intAdd (st.levelCounts.getD (env.gramLen - 2) 0) c.2 =
      some (st.levelCounts.getD (env.gramLen - 2) 0 + c.2) := by
    simp only [intAdd]
    rw [if_pos (by omega)]
  have hnl : ¬ env.gramLen < 2 := by omega
  have h1 : env.gramLen - 1 - 1 = env.gramLen - 2 := by omega
  have h2 : env.gramLen - 1 + 1 = env.gramLen := by omega
  simp only [leafCase, hword, Node.new_leaf, allocNode, pushNode, hnodes, addCount, hcounts, hint,
    hnl, if_false, Option.bind_eq_bind, Option.some_bind, emitState, idAt, leafNode, h1, h2]
  rw [List.set_eq_of_length_le (l := List.set _ _ _) (n := env.gramLen)
    (by rw [List.length_set, hg.lenNodes]),
    List.set_eq_of_length_le (l := List.set _ _ _) (n := env.gramLen - 1)
    (by rw [List.length_set, hg.lenCounts])]

theorem intermediateCase_spec (env : BuildEnv) (M T : Nat) (st : BuildState)
    (hg : Good env M T st) (ha : AddrOK env M) (hM : st.heap.length ≤ M) (c : Line)
    (hL64 : env.gramLen < 2 ^ bits) (hc : c.1.length = env.gramLen) (hk : 1 ≤ env.k)
    (hT : T < 2 ^ 31) (d : Nat) (hd1 : 1 ≤ d) (hd2 : d + 2 ≤ env.gramLen) :
    ∃ node, intermediateCase env c (env.gramLen - d) st =
        some (emitState env d (st.levelCounts.getD d 0) node st) ∧
      node.gram_ = idAt env c d ∧ node.frequency_ = st.levelCounts.getD d 0 ∧
      (∃ l, node.children = some l ∧ List.Perm l (st.levelNodes.getD (d + 1) [])) ∧
      (((st.levelNodes.getD (d + 1) []).map (gramOf st.heap)).Nodup → ∀ q word,
        q ∈ st.levelNodes.getD (d + 1) [] → env.vocab.vocabS2ID word = gramOf st.heap q →
          node.findSuccessor env.vocab word = some q) := by
  have hi : env.gramLen - (env.gramLen - d) = d := by omega
  have hword : c.1[sub64 c.1.length (env.gramLen - d)]? = some (tokenAt c d) := by
    rw [sub64_of_le _ _ (by omega) (by omega), hc, hi]
    exact getElem?_getD_string _ _ (by omega)
  have hfreq : st.levelCounts[d]? = some (st.levelCounts.getD d 0) :=
    getElem?_getD_nat _ _ (by rw [hg.lenCounts]; omega)
  have hchildren : st.levelNodes[d + 1]? = some (st.levelNodes.getD (d + 1) []) :=
    getElem?_getD_list _ _ (by rw [hg.lenNodes]; omega)
  have hmem : st.levelNodes.getD (d + 1) [] ∈ st.levelNodes := by
    rw [List.getD_eq_getElem _ _ (by rw [hg.lenNodes]; omega)]
    exact List.getElem_mem _
  obtain ⟨node, hnew, hgr, hfr, hch, hhit⟩ := Node.new_any st.heap env.vocab (idAt env c d)
    (st.levelCounts.getD d 0) env.k _ hk (Good.storable env M T st hg ha hM _ hmem)
  have hhere : st.levelNodes[d]? = some (st.levelNodes.getD d []) :=
    getElem?_getD_list _ _ (by rw [hg.lenNodes]; omega)
  have hup : st.levelCounts[d - 1]? = some (st.levelCounts.getD (d - 1) 0) :=
    getElem?_getD_nat _ _ (by rw [hg.lenCounts]; omega)
  have hle : st.levelCounts.getD (d - 1) 0 + st.levelCounts.getD d 0 ≤ T :=
    le_trans (getD_add_getD_le_sum _ _ _ (by omega)) hg.total
  have hint : intAdd (st.levelCounts.getD (d - 1) 0) (st.levelCounts.getD d 0) =
      some (st.levelCounts.getD (d - 1) 0 + st.levelCounts.getD d 0) := by
    simp only [intAdd]
    rw [if_pos (by omega)]
  have hclear : d + 1 < (st.levelNodes.set d
      (st.levelNodes.getD d [] ++ [env.addr st.heap.length])).length := by
    rw [List.length_set, hg.lenNodes]; omega
  refine ⟨node, ?_, hgr, hfr, hch, hhit⟩
  have hnew' : Node.new st.heap (env.vocab.vocabS2ID (tokenAt c d))
      (st.levelCounts.getD d 0) env.k (st.levelNodes.getD (d + 1) []) = some node := hnew
  simp only [intermediateCase, hword, hi, hfreq, hchildren, hnew', allocNode, pushNode, hhere,
    addCount, hup, hint, clearLevel, hclear, if_true, Option.bind_eq_bind, Option.some_bind,
    emitState]

theorem rootCase_spec (env : BuildEnv) (M T : Nat) (st : BuildState)
    (hg : Good env M T st) (ha : AddrOK env M) (hM : st.heap.length ≤ M) (c : Line)
    (hL : 2 ≤ env.gramLen) (hc : c.1.length = env.gramLen) (hk : 1 ≤ env.k) :
    ∃ node, rootCase env c st = some (emitState env 0 (st.levelCounts.getD 0 0) node st) ∧
      node.gram_ = idAt env c 0 ∧ node.frequency_ = st.levelCounts.getD 0 0 ∧
      (∃ l, node.children = some l ∧ List.Perm l (st.levelNodes.getD 1 [])) ∧
      (((st.levelNodes.getD 1 []).map (gramOf st.heap)).Nodup → ∀ q word,
        q ∈ st.levelNodes.getD 1 [] → env.vocab.vocabS2ID word = gramOf st.heap q →
          node.findSuccessor env.vocab word = some q) := by
  have hword : c.1[0]? = some (tokenAt c 0) := getElem?_getD_string _ _ (by omega)
  have hfreq : st.levelCounts[0]? = some (st.levelCounts.getD 0 0) :=
    getElem?_getD_nat _ _ (by rw [hg.lenCounts]; omega)
  have hchildren : st.levelNodes[1]? = some (st.levelNodes.getD 1 []) :=
    getElem?_getD_list _ _ (by rw [hg.lenNodes]; omega)
  have hmem : st.levelNodes.getD 1 [] ∈ st.levelNodes := by
    rw [List.getD_eq_getElem _ _ (by rw [hg.lenNodes]; omega)]
    exact List.getElem_mem _
  obtain ⟨node, hnew, hgr, hfr, hch, hhit⟩ := Node.new_any st.heap env.vocab (idAt env c 0)
    (st.levelCounts.getD 0 0) env.k _ hk (Good.storable env M T st hg ha hM _ hmem)
  have hhere : st.levelNodes[0]? = some (st.levelNodes.getD 0 []) :=
    getElem?_getD_list _ _ (by rw [hg.lenNodes]; omega)
  have hclear : 1 < (st.levelNodes.set 0
      (st.levelNodes.getD 0 [] ++ [env.addr st.heap.length])).length := by
    rw [List.length_set, hg.lenNodes]; omega
  refine ⟨node, ?_, hgr, hfr, hch, hhit⟩
  have hnew' : Node.new st.heap (env.vocab.vocabS2ID (tokenAt c 0))
      (st.levelCounts.getD 0 0) env.k (st.levelNodes.getD 1 []) = some node := hnew
  simp only [rootCase, hword, hfreq, hchildren, hnew', allocNode, pushNode, hhere, clearLevel,
    hclear, if_true, Option.bind_eq_bind, Option.some_bind, emitState, Nat.zero_sub,
    List.set_set, Nat.zero_add]

theorem filter_range_lt (t : Nat) : ∀ n, (List.range n).filter (fun j => decide (j < t)) =
    List.range (min n t) := by
  intro n
  induction n with
  | zero => simp
  | succ n ih =>
    rw [List.range_succ, List.filter_append, ih]
    by_cases h : n < t
    · have h1 : min n t = n := by omega
      have h2 : min (n + 1) t = n + 1 := by omega
      rw [h1, h2, List.range_succ]
      simp [h]
    · have h1 : min n t = min (n + 1) t := by omega
      rw [h1]
      simp [h]

theorem execEvents_nil (env : BuildEnv) (st : BuildState) : execEvents env [] st = some st := rfl

theorem execEvents_cons (env : BuildEnv) (e : Event) (es : List Event) (st : BuildState) :
    execEvents env (e :: es) st = (execEvent env e st).bind (execEvents env es) := by
  simp only [execEvents, List.foldlM_cons]
  rfl

theorem execEvents_append (env : BuildEnv) (es1 es2 : List Event) (st : BuildState) :
    execEvents env (es1 ++ es2) st = (execEvents env es1 st).bind (execEvents env es2) := by
  simp only [execEvents, List.foldlM_append]
  rfl

theorem intermediateLoop_events (env : BuildEnv) (c : Line) (s : Nat) (eof : Bool) :
    ∀ (js : List Nat) (st : BuildState), (∀ j, j ∈ js → j + 3 ≤ env.gramLen) →
      intermediateLoop env c s eof (js.map (· + 2)) st =
        execEvents env
          ((js.filter (fun j => decide (s ≤ env.gramLen - (j + 2)) || eof)).map
            (fun j => Event.close (env.gramLen - 2 - j) c)) st := by
  intro js
  induction js with
  | nil => intro st _; rfl
  | cons j rest ih =>
    intro st hj
    have hj3 := hj j (List.mem_cons_self _ _)
    have ih' := fun st' => ih st' (fun x hx => hj x (List.mem_cons_of_mem _ hx))
    rw [List.map_cons, List.filter_cons]
    by_cases hcond : (decide (s ≤ env.gramLen - (j + 2)) || eof) = true
    · obtain ⟨d, hd⟩ : ∃ d, env.gramLen - 2 - j = d + 1 := ⟨env.gramLen - 3 - j, by omega⟩
      have hi : env.gramLen - (d + 1) = j + 2 := by omega
      simp only [intermediateLoop, hcond, if_true, List.map_cons, execEvents_cons, hd, execEvent,
        hi, Option.bind_eq_bind]
      cases intermediateCase env c (j + 2) st with
      | none => rfl
      | some st' => simp only [Option.some_bind]; exact ih' st'
    · simp only [intermediateLoop, hcond, if_false]
      exact ih' st

theorem filter_levels (L s : Nat) (eof : Bool) (hs : eof = true → s = 0) :
    (List.range (L - 2)).filter (fun j => decide (s ≤ L - (j + 2)) || eof) =
      List.range (min (L - 2) (L - 1 - s)) := by
  rw [← filter_range_lt (L - 1 - s) (L - 2)]
  apply List.filter_congr
  intro j hj
  have hj' := List.mem_range.mp hj
  cases eof with
  | true =>
    have := hs rfl
    subst this
    simp
    omega
  | false =>
    simp only [Bool.or_false, decide_eq_decide]
    omega

theorem closes_zero (L : Nat) (c : Line) (hL : 2 ≤ L) :
    closes L c 0 =
      (List.range (L - 2)).map (fun j => Event.close (L - 2 - j) c) ++ [Event.close 0 c] := by
  have h : L - 1 - 0 = (L - 2) + 1 := by omega
  simp only [closes, h, List.range_succ, List.map_append, List.map_cons, List.map_nil,
    Nat.sub_self]

theorem transition_events (env : BuildEnv) (c : Line) (current : Option Line) (st : BuildState)
    (s : Nat) (hL : 2 ≤ env.gramLen) (hlen : st.levelNodes.length = env.gramLen)
    (hsL : s ≤ env.gramLen - 1) (hs : similarCountAt env c current = some s)
    (heof : current.isNone = true → s = 0) :
    transition env c current st = execEvents env (eventsOf env.gramLen c s) st := by
  have hlast : st.levelNodes[env.gramLen - 1]? = some (st.levelNodes.getD (env.gramLen - 1) []) :=
    getElem?_getD_list _ _ (by omega)
  have hcond : ∀ b1 b2 : Bool, (decide (s ≤ env.gramLen - 1) || b1 || b2) = true := by
    intro b1 b2
    simp [hsL]
  simp only [transition, hs, hlast, hcond, if_true, Option.bind_eq_bind, Option.some_bind,
    eventsOf, execEvents_cons, execEvent]
  cases leafCase env c st with
  | none => rfl
  | some st1 =>
    simp only [Option.some_bind]
    rw [intermediateLoop_events env c s current.isNone (List.range (env.gramLen - 2)) st1
      (by intro j hj; have := List.mem_range.mp hj; omega),
      filter_levels env.gramLen s current.isNone heof]
    by_cases hs0 : s = 0
    · subst hs0
      have hmin : min (env.gramLen - 2) (env.gramLen - 1 - 0) = env.gramLen - 2 := by omega
      rw [hmin, closes_zero env.gramLen c hL, execEvents_append]
      cases execEvents env
          ((List.range (env.gramLen - 2)).map (fun j => Event.close (env.gramLen - 2 - j) c))
          st1 with
      | none => rfl
      | some st2 =>
        simp only [Option.some_bind, decide_True, Bool.true_or, if_true, execEvents_cons,
          execEvent, execEvents_nil]
        cases rootCase env c st2 <;> rfl
    · have hmin : min (env.gramLen - 2) (env.gramLen - 1 - s) = env.gramLen - 1 - s := by omega
      have hnone : current.isNone = false := by
        cases h : current.isNone with
        | false => rfl
        | true => exact absurd (heof h) hs0
      rw [hmin, hnone]
      simp only [closes, hs0, decide_False, Bool.or_self, Bool.false_eq_true, if_false]
      cases execEvents env
          ((List.range (env.gramLen - 1 - s)).map (fun j => Event.close (env.gramLen - 2 - j) c))
          st1 <;> rfl

theorem similarLoop_spec (a b : List String) :
    ∀ (n start acc : Nat), start + n ≤ a.length → start + n ≤ b.length →
      ∃ s, similarLoop a b ((List.range n).map (start + ·)) acc = some s ∧
        acc ≤ s ∧ s ≤ acc + n ∧
        (∀ j, j < s - acc → a.getD (start + j) "" = b.getD (start + j) "") ∧
        (s < acc + n → a.getD (start + (s - acc)) "" ≠ b.getD (start + (s - acc)) "") := by
  intro n
  induction n with
  | zero =>
    intro start acc _ _
    exact ⟨acc, rfl, le_refl _, le_refl _, by intro j hj; omega, by intro h; omega⟩
  | succ n ih =>
    intro start acc ha hb
    have hrange : (List.range (n + 1)).map (start + ·) =
        start :: (List.range n).map (start + 1 + ·) := by
      rw [List.range_succ_eq_map]
      simp only [List.map_cons, List.map_map, Nat.add_zero]
      congr 1
      apply List.map_congr_left
      intro x _
      simp only [Function.comp]
      omega
    rw [hrange]
    have hga : a[start]? = some (a.getD start "") := getElem?_getD_string _ _ (by omega)
    have hgb : b[start]? = some (b.getD start "") := getElem?_getD_string _ _ (by omega)
    by_cases heq : a.getD start "" = b.getD start ""
    · obtain ⟨s, hs, h1, h2, h3, h4⟩ := ih (start + 1) (acc + 1) (by omega) (by omega)
      refine ⟨s, ?_, by omega, by omega, ?_, ?_⟩
      · simp only [similarLoop, hga, hgb, Option.bind_eq_bind, Option.some_bind, heq, if_true]
        exact hs
      · intro j hj
        cases j with
        | zero => exact heq
        | succ j =>
          have := h3 j (by omega)
          have e : start + 1 + j = start + (j + 1) := by omega
          rw [e] at this
          exact this
      · intro hlt
        have := h4 (by omega)
        have e : start + 1 + (s - (acc + 1)) = start + (s - acc) := by omega
        rw [e] at this
        exact this
    · refine ⟨acc, ?_, le_refl _, by omega, by intro j hj; omega, ?_⟩
      · simp only [similarLoop, hga, hgb, Option.bind_eq_bind, Option.some_bind, heq, if_false]
      · intro _
        simpa using heq

theorem sim_spec (a b : Line) (L : Nat) (hL : 1 ≤ L) (ha : a.1.length = L) (hb : b.1.length = L) :
    similarCountOf a.1 b.1 = some (sim a b) ∧ sim a b ≤ L - 1 ∧
      (∀ j, j < sim a b → tokenAt a j = tokenAt b j) ∧
      (sim a b < L - 1 → tokenAt a (sim a b) ≠ tokenAt b (sim a b)) := by
  obtain ⟨s, hs, _, h2, h3, h4⟩ := similarLoop_spec a.1 b.1 (a.1.length - 1) 0 0 (by omega)
    (by omega)
  have hmap : (List.range (a.1.length - 1)).map (0 + ·) = List.range (a.1.length - 1) := by
    simp
  rw [hmap] at hs
  have hne : a.1.length ≠ 0 := by omega
  have hsim : similarCountOf a.1 b.1 = some s := by
    simp only [similarCountOf, hne, if_false]
    exact hs
  have hval : sim a b = s := by simp [sim, hsim]
  rw [hval]
  refine ⟨hsim, by omega, ?_, ?_⟩
  · intro j hj
    have := h3 j (by omega)
    simpa [tokenAt] using this
  · intro hlt
    have := h4 (by omega)
    simpa [tokenAt] using this

theorem runs_head (d : Nat) : ∀ (rest : List Line) (x : Line),
    ∃ run more, runs d (x :: rest) = (x :: run) :: more := by
  intro rest
  induction rest with
  | nil => intro x; exact ⟨[], [], rfl⟩
  | cons y t ih =>
    intro x
    obtain ⟨run, more, h⟩ := ih y
    by_cases hs : d < sim x y
    · exact ⟨y :: run, more, by simp only [runs, hs, if_true, h]⟩
    · exact ⟨[], runs d (y :: t), by simp only [runs, hs, if_false]⟩

theorem closes_succ (L : Nat) (c : Line) (d : Nat) (hd : d + 2 ≤ L) :
    closes L c d = closes L c (d + 1) ++ [Event.close d c] := by
  have h : L - 1 - d = (L - 1 - (d + 1)) + 1 := by omega
  have h2 : L - 2 - (L - 1 - (d + 1)) = d := by omega
  simp only [closes, h, List.range_succ, List.map_append, List.map_cons, List.map_nil, h2]

theorem closes_empty (L : Nat) (c : Line) (s : Nat) (hs : L - 1 ≤ s) : closes L c s = [] := by
  have h : L - 1 - s = 0 := by omega
  simp [closes, h]

theorem lastOf_cons_cons (r x : Line) (run : List Line) :
    lastOf (r :: x :: run) = lastOf (x :: run) := by
  simp [lastOf, List.getLastD_cons]

theorem runEvents_eq_passEvents (L : Nat) :
    ∀ (m d : Nat), m + d + 1 = L → ∀ R, runEvents m d R = passEvents L d R := by
  intro m
  induction m with
  | zero =>
    intro d hd R
    simp only [runEvents]
    induction R with
    | nil => rfl
    | cons c rest ih =>
      cases rest with
      | nil => simp [passEvents, eventsOf, closes_empty L c d (by omega)]
      | cons l rest' =>
        simp only [List.map_cons] at ih
        simp only [passEvents, eventsOf, closes_empty L c (max (sim c l) d) (by omega),
          List.map_cons, ih, List.cons_append, List.nil_append]
  | succ m ihm =>
    intro d hd R
    simp only [runEvents]
    have hf : ∀ run, runEvents m (d + 1) run = passEvents L (d + 1) run :=
      fun run => ihm (d + 1) (by omega) run
    simp only [hf]
    induction R with
    | nil => rfl
    | cons r rest ih =>
      cases rest with
      | nil =>
        simp only [runs, List.flatMap_cons, List.flatMap_nil, List.append_nil, passEvents,
          eventsOf, lastOf, List.getLastD_cons, List.getLastD_nil, List.cons_append]
        rw [closes_succ L r d (by omega)]
      | cons x rest' =>
        obtain ⟨run, more, hruns⟩ := runs_head d rest' x
        rw [hruns, List.flatMap_cons] at ih
        by_cases hs : d < sim r x
        · have hmax1 : max (sim r x) (d + 1) = sim r x := by omega
          have hmax2 : max (sim r x) d = sim r x := by omega
          simp only [runs, hs, if_true, hruns, List.flatMap_cons, passEvents, hmax1, hmax2,
            lastOf_cons_cons, List.append_assoc]
          rw [← ih]
          simp only [List.append_assoc]
        · have hmax2 : max (sim r x) d = d := by omega
          simp only [runs, hs, if_false, hruns, List.flatMap_cons, passEvents, hmax2, eventsOf,
            lastOf, List.getLastD_cons, List.getLastD_nil, List.cons_append, List.append_assoc]
          rw [closes_succ L r d (by omega)]
          simp only [List.append_assoc, List.singleton_append]
          rw [← ih]
          simp only [lastOf, List.getLastD_cons, List.append_assoc, List.nil_append,
            List.singleton_append]

theorem pushNode_length (ln ln' : List (List Nat)) (lv p : Nat) (h : pushNode ln lv p = some ln') :
    ln'.length = ln.length := by
  simp only [pushNode, Option.bind_eq_bind, Option.bind_eq_some] at h
  obtain ⟨_, _, h2⟩ := h
  cases h2
  simp

theorem clearLevel_length (ln ln' : List (List Nat)) (lv : Nat) (h : clearLevel ln lv = some ln') :
    ln'.length = ln.length := by
  simp only [clearLevel] at h
  split at h
  · cases h
    simp
  · cases h

theorem leafCase_length (env : BuildEnv) (c : Line) (st st' : BuildState)
    (h : leafCase env c st = some st') : st'.levelNodes.length = st.levelNodes.length := by
  simp only [leafCase, allocNode, Option.bind_eq_bind, Option.bind_eq_some] at h
  obtain ⟨_, _, _, _, ln, hln, h2⟩ := h
  split at h2
  · cases h2
  · simp only [Option.bind_eq_bind, Option.bind_eq_some] at h2
    obtain ⟨_, _, h3⟩ := h2
    cases h3
    exact pushNode_length _ _ _ _ hln

theorem intermediateCase_length (env : BuildEnv) (c : Line) (i : Nat) (st st' : BuildState)
    (h : intermediateCase env c i st = some st') :
    st'.levelNodes.length = st.levelNodes.length := by
  simp only [intermediateCase, allocNode, Option.bind_eq_bind, Option.bind_eq_some] at h
  obtain ⟨_, _, _, _, _, _, _, _, ln, hln, _, _, ln2, hln2, h3⟩ := h
  cases h3
  rw [clearLevel_length _ _ _ hln2, pushNode_length _ _ _ _ hln]

theorem rootCase_length (env : BuildEnv) (c : Line) (st st' : BuildState)
    (h : rootCase env c st = some st') : st'.levelNodes.length = st.levelNodes.length := by
  simp only [rootCase, allocNode, Option.bind_eq_bind, Option.bind_eq_some] at h
  obtain ⟨_, _, _, _, _, _, _, _, ln, hln, ln2, hln2, h3⟩ := h
  cases h3
  rw [clearLevel_length _ _ _ hln2, pushNode_length _ _ _ _ hln]

theorem execEvent_length (env : BuildEnv) (e : Event) (st st' : BuildState)
    (h : execEvent env e st = some st') : st'.levelNodes.length = st.levelNodes.length := by
  cases e with
  | leaf c => exact leafCase_length env c st st' h
  | close d c =>
    cases d with
    | zero => exact rootCase_length env c st st' h
    | succ d => exact intermediateCase_length env c _ st st' h

theorem execEvents_length (env : BuildEnv) : ∀ (es : List Event) (st st' : BuildState),
    execEvents env es st = some st' → st'.levelNodes.length = st.levelNodes.length := by
  intro es
  induction es with
  | nil =>
    intro st st' h
    rw [execEvents_nil] at h
    cases h
    rfl
  | cons e rest ih =>
    intro st st' h
    rw [execEvents_cons] at h
    cases h1 : execEvent env e st with
    | none => rw [h1] at h; cases h
    | some st1 =>
      rw [h1] at h
      rw [ih st1 st' h, execEvent_length env e st st1 h1]

theorem similarCountOf_eof (a : List String) (w : String) (hlen : 2 ≤ a.length)
    (hne : a.getD 0 "" ≠ w) : similarCountOf a [w] = some 0 := by
  obtain ⟨n, hn⟩ : ∃ n, a.length - 1 = n + 1 := ⟨a.length - 2, by omega⟩
  have h0 : a[0]? = some (a.getD 0 "") := getElem?_getD_string _ _ (by omega)
  have hlen0 : a.length ≠ 0 := by omega
  simp only [similarCountOf, hlen0, if_false, hn, List.range_succ_eq_map, similarLoop, h0,
    List.getElem?_cons_zero, Option.bind_eq_bind, Option.some_bind, hne]

theorem buildLoop_events (env : BuildEnv) (hL : 2 ≤ env.gramLen) :
    ∀ (rest : List Line) (c : Line) (st : BuildState),
      (∀ r, r ∈ c :: rest → r.1.length = env.gramLen) → st.levelNodes.length = env.gramLen →
      EofOK env (c :: rest) →
      buildLoop env c rest st =
        (execEvents env (passEvents env.gramLen 0 (c :: rest)) st).bind finishBuild := by
  intro rest
  induction rest with
  | nil =>
    intro c st hrec hlen heof
    have hc := hrec c (List.mem_cons_self _ _)
    have hsim : similarCountAt env c none = some 0 :=
      similarCountOf_eof c.1 env.lastWord (by omega) (by
        intro h
        exact heof (by rw [List.getLast?_singleton, Option.map_some', h]))
    have ht := transition_events env c none st 0 hL hlen (by omega) hsim (fun _ => rfl)
    simp only [buildLoop, ht, passEvents, Option.bind_eq_bind]
    cases execEvents env (eventsOf env.gramLen c 0) st with
    | none => rfl
    | some st' => rfl
  | cons l rest ih =>
    intro c st hrec hlen heof
    have hc := hrec c (List.mem_cons_self _ _)
    have hl := hrec l (List.mem_cons_of_mem _ (List.mem_cons_self _ _))
    obtain ⟨hsim, hbound, _, _⟩ := sim_spec c l env.gramLen (by omega) hc hl
    have ht := transition_events env c (some l) st (sim c l) hL hlen hbound hsim (by simp)
    have hmax : max (sim c l) 0 = sim c l := by omega
    simp only [buildLoop, ht, passEvents, hmax, execEvents_append, Option.bind_eq_bind]
    cases h1 : execEvents env (eventsOf env.gramLen c (sim c l)) st with
    | none => rfl
    | some st1 =>
      simp only [Option.some_bind]
      exact ih l st1 (fun r hr => hrec r (List.mem_cons_of_mem _ hr))
        (by rw [execEvents_length env _ st st1 h1, hlen])
        (by
          intro h
          apply heof
          rw [List.getLast?_cons_cons]
          exact h)

theorem emitState_nodes (env : BuildEnv) (lv freq : Nat) (node : Node) (st : BuildState)
    (hlv : lv < st.levelNodes.length) (e : Nat) :
    (emitState env lv freq node st).levelNodes.getD e [] =
      if e = lv + 1 then []
      else if e = lv then st.levelNodes.getD lv [] ++ [env.addr st.heap.length]
      else st.levelNodes.getD e [] := by
  simp only [emitState, List.getD_eq_getElem?_getD, List.getElem?_set, List.length_set]
  by_cases h1 : e = lv + 1
  · subst h1
    simp only [if_true]
    split <;> rfl
  · have h1' : ¬ lv + 1 = e := fun h => h1 h.symm
    rw [if_neg h1', if_neg h1]
    by_cases h2 : e = lv
    · subst h2
      simp [hlv]
    · have h2' : ¬ lv = e := fun h => h2 h.symm
      rw [if_neg h2', if_neg h2]

theorem emitState_counts (env : BuildEnv) (lv freq : Nat) (node : Node) (st : BuildState)
    (e : Nat) :
    (emitState env lv freq node st).levelCounts.getD e 0 =
      if e = lv then 0
      else if e = lv - 1 ∧ e < st.levelCounts.length then st.levelCounts.getD e 0 + freq
      else st.levelCounts.getD e 0 := by
  simp only [emitState, List.getD_eq_getElem?_getD, List.getElem?_set, List.length_set]
  by_cases h1 : e = lv
  · subst h1
    simp only [if_true]
    split <;> rfl
  · have h1' : ¬ lv = e := fun h => h1 h.symm
    rw [if_neg h1', if_neg h1]
    by_cases h2 : e = lv - 1
    · by_cases h3 : e < st.levelCounts.length
      · have h2' : lv - 1 = e := h2.symm
        have h3' : lv - 1 < st.levelCounts.length := by omega
        rw [if_pos h2', if_pos h3', if_pos ⟨h2, h3⟩, h2']
        rfl
      · have h2' : lv - 1 = e := h2.symm
        have h3' : ¬ lv - 1 < st.levelCounts.length := by omega
        rw [if_pos h2', if_neg h3', if_neg (fun h => h3 h.2)]
        rw [List.getElem?_eq_none (by omega)]
    · have h2' : ¬ lv - 1 = e := fun h => h2 h.symm
      rw [if_neg h2', if_neg (fun h => h2 h.1)]

theorem emitState_heap (env : BuildEnv) (lv freq : Nat) (node : Node) (st : BuildState) :
    (emitState env lv freq node st).heap = st.heap ++ [(env.addr st.heap.length, node)] := rfl

theorem Good.counts_getD (env : BuildEnv) (M T : Nat) (st : BuildState) (hg : Good env M T st)
    (d : Nat) (hd : d + 2 ≤ env.gramLen) :
    st.levelCounts.getD d 0 = ((st.levelNodes.getD (d + 1) []).map (freqOf st.heap)).sum :=
  hg.counts d _ _ (getElem?_getD_list _ _ (by rw [hg.lenNodes]; omega))
    (getElem?_getD_nat _ _ (by rw [hg.lenCounts]; omega))

theorem exec_leaf (env : BuildEnv) (M T : Nat) (st : BuildState) (hg : Good env M T st)
    (ha : AddrOK env M) (hM : st.heap.length < M) (c : Line) (hL : 2 ≤ env.gramLen)
    (hL64 : env.gramLen < 2 ^ bits) (hc : RecOK env M c) (hT : T + c.2 < 2 ^ 31) :
    execEvent env (Event.leaf c) st =
        some (emitState env (env.gramLen - 1) c.2
          (leafNode (idAt env c (env.gramLen - 1)) c.2) st) ∧
      Good env M (T + c.2) (emitState env (env.gramLen - 1) c.2
        (leafNode (idAt env c (env.gramLen - 1)) c.2) st) := by
  refine ⟨leafCase_spec env M T st hg c hL hL64 hc.1 hT, ?_⟩
  apply Good.emit env M T (T + c.2) st hg ha hM (env.gramLen - 1) c.2 _ (by omega)
    (hc.2 (env.gramLen - 1) (by omega)) rfl
  · refine ⟨[], rfl, ?_⟩
    rw [List.getD_eq_default _ _ (by rw [hg.lenNodes]; omega)]
  · intro h
    simp [leafNode] at h
  · rw [List.getD_eq_default _ _ (le_of_eq hg.lenCounts)]
    have := hg.total
    omega

theorem exec_close (env : BuildEnv) (M T : Nat) (st : BuildState) (hg : Good env M T st)
    (ha : AddrOK env M) (hM : st.heap.length < M) (c : Line)
    (hL64 : env.gramLen < 2 ^ bits) (hc : RecOK env M c) (hk : 1 ≤ env.k) (hT : T < 2 ^ 31)
    (d : Nat) (hd : d + 2 ≤ env.gramLen) :
    ∃ node, execEvent env (Event.close d c) st =
        some (emitState env d (st.levelCounts.getD d 0) node st) ∧
      Good env M T (emitState env d (st.levelCounts.getD d 0) node st) ∧
      node.gram_ = idAt env c d ∧ node.frequency_ = st.levelCounts.getD d 0 ∧
      (((st.levelNodes.getD (d + 1) []).map (gramOf st.heap)).Nodup → ∀ q word,
        q ∈ st.levelNodes.getD (d + 1) [] → env.vocab.vocabS2ID word = gramOf st.heap q →
          node.findSuccessor env.vocab word = some q) := by
  have hspec : ∃ node, execEvent env (Event.close d c) st =
        some (emitState env d (st.levelCounts.getD d 0) node st) ∧
      node.gram_ = idAt env c d ∧ node.frequency_ = st.levelCounts.getD d 0 ∧
      (∃ l, node.children = some l ∧ List.Perm l (st.levelNodes.getD (d + 1) [])) ∧
      (((st.levelNodes.getD (d + 1) []).map (gramOf st.heap)).Nodup → ∀ q word,
        q ∈ st.levelNodes.getD (d + 1) [] → env.vocab.vocabS2ID word = gramOf st.heap q →
          node.findSuccessor env.vocab word = some q) := by
    cases d with
    | zero =>
      exact rootCase_spec env M T st hg ha (by omega) c (by omega) hc.1 hk
    | succ d' =>
      exact intermediateCase_spec env M T st hg ha (by omega) c hL64 hc.1 hk hT (d' + 1)
        (by omega) hd
  obtain ⟨node, hexec, hgr, hfr, hch, hhit⟩ := hspec
  refine ⟨node, hexec, ?_, hgr, hfr, hhit⟩
  apply Good.emit env M T T st hg ha hM d _ node (by omega) _ hfr hch
  · intro _
    exact Good.counts_getD env M T st hg d hd
  · have := hg.total
    omega
  · rw [hgr]
    exact hc.2 d (by omega)

theorem deref_mem_keys (heap : Heap) (p : Nat) (n : Node) (h : heap.deref p = some n) :
    p ∈ heap.map Prod.fst := by
  unfold Heap.deref at h
  split at h
  · cases h
  · exact mem_keys_of_lookup heap p n h

theorem Rep_deref (env : BuildEnv) (heap : Heap) (m d : Nat) (R : List Line) (p : Nat)
    (h : Rep env heap m d R p) : ∃ n, heap.deref p = some n := by
  cases m with
  | zero =>
    obtain ⟨n, hn, _⟩ := h
    exact ⟨n, hn⟩
  | succ m =>
    obtain ⟨n, hn, _⟩ := h
    exact ⟨n, hn⟩

theorem forall2_mem_right {α β : Type} (P : α → β → Prop) :
    ∀ (l : List α) (ps : List β), List.Forall₂ P l ps → ∀ q, q ∈ ps → ∃ a, a ∈ l ∧ P a q := by
  intro l ps h
  induction h with
  | nil => intro q hq; simp at hq
  | cons hab _ ih =>
    intro q hq
    rcases List.mem_cons.mp hq with h1 | h1
    · subst h1
      exact ⟨_, List.mem_cons_self _ _, hab⟩
    · obtain ⟨a, ha, hp⟩ := ih q h1
      exact ⟨a, List.mem_cons_of_mem _ ha, hp⟩

theorem forall2_mem_left {α β : Type} (P : α → β → Prop) :
    ∀ (l : List α) (ps : List β), List.Forall₂ P l ps → ∀ a, a ∈ l → ∃ q, q ∈ ps ∧ P a q := by
  intro l ps h
  induction h with
  | nil => intro a ha; simp at ha
  | cons hab _ ih =>
    intro a ha
    rcases List.mem_cons.mp ha with h1 | h1
    · subst h1
      exact ⟨_, List.mem_cons_self _ _, hab⟩
    · obtain ⟨q, hq, hp⟩ := ih a h1
      exact ⟨q, List.mem_cons_of_mem _ hq, hp⟩

theorem Rep_append (env : BuildEnv) (heap ext : Heap) :
    ∀ (m d : Nat) (R : List Line) (p : Nat), Rep env heap m d R p →
      Rep env (heap ++ ext) m d R p := by
  intro m
  induction m with
  | zero =>
    intro d R p h
    obtain ⟨n, hn, hg, hf⟩ := h
    exact ⟨n, by rw [deref_append_of_mem _ _ _ (deref_mem_keys _ _ _ hn)]; exact hn, hg, hf⟩
  | succ m ih =>
    intro d R p h
    obtain ⟨n, hn, hg, hf, ps, hall, hhit⟩ := h
    have hkeys : ∀ q, q ∈ ps → q ∈ heap.map Prod.fst := by
      intro q hq
      obtain ⟨a, _, hrep⟩ := forall2_mem_right _ _ _ hall q hq
      obtain ⟨n', hn'⟩ := Rep_deref env heap m (d + 1) a q hrep
      exact deref_mem_keys _ _ _ hn'
    have hmap : ps.map (gramOf (heap ++ ext)) = ps.map (gramOf heap) :=
      List.map_congr_left (fun q hq => gramOf_append heap ext q (hkeys q hq))
    refine ⟨n, by rw [deref_append_of_mem _ _ _ (deref_mem_keys _ _ _ hn)]; exact hn, hg, hf, ps,
      hall.imp (fun a q hrep => ih (d + 1) a q hrep), ?_⟩
    intro hnd q word hq hw
    rw [hmap] at hnd
    rw [gramOf_append heap ext q (hkeys q hq)] at hw
    exact hhit hnd q word hq hw

theorem runs_flatten (d : Nat) : ∀ R : List Line, (runs d R).flatten = R := by
  intro R
  induction R with
  | nil => rfl
  | cons r rest ih =>
    cases rest with
    | nil => simp [runs]
    | cons x rest' =>
      obtain ⟨run, more, hruns⟩ := runs_head d rest' x
      rw [hruns] at ih
      by_cases hs : d < sim r x
      · simp only [runs, hs, if_true, hruns, List.flatten_cons, List.cons_append]
        simp only [List.flatten_cons, List.cons_append] at ih
        rw [ih]
      · simp only [runs, hs, if_false, hruns, List.flatten_cons, List.cons_append,
          List.nil_append]
        simp only [List.flatten_cons, List.cons_append] at ih
        rw [ih]

theorem runs_ne_nil (d : Nat) : ∀ (R : List Line) (run : List Line), run ∈ runs d R → run ≠ [] := by
  intro R
  induction R with
  | nil => intro run h; simp [runs] at h
  | cons r rest ih =>
    intro run h
    cases rest with
    | nil =>
      simp [runs] at h
      subst h
      simp
    | cons x rest' =>
      obtain ⟨run0, more, hruns⟩ := runs_head d rest' x
      by_cases hs : d < sim r x
      · simp only [runs, hs, if_true, hruns] at h
        rcases List.mem_cons.mp h with h1 | h1
        · subst h1
          simp
        · exact ih run (by rw [hruns]; exact List.mem_cons_of_mem _ h1)
      · simp only [runs, hs, if_false] at h
        rcases List.mem_cons.mp h with h1 | h1
        · subst h1
          simp
        · exact ih run h1

theorem runs_mem_subset (d : Nat) (R run : List Line) (h : run ∈ runs d R) :
    ∀ r, r ∈ run → r ∈ R := by
  intro r hr
  have : r ∈ (runs d R).flatten := List.mem_flatten.mpr ⟨run, h, hr⟩
  rw [runs_flatten] at this
  exact this

theorem runs_singletons (d : Nat) : ∀ R : List Line,
    (∀ a b, a ∈ R → b ∈ R → sim a b ≤ d) → runs d R = R.map (fun r => [r]) := by
  intro R
  induction R with
  | nil => intro _; rfl
  | cons r rest ih =>
    intro h
    cases rest with
    | nil => rfl
    | cons x rest' =>
      have hs : ¬ d < sim r x := by
        have := h r x (List.mem_cons_self _ _) (List.mem_cons_of_mem _ (List.mem_cons_self _ _))
        omega
      have ih' := ih (fun a b ha hb => h a b (List.mem_cons_of_mem _ ha) (List.mem_cons_of_mem _ hb))
      simp only [runs, hs, if_false, ih', List.map_cons]

theorem lastOf_mem (run : List Line) (h : run ≠ []) : lastOf run ∈ run := by
  cases run with
  | nil => exact absurd rfl h
  | cons a t =>
    simp only [lastOf, List.getLastD_cons]
    rw [← List.getLast_eq_getLastD a t (List.cons_ne_nil a t)]
    exact List.getLast_mem _

theorem countSum_cons (r : Line) (R : List Line) : countSum (r :: R) = r.2 + countSum R := by
  simp [countSum]

theorem countSum_append (R1 R2 : List Line) : countSum (R1 ++ R2) = countSum R1 + countSum R2 := by
  simp [countSum]

theorem countSum_nil : countSum [] = 0 := rfl

theorem Clean_emit (env : BuildEnv) (lv freq : Nat) (node : Node) (st : BuildState)
    (hlv : lv < st.levelNodes.length) (hc : Clean (lv + 1) st) :
    Clean lv (emitState env lv freq node st) := by
  refine ⟨?_, ?_⟩
  · intro e he
    rw [emitState_nodes env lv freq node st hlv e]
    by_cases h1 : e = lv + 1
    · rw [if_pos h1]
    · rw [if_neg h1, if_neg (by omega)]
      exact hc.1 e (by omega)
  · intro e he
    rw [emitState_counts env lv freq node st e]
    by_cases h1 : e = lv
    · rw [if_pos h1]
    · rw [if_neg h1, if_neg (by omega)]
      exact hc.2 e (by omega)

theorem Clean.weaken (d : Nat) (st : BuildState) (hc : Clean d st) : Clean (d + 1) st :=
  ⟨fun e he => hc.1 e (by omega), fun e he => hc.2 e (by omega)⟩

theorem exec_leaves (env : BuildEnv) (M : Nat) (ha : AddrOK env M) (hL : 2 ≤ env.gramLen)
    (hL64 : env.gramLen < 2 ^ bits) :
    ∀ (R : List Line) (st : BuildState) (T : Nat), Good env M T st →
      Clean (env.gramLen - 1) st → (∀ r, r ∈ R → RecOK env M r) →
      st.heap.length + R.length ≤ M → T + countSum R < 2 ^ 31 →
      ∃ st' ps, execEvents env (R.map Event.leaf) st = some st' ∧
        BuiltRuns env M T 0 (env.gramLen - 1) (R.map (fun r => [r])) R.length st st' ps := by
  intro R
  induction R with
  | nil =>
    intro st T hg hc _ _ _
    refine ⟨st, [], rfl, ?_⟩
    exact ⟨by simpa [countSum_nil] using hg, hc, by simp, fun _ _ => rfl, fun _ => by
      simp [countSum_nil], fun _ _ => rfl, ⟨[], by simp⟩, by simp, List.Forall₂.nil⟩
  | cons r rest ih =>
    intro st T hg hc hrec hheap hT
    have hr := hrec r (List.mem_cons_self _ _)
    rw [countSum_cons] at hT
    simp only [List.length_cons] at hheap
    obtain ⟨hexec, hg1⟩ := exec_leaf env M T st hg ha (by omega) r hL hL64 hr (by omega)
    set st1 := emitState env (env.gramLen - 1) r.2
      (leafNode (idAt env r (env.gramLen - 1)) r.2) st with hst1
    have hlv : env.gramLen - 1 < st.levelNodes.length := by rw [hg.lenNodes]; omega
    have hc1 : Clean (env.gramLen - 1) st1 :=
      Clean_emit env _ _ _ st hlv (Clean.weaken _ st hc)
    have hlen1 : st1.heap.length = st.heap.length + 1 := by
      simp [hst1, emitState]
    obtain ⟨st', ps, hexec', hb⟩ := ih st1 (T + r.2) hg1 hc1
      (fun x hx => hrec x (List.mem_cons_of_mem _ hx)) (by omega) (by omega)
    obtain ⟨hfresh, hne0⟩ := Good.fresh env M T st hg ha (by omega)
    obtain ⟨ext, hext⟩ := hb.heapExt
    refine ⟨st', env.addr st.heap.length :: ps, ?_, ?_⟩
    · rw [List.map_cons, execEvents_cons, hexec]
      exact hexec'
    · have hfl : (List.map (fun r => [r]) (r :: rest)).flatten =
          r :: (List.map (fun r => [r]) rest).flatten := by
        simp
      refine ⟨?_, hb.clean, ?_, ?_, ?_, ?_, ?_, ?_, ?_⟩
      · rw [hfl, countSum_cons, ← Nat.add_assoc]
        exact hb.good
      · rw [hb.here, hst1, emitState_nodes env _ _ _ st hlv, if_neg (by omega), if_pos rfl]
        simp
      · intro e he
        rw [hb.above e he, hst1, emitState_nodes env _ _ _ st hlv, if_neg (by omega),
          if_neg (by omega)]
      · intro hd
        rw [hb.count hd, hst1, emitState_counts env _ _ _ st, if_neg (by omega),
          if_pos ⟨rfl, by rw [hg.lenCounts]; omega⟩, hfl, countSum_cons]
        omega
      · intro e he
        rw [hb.countsAbove e he, hst1, emitState_counts env _ _ _ st, if_neg (by omega),
          if_neg (by omega)]
      · exact ⟨(env.addr st.heap.length, leafNode (idAt env r (env.gramLen - 1)) r.2) :: ext, by
          rw [hext, hst1, emitState_heap]
          simp⟩
      · have := hb.heapLen
        simp only [List.length_cons]
        omega
      · rw [List.map_cons]
        refine List.Forall₂.cons ?_ hb.rep
        rw [hext]
        apply Rep_append
        refine ⟨leafNode (idAt env r (env.gramLen - 1)) r.2, ?_, ?_, ?_⟩
        · rw [hst1, emitState_heap]
          exact deref_append_new _ _ _ hfresh hne0
        · simp [leafNode, lastOf]
        · simp [leafNode, countSum]

theorem exec_runs_step (env : BuildEnv) (M : Nat) (ha : AddrOK env M)
    (hL64 : env.gramLen < 2 ^ bits) (hk : 1 ≤ env.k) (m d : Nat)
    (hmd : m + 1 + d + 1 = env.gramLen)
    (ihm : ∀ (R : List Line) (st : BuildState) (T : Nat), Good env M T st →
      Clean (d + 1) st → (∀ r, r ∈ R → RecOK env M r) →
      st.heap.length + R.length * (m + 1) ≤ M → T + countSum R < 2 ^ 31 →
      ∃ st' ps, execEvents env (runEvents m (d + 1) R) st = some st' ∧
        BuiltRuns env M T m (d + 1) (runs (d + 1) R) (R.length * (m + 1)) st st' ps) :
    ∀ (Rs : List (List Line)) (st : BuildState) (T : Nat), Good env M T st → Clean d st →
      (∀ run, run ∈ Rs → run ≠ [] ∧ ∀ r, r ∈ run → RecOK env M r) →
      st.heap.length + Rs.flatten.length * (m + 2) ≤ M → T + countSum Rs.flatten < 2 ^ 31 →
      ∃ st' ps,
        execEvents env
          (Rs.flatMap fun run => runEvents m (d + 1) run ++ [Event.close d (lastOf run)]) st =
            some st' ∧
        BuiltRuns env M T (m + 1) d Rs (Rs.flatten.length * (m + 2)) st st' ps := by
  intro Rs
  induction Rs with
  | nil =>
    intro st T hg hc _ _ _
    refine ⟨st, [], rfl, ?_⟩
    exact ⟨by simpa [countSum_nil] using hg, hc, by simp, fun _ _ => rfl, fun _ => by
      simp [countSum_nil], fun _ _ => rfl, ⟨[], by simp⟩, by simp, List.Forall₂.nil⟩
  | cons run more ih =>
    intro st T hg hc hruns hheap hT
    obtain ⟨hne, hrec⟩ := hruns run (List.mem_cons_self _ _)
    have hrunlen : 1 ≤ run.length := by
      cases run with
      | nil => exact absurd rfl hne
      | cons _ _ => simp
    simp only [List.flatten_cons, List.length_append, countSum_append] at hheap hT
    have hmul : (run.length + more.flatten.length) * (m + 2) =
        run.length * (m + 1) + run.length + more.flatten.length * (m + 2) := by ring
    rw [hmul] at hheap
    -- the children of the run
    obtain ⟨st1, cs, hexec1, hb1⟩ := ihm run st T hg (Clean.weaken d st hc) hrec (by omega)
      (by omega)
    have hg1 : Good env M (T + countSum run) st1 := by
      have := hb1.good
      rw [runs_flatten] at this
      exact this
    have hcs : st1.levelNodes.getD (d + 1) [] = cs := by
      rw [hb1.here, hc.1 (d + 1) (by omega), List.nil_append]
    have hfreq : st1.levelCounts.getD d 0 = countSum run := by
      have := hb1.count (by omega)
      rw [runs_flatten, Nat.add_sub_cancel, hc.2 d (le_refl _), Nat.zero_add] at this
      exact this
    have hlen1 := hb1.heapLen
    -- the node of the run
    obtain ⟨node, hexec2, hg2, hgram, hnfreq, hhit⟩ := exec_close env M (T + countSum run) st1
      hg1 ha (by omega) (lastOf run) hL64 (hrec _ (lastOf_mem run hne)) hk (by omega) d (by omega)
    set st2 := emitState env d (st1.levelCounts.getD d 0) node st1 with hst2
    have hlv : d < st1.levelNodes.length := by rw [hg1.lenNodes]; omega
    have hc2 : Clean d st2 := Clean_emit env d _ node st1 hlv hb1.clean
    have hlen2 : st2.heap.length = st1.heap.length + 1 := by simp [hst2, emitState]
    obtain ⟨st', ps, hexec3, hb3⟩ := ih st2 (T + countSum run) hg2 hc2
      (fun r hr => hruns r (List.mem_cons_of_mem _ hr)) (by omega) (by omega)
    obtain ⟨hfresh, hne0⟩ := Good.fresh env M (T + countSum run) st1 hg1 ha (by omega)
    obtain ⟨ext1, hext1⟩ := hb1.heapExt
    obtain ⟨ext3, hext3⟩ := hb3.heapExt
    refine ⟨st', env.addr st1.heap.length :: ps, ?_, ?_⟩
    · rw [List.flatMap_cons, List.append_assoc, execEvents_append, hexec1, Option.some_bind,
        List.singleton_append, execEvents_cons, hexec2, Option.some_bind]
      exact hexec3
    · refine ⟨?_, hb3.clean, ?_, ?_, ?_, ?_, ?_, ?_, ?_⟩
      · rw [List.flatten_cons, countSum_append, ← Nat.add_assoc]
        exact hb3.good
      · rw [hb3.here, hst2, emitState_nodes env _ _ _ st1 hlv, if_neg (by omega), if_pos rfl,
          hb1.above d (by omega)]
        simp
      · intro e he
        rw [hb3.above e he, hst2, emitState_nodes env _ _ _ st1 hlv, if_neg (by omega),
          if_neg (by omega), hb1.above e (by omega)]
      · intro hd
        rw [hb3.count hd, hst2, emitState_counts env _ _ _ st1, if_neg (by omega),
          if_pos ⟨rfl, by rw [hg1.lenCounts]; omega⟩, hb1.countsAbove (d - 1) (by omega), hfreq,
          List.flatten_cons, countSum_append]
        omega
      · intro e he
        rw [hb3.countsAbove e he, hst2, emitState_counts env _ _ _ st1, if_neg (by omega),
          if_neg (by omega), hb1.countsAbove e (by omega)]
      · exact ⟨ext1 ++ (env.addr st1.heap.length, node) :: ext3, by
          rw [hext3, hst2, emitState_heap, hext1]
          simp⟩
      · have := hb3.heapLen
        simp only [List.flatten_cons, List.length_append]
        rw [hmul]
        omega
      · refine List.Forall₂.cons ?_ hb3.rep
        rw [hext3]
        apply Rep_append
        have hderef : st2.heap.deref (env.addr st1.heap.length) = some node := by
          rw [hst2, emitState_heap]
          exact deref_append_new _ _ _ hfresh hne0
        have hkeys : ∀ q, q ∈ cs → q ∈ st1.heap.map Prod.fst := by
          intro q hq
          obtain ⟨a, _, hrep⟩ := forall2_mem_right _ _ _ hb1.rep q hq
          obtain ⟨n', hn'⟩ := Rep_deref env st1.heap m (d + 1) a q hrep
          exact deref_mem_keys _ _ _ hn'
        have hmap : cs.map (gramOf st2.heap) = cs.map (gramOf st1.heap) := by
          rw [hst2, emitState_heap]
          exact List.map_congr_left (fun q hq => gramOf_append st1.heap _ q (hkeys q hq))
        refine ⟨node, hderef, hgram, by rw [hnfreq, hfreq], cs, ?_, ?_⟩
        · rw [hst2, emitState_heap]
          exact hb1.rep.imp (fun a q hrep => Rep_append env st1.heap _ m (d + 1) a q hrep)
        · intro hnd q word hq hw
          rw [hmap] at hnd
          have hgq : gramOf st2.heap q = gramOf st1.heap q := by
            rw [hst2, emitState_heap]
            exact gramOf_append st1.heap _ q (hkeys q hq)
          rw [hgq] at hw
          rw [hcs] at hhit
          exact hhit hnd q word hq hw

theorem exec_runs (env : BuildEnv) (M : Nat) (ha : AddrOK env M) (hL : 2 ≤ env.gramLen)
    (hL64 : env.gramLen < 2 ^ bits) (hk : 1 ≤ env.k) :
    ∀ (m d : Nat), m + d + 1 = env.gramLen →
      ∀ (R : List Line) (st : BuildState) (T : Nat), Good env M T st → Clean d st →
        (∀ r, r ∈ R → RecOK env M r) →
        st.heap.length + R.length * (m + 1) ≤ M → T + countSum R < 2 ^ 31 →
        ∃ st' ps, execEvents env (runEvents m d R) st = some st' ∧
          BuiltRuns env M T m d (runs d R) (R.length * (m + 1)) st st' ps := by
  intro m
  induction m with
  | zero =>
    intro d hd R st T hg hc hrec hheap hT
    have hdL : d = env.gramLen - 1 := by omega
    subst hdL
    have hsing : runs (env.gramLen - 1) R = R.map (fun r => [r]) := by
      apply runs_singletons
      intro a b ha' hb'
      exact (sim_spec a b env.gramLen (by omega) (hrec a ha').1 (hrec b hb').1).2.1
    obtain ⟨st', ps, hexec, hb⟩ := exec_leaves env M ha hL hL64 R st T hg hc hrec (by omega) hT
    refine ⟨st', ps, hexec, ?_⟩
    rw [hsing]
    simpa using hb
  | succ m ih =>
    intro d hd R st T hg hc hrec hheap hT
    have hfl := runs_flatten d R
    obtain ⟨st', ps, hexec, hb⟩ := exec_runs_step env M ha hL64 hk m d (by omega)
      (ih (d + 1) (by omega)) (runs d R) st T hg hc
      (fun run hrun => ⟨runs_ne_nil d R run hrun,
        fun r hr => hrec r (runs_mem_subset d R run hrun r hr)⟩)
      (by rw [hfl]; exact hheap) (by rw [hfl]; exact hT)
    refine ⟨st', ps, hexec, ?_⟩
    rw [hfl] at hb
    exact hb

theorem Good.init (env : BuildEnv) (M : Nat) : Good env M 0 (initState env) := by
  refine ⟨by simp [initState], by simp [initState], by simp [initState], ?_, ?_, ?_, ?_, ?_⟩
  · intro ps hps p hp
    simp only [initState] at hps
    have := List.eq_of_mem_replicate hps
    subst this
    simp at hp
  · simp [initState]
  · intro d ps c hps hc
    simp only [initState, List.getElem?_replicate] at hps hc
    split at hps
    · split at hc
      · cases hps
        cases hc
        simp
      · cases hc
    · cases hps
  · simp [initState]
  · intro p n h
    simp [initState, Heap.deref] at h

theorem Clean_init (env : BuildEnv) (d : Nat) : Clean d (initState env) := by
  refine ⟨?_, ?_⟩
  · intro e _
    simp only [initState, List.getD_eq_getElem?_getD, List.getElem?_replicate]
    split <;> rfl
  · intro e _
    simp only [initState, List.getD_eq_getElem?_getD, List.getElem?_replicate]
    split <;> rfl

theorem BuildOK.bounds (env : BuildEnv) (rs : List Line) (hok : BuildOK env rs) (hne : rs ≠ []) :
    env.gramLen ≤ rs.length * env.gramLen ∧ rs.length * env.gramLen ≤ 2 ^ 63 ∧
      env.gramLen < 2 ^ bits := by
  obtain ⟨hL, _, ha, _, _⟩ := hok
  have hlen : 1 ≤ rs.length := List.length_pos.mpr hne
  have h1 : env.gramLen ≤ rs.length * env.gramLen := Nat.le_mul_of_pos_left _ hlen
  obtain ⟨h0, hb⟩ := ha.1 0 (by omega)
  have h2 : rs.length * env.gramLen ≤ env.addr 0 * (rs.length * env.gramLen) :=
    Nat.le_mul_of_pos_left _ (by omega)
  have h3 : (2:Nat) ^ 63 < 2 ^ bits := Nat.pow_lt_pow_right (by norm_num) (by simp [bits])
  exact ⟨h1, by omega, by omega⟩

theorem Trie_new_eq (env : BuildEnv) (rs : List Line) (hL : 2 ≤ env.gramLen) (hne : rs ≠ [])
    (hlen : ∀ r, r ∈ rs → r.1.length = env.gramLen) (heof : EofOK env rs) :
    Trie.new env rs =
      (execEvents env (runEvents (env.gramLen - 1) 0 rs) (initState env)).bind finishBuild := by
  cases rs with
  | nil => exact absurd rfl hne
  | cons c rest =>
    rw [runEvents_eq_passEvents env.gramLen (env.gramLen - 1) 0 (by omega)]
    simp only [Trie.new]
    exact buildLoop_events env hL rest c (initState env) hlen (by simp [initState]) heof

theorem Trie.new_spec (env : BuildEnv) (rs : List Line) (hok : BuildOK env rs)
    (heof : EofOK env rs) (hne : rs ≠ []) :
    ∃ st ps t, Trie.new env rs = some (st.heap, t) ∧
      Good env (rs.length * env.gramLen) (countSum rs) st ∧
      st.heap.length ≤ rs.length * env.gramLen ∧
      st.levelNodes.getD 0 [] = ps ∧
      HashmapEF.new st.heap ps = some t.roots_ ∧
      List.Forall₂ (Rep env st.heap (env.gramLen - 1) 0) (runs 0 rs) ps := by
  obtain ⟨h1, h2, h64⟩ := BuildOK.bounds env rs hok hne
  obtain ⟨hL, hk, ha, hrec, hT⟩ := hok
  obtain ⟨st, ps, hexec, hb⟩ := exec_runs env (rs.length * env.gramLen) ha hL h64 (by omega)
    (env.gramLen - 1) 0 (by omega) rs (initState env) 0 (Good.init env _) (Clean_init env 0) hrec
    (by
      have : env.gramLen - 1 + 1 = env.gramLen := by omega
      simp [initState, this])
    (by omega)
  have hgood : Good env (rs.length * env.gramLen) (countSum rs) st := by
    have := hb.good
    rw [runs_flatten, Nat.zero_add] at this
    exact this
  have hheap : st.heap.length ≤ rs.length * env.gramLen := by
    have := hb.heapLen
    have h3 : env.gramLen - 1 + 1 = env.gramLen := by omega
    simp only [initState, List.length_nil, Nat.zero_add, h3] at this
    exact this
  have hps : st.levelNodes.getD 0 [] = ps := by
    rw [hb.here]
    simp [initState]
  have hmem : ps ∈ st.levelNodes := by
    rw [← hps, List.getD_eq_getElem _ _ (by rw [hgood.lenNodes]; omega)]
    exact List.getElem_mem _
  have hpsne : ps ≠ [] := by
    intro h
    have hlen := hb.rep.length_eq
    rw [h] at hlen
    cases rs with
    | nil => exact hne rfl
    | cons c rest =>
      obtain ⟨run, more, hr⟩ := runs_head 0 rest c
      rw [hr] at hlen
      simp at hlen
  obtain ⟨h, hnew, _⟩ := HashmapEF_lookup st.heap env.vocab ps hpsne
    (Good.storable env _ _ st hgood ha hheap ps hmem)
  refine ⟨st, ps, { roots_ := h }, ?_, hgood, hheap, hps, hnew, hb.rep⟩
  rw [Trie_new_eq env rs hL hne (fun r hr => (hrec r hr).1) heof, hexec, Option.some_bind]
  have hroots : st.levelNodes[0]? = some ps := by
    rw [← hps]
    exact getElem?_getD_list _ _ (by rw [hgood.lenNodes]; omega)
  simp only [finishBuild, hroots, hnew, Option.bind_eq_bind, Option.some_bind]

/-- Frequency invariant within the machine's ranges: the constructor, run on a non-empty
list of records that satisfies `BuildOK` (in particular the counts add up to less than
`2 ^ 31`) and `EofOK` (the records need not be sorted), returns a trie in whose heap
every node that is not a leaf, that is, has a `topK_` or a `successors_` block, carries
as frequency the sum of the frequencies of the children stored in its two blocks. -/
theorem frequency_invariant (env : BuildEnv) (rs : List Line) (hok : BuildOK env rs)
    (heof : EofOK env rs) (hne : rs ≠ []) :
    ∃ heap t, Trie.new env rs = some (heap, t) ∧
      ∀ p n, heap.deref p = some n →
        (n.topK_.isSome = true ∨ n.successors_.isSome = true) →
        ∃ l, n.children = some l ∧ n.frequency_ = (l.map (freqOf heap)).sum := by
  obtain ⟨st, ps, t, hnew, hgood, _, _, _, _⟩ := Trie.new_spec env rs hok heof hne
  refine ⟨st.heap, t, hnew, ?_⟩
  intro p n hp hnl
  obtain ⟨l, hl, _, hsum⟩ := hgood.nodes p n hp
  exact ⟨l, hl, hsum hnl⟩

set_option maxRecDepth 100000 in
/-- Frequency invariant at the sample corpus. -/
theorem frequency_invariant_sample :
    ∃ heap t, Trie.new sampleEnv sampleCorpus = some (heap, t) ∧
      ∀ p n, heap.deref p = some n →
        (n.topK_.isSome = true ∨ n.successors_.isSome = true) →
        ∃ l, n.children = some l ∧ n.frequency_ = (l.map (freqOf heap)).sum :=
  frequency_invariant sampleEnv sampleCorpus (by decide) (by decide) (by decide)

set_option maxRecDepth 100000 in
/-- C10 (code defect): the level sums are kept in a `vector<int>` although the frequency
of a node is a `size_t`.  For the two records `the cat sat` and `the dog sat` with the
count 1500000000 each, the nodes `cat` and `dog` get the frequency 1500000000, and the
statement `levelCounts[0] += levelCounts[1]` that prepares the frequency of their parent
`the` adds 1500000000 to 1500000000 in an `int`, which overflows: the build has no
defined result, and no trie in which `the` carries the sum 3000000000 of its children
is returned. -/
theorem C10_level_sum_overflows_int :
    overflowCorpus2.all (fun r => decide (r.2 < 2 ^ 31)) = true ∧
      countSum overflowCorpus2 = 3000000000 ∧
      addCount [1500000000, 0] 0 1500000000 = none ∧
      Trie.new overflowEnv2 overflowCorpus2 = none := by
  decide

set_option maxRecDepth 100000 in
theorem sample_sorted : SortedCorpus sampleEnv sampleCorpus := by decide

theorem Adjacent.sublist {α : Type} (key : Line → α) :
    ∀ (R R' : List Line), List.Sublist R' R → Adjacent key R → Adjacent key R' := by
  intro R R' h
  induction h with
  | slnil => intro _; trivial
  | cons a _ ih =>
    intro hadj
    exact ih hadj.2
  | cons₂ a hsub ih =>
    intro hadj
    exact ⟨hadj.1.sublist hsub, ih hadj.2⟩

theorem sim_iff_take (a b : Line) (L e : Nat) (ha : a.1.length = L) (hb : b.1.length = L)
    (he : e + 2 ≤ L) : e < sim a b ↔ a.1.take (e + 1) = b.1.take (e + 1) := by
  obtain ⟨_, hle, heq, hne⟩ := sim_spec a b L (by omega) ha hb
  constructor
  · intro hlt
    apply List.ext_getElem
    · simp [ha, hb]
    · intro i h1 h2
      have hi : i < e + 1 := by
        simp at h1
        omega
      have := heq i (by omega)
      simp only [tokenAt] at this
      rw [List.getElem_take, List.getElem_take]
      rw [List.getD_eq_getElem _ _ (by omega), List.getD_eq_getElem _ _ (by omega)] at this
      exact this
  · intro htake
    by_contra hlt
    have hs : sim a b < L - 1 := by omega
    apply hne hs
    have h1 : (a.1.take (e + 1)).getD (sim a b) "" = (b.1.take (e + 1)).getD (sim a b) "" := by
      rw [htake]
    simp only [tokenAt]
    rw [List.getD_eq_getElem?_getD, List.getD_eq_getElem?_getD, List.getElem?_take_of_lt (by omega),
      List.getElem?_take_of_lt (by omega)] at h1
    rw [List.getD_eq_getElem?_getD, List.getD_eq_getElem?_getD]
    exact h1

theorem runs_keys {α : Type} (key : Line → α) (e : Nat) : ∀ R : List Line,
    List.Chain' (fun a b => (e < sim a b ↔ key a = key b)) R → Adjacent key R →
      ((runs e R).map (fun run => key (lastOf run))).Nodup ∧
        ∀ run, run ∈ runs e R → ∀ r, r ∈ run → key r = key (lastOf run) := by
  intro R
  induction R with
  | nil => intro _ _; simp [runs]
  | cons r rest ih =>
    intro hch hadj
    cases rest with
    | nil =>
      refine ⟨by simp [runs], ?_⟩
      intro run hrun x hx
      simp only [runs, List.mem_singleton] at hrun
      subst hrun
      simp only [List.mem_singleton] at hx
      subst hx
      simp [lastOf]
    | cons x t =>
      obtain ⟨hrx, hch'⟩ := List.chain'_cons.mp hch
      obtain ⟨hnd, hall⟩ := ih hch' hadj.2
      obtain ⟨run0, more, hruns⟩ := runs_head e t x
      by_cases hlt : e < sim r x
      · have heq : runs e (r :: x :: t) = (r :: x :: run0) :: more := by
          simp only [runs, if_pos hlt, hruns]
        rw [heq]
        rw [hruns] at hnd hall
        refine ⟨?_, ?_⟩
        · simpa [lastOf_cons_cons] using hnd
        · intro run hrun y hy
          rcases List.mem_cons.mp hrun with h | h
          · subst h
            rw [lastOf_cons_cons]
            rcases List.mem_cons.mp hy with h' | h'
            · subst h'
              rw [hrx.mp hlt]
              exact hall _ (List.mem_cons_self _ _) _ (List.mem_cons_self _ _)
            · exact hall _ (List.mem_cons_self _ _) _ h'
          · exact hall _ (List.mem_cons_of_mem _ h) _ hy
      · have heq : runs e (r :: x :: t) = [r] :: runs e (x :: t) := by
          simp only [runs, if_neg hlt]
        rw [heq]
        have hne : key r ≠ key x := fun h => hlt (hrx.mpr h)
        refine ⟨?_, ?_⟩
        · rw [List.map_cons, List.nodup_cons]
          refine ⟨?_, hnd⟩
          intro hmem
          obtain ⟨run, hrun, hk⟩ := List.mem_map.mp hmem
          have hk' : key (lastOf run) = key r := by simpa [lastOf] using hk
          have hl : lastOf run ∈ x :: t :=
            runs_mem_subset e _ run hrun _ (lastOf_mem run (runs_ne_nil e _ run hrun))
          rcases List.mem_cons.mp hl with h | h
          · rw [h] at hk'
            exact hne hk'.symm
          · have hp := (List.pairwise_cons.mp hadj.1).1 _ h hk'
            exact hne hp.symm
        · intro run hrun y hy
          rcases List.mem_cons.mp hrun with h | h
          · subst h
            simp only [List.mem_singleton] at hy
            subst hy
            simp [lastOf]
          · exact hall _ h _ hy

theorem filter_flatten_key {α : Type} [DecidableEq α] (key : Line → α) :
    ∀ Rs : List (List Line), (Rs.map (fun run => key (lastOf run))).Nodup →
      (∀ run, run ∈ Rs → ∀ r, r ∈ run → key r = key (lastOf run)) →
      ∀ run, run ∈ Rs →
        (Rs.flatten).filter (fun r => decide (key r = key (lastOf run))) = run := by
  intro Rs
  induction Rs with
  | nil => intro _ _ run h; simp at h
  | cons R0 Rs ih =>
    intro hnd hall run hrun
    rw [List.map_cons, List.nodup_cons] at hnd
    rw [List.flatten_cons, List.filter_append]
    rcases List.mem_cons.mp hrun with h | h
    · subst h
      have h1 : run.filter (fun r => decide (key r = key (lastOf run))) = run := by
        rw [List.filter_eq_self]
        intro a ha
        simpa using hall _ (List.mem_cons_self _ _) a ha
      have h2 : (Rs.flatten).filter (fun r => decide (key r = key (lastOf run))) = [] := by
        rw [List.filter_eq_nil_iff]
        intro a ha
        obtain ⟨run', hrun', ha'⟩ := List.mem_flatten.mp ha
        have hk := hall run' (List.mem_cons_of_mem _ hrun') a ha'
        simp only [decide_eq_true_eq]
        intro hc
        apply hnd.1
        rw [← hc, hk]
        exact List.mem_map.mpr ⟨run', hrun', rfl⟩
      rw [h1, h2, List.append_nil]
    · have h1 : R0.filter (fun r => decide (key r = key (lastOf run))) = [] := by
        rw [List.filter_eq_nil_iff]
        intro a ha
        have hk := hall R0 (List.mem_cons_self _ _) a ha
        simp only [decide_eq_true_eq]
        intro hc
        apply hnd.1
        rw [← hk, hc]
        exact List.mem_map.mpr ⟨run, h, rfl⟩
      rw [h1, List.nil_append]
      exact ih hnd.2 (fun run' hr => hall run' (List.mem_cons_of_mem _ hr)) run h

theorem runs_sublist (e : Nat) (R run : List Line) (h : run ∈ runs e R) :
    List.Sublist run R := by
  have := List.sublist_flatten_of_mem h
  rw [runs_flatten] at this
  exact this

theorem SortedCorpus_sublist (env : BuildEnv) (R R' : List Line) (hsub : List.Sublist R' R)
    (h : SortedCorpus env R) : SortedCorpus env R' := by
  obtain ⟨hadj, hnd, hinj⟩ := h
  refine ⟨fun d hd => Adjacent.sublist _ R R' hsub (hadj d hd), ?_, ?_⟩
  · exact hnd.sublist (hsub.map Prod.fst)
  · intro r hr r' hr'
    exact hinj r (hsub.subset hr) r' (hsub.subset hr')

theorem Rep_gram (env : BuildEnv) (heap : Heap) (m d : Nat) (R : List Line) (p : Nat)
    (h : Rep env heap m d R p) : gramOf heap p = idAt env (lastOf R) d := by
  cases m with
  | zero =>
    obtain ⟨n, hn, hg, _⟩ := h
    rw [gramOf_eq heap p n hn, hg]
  | succ m =>
    obtain ⟨n, hn, hg, _⟩ := h
    rw [gramOf_eq heap p n hn, hg]

theorem Rep_freq (env : BuildEnv) (heap : Heap) (m d : Nat) (R : List Line) (p : Nat)
    (h : Rep env heap m d R p) : ∃ n, heap.deref p = some n ∧ n.frequency_ = countSum R := by
  cases m with
  | zero =>
    obtain ⟨n, hn, _, hf⟩ := h
    exact ⟨n, hn, hf⟩
  | succ m =>
    obtain ⟨n, hn, _, hf, _⟩ := h
    exact ⟨n, hn, hf⟩

theorem forall2_map_eq {α β γ : Type} (P : α → β → Prop) (f : α → γ) (g : β → γ)
    (hfg : ∀ a b, P a b → g b = f a) :
    ∀ (l : List α) (ps : List β), List.Forall₂ P l ps → ps.map g = l.map f := by
  intro l ps h
  induction h with
  | nil => rfl
  | cons hab _ ih => rw [List.map_cons, List.map_cons, ih, hfg _ _ hab]

theorem take_succ_token (x : Line) (e : Nat) (he : e < x.1.length) :
    x.1.take (e + 1) = x.1.take e ++ [tokenAt x e] := by
  rw [List.take_succ, List.getElem?_eq_getElem he]
  simp only [tokenAt]
  rw [List.getD_eq_getElem _ _ he]
  rfl

theorem tokenAt_mem (x : Line) (e : Nat) (he : e < x.1.length) : tokenAt x e ∈ x.1 := by
  simp only [tokenAt]
  rw [List.getD_eq_getElem _ _ he]
  exact List.getElem_mem _

theorem level_keys (env : BuildEnv) (e : Nat) (R : List Line) (hsrt : SortedCorpus env R)
    (hlen : ∀ r, r ∈ R → r.1.length = env.gramLen) (he : e < env.gramLen) :
    ((runs e R).map (fun run => (lastOf run).1.take (e + 1))).Nodup ∧
      ∀ run, run ∈ runs e R → ∀ r, r ∈ run → r.1.take (e + 1) = (lastOf run).1.take (e + 1) := by
  apply runs_keys (fun r : Line => r.1.take (e + 1)) e R ?_ (hsrt.1 (e + 1) (by omega))
  apply List.Pairwise.chain'
  have hp : R.Pairwise (fun a b => a.1 ≠ b.1) := List.pairwise_map.mp hsrt.2.1
  apply List.Pairwise.imp_of_mem ?_ hp
  intro a b ha hb hab
  by_cases h2 : e + 2 ≤ env.gramLen
  · exact sim_iff_take a b env.gramLen e (hlen a ha) (hlen b hb) h2
  · obtain ⟨_, hle, _, _⟩ := sim_spec a b env.gramLen (by omega) (hlen a ha) (hlen b hb)
    constructor
    · intro hlt
      omega
    · intro hk
      exfalso
      apply hab
      simp only at hk
      rw [List.take_of_length_le (by rw [hlen a ha]; omega),
        List.take_of_length_le (by rw [hlen b hb]; omega)] at hk
      exact hk

theorem level_step (env : BuildEnv) (heap : Heap) (m e : Nat) (R : List Line) (ps : List Nat)
    (pre : List String) (w : String) (ws : List String) (hsrt : SortedCorpus env R)
    (hlen : ∀ r, r ∈ R → r.1.length = env.gramLen) (he : e < env.gramLen)
    (hpre : ∀ r, r ∈ R → r.1.take e = pre) (hpl : pre.length = e)
    (hrep : List.Forall₂ (Rep env heap m e) (runs e R) ps)
    (hex : ∃ r, r ∈ R ∧ (pre ++ w :: ws) <+: r.1) :
    ∃ Rt q, q ∈ ps ∧ Rep env heap m e Rt q ∧ gramOf heap q = env.vocab.vocabS2ID w ∧
      (ps.map (gramOf heap)).Nodup ∧ Rt ≠ [] ∧ List.Sublist Rt R ∧
      (∀ r, r ∈ Rt → r.1.take (e + 1) = pre ++ [w]) ∧
      (∃ r, r ∈ Rt ∧ ((pre ++ [w]) ++ ws) <+: r.1) ∧
      R.filter (fun r => decide ((pre ++ w :: ws) <+: r.1)) =
        Rt.filter (fun r => decide (((pre ++ [w]) ++ ws) <+: r.1)) := by
  obtain ⟨hnd, hsame⟩ := level_keys env e R hsrt hlen he
  obtain ⟨r, hr, hpfx⟩ := hex
  have hassoc : pre ++ w :: ws = (pre ++ [w]) ++ ws := by simp
  have hrfl : r ∈ (runs e R).flatten := by rw [runs_flatten]; exact hr
  obtain ⟨Rt, hRt, hrRt⟩ := List.mem_flatten.mp hrfl
  obtain ⟨q, hq, hrepq⟩ := forall2_mem_left _ _ _ hrep Rt hRt
  have htk : ∀ x : Line, (pre ++ w :: ws) <+: x.1 → x.1.take (e + 1) = pre ++ [w] := by
    intro x hx
    obtain ⟨t, ht⟩ := hx
    rw [← ht, hassoc, List.append_assoc]
    exact List.take_left' (by simp [hpl])
  have hrk := htk r hpfx
  have hkey : ∀ x, x ∈ Rt → x.1.take (e + 1) = pre ++ [w] := by
    intro x hx
    rw [hsame Rt hRt x hx, ← hsame Rt hRt r hrRt, hrk]
  have hRtne : Rt ≠ [] := runs_ne_nil e R Rt hRt
  have hsub : List.Sublist Rt R := runs_sublist e R Rt hRt
  have htok : ∀ x, x ∈ R → x.1.take (e + 1) = pre ++ [tokenAt x e] := by
    intro x hx
    rw [take_succ_token x e (by rw [hlen x hx]; exact he), hpre x hx]
  have hlast : ∀ run, run ∈ runs e R → lastOf run ∈ R := fun run hrun =>
    runs_mem_subset e R run hrun _ (lastOf_mem run (runs_ne_nil e R run hrun))
  have hgram : gramOf heap q = env.vocab.vocabS2ID w := by
    rw [Rep_gram env heap m e Rt q hrepq]
    have h1 := hkey _ (lastOf_mem Rt hRtne)
    rw [htok _ (hlast Rt hRt)] at h1
    have h2 := List.append_cancel_left h1
    simp only [List.cons.injEq, and_true] at h2
    simp only [idAt, h2]
  have hmap : ps.map (gramOf heap) = (runs e R).map (fun run => idAt env (lastOf run) e) :=
    forall2_map_eq _ _ _ (fun a b hab => Rep_gram env heap m e a b hab) _ _ hrep
  have hndps : (ps.map (gramOf heap)).Nodup := by
    rw [hmap]
    apply List.Nodup.map_on ?_ hnd.of_map
    intro x hx y hy hxy
    apply List.inj_on_of_nodup_map hnd hx hy
    have hwx : tokenAt (lastOf x) e = tokenAt (lastOf y) e :=
      hsrt.2.2 _ (hlast x hx) _ (hlast y hy) _
        (tokenAt_mem _ e (by rw [hlen _ (hlast x hx)]; exact he)) _
        (tokenAt_mem _ e (by rw [hlen _ (hlast y hy)]; exact he)) hxy
    rw [htok _ (hlast x hx), htok _ (hlast y hy), hwx]
  refine ⟨Rt, q, hq, hrepq, hgram, hndps, hRtne, hsub, hkey, ⟨r, hrRt, by rw [← hassoc]; exact hpfx⟩,
    ?_⟩
  have hG3 := filter_flatten_key (fun r : Line => r.1.take (e + 1)) (runs e R) hnd hsame Rt hRt
  rw [runs_flatten] at hG3
  have h1 : Rt.filter (fun r => decide (((pre ++ [w]) ++ ws) <+: r.1)) =
      (R.filter (fun r => decide ((fun r : Line => r.1.take (e + 1)) r =
        (fun r : Line => r.1.take (e + 1)) (lastOf Rt)))).filter
        (fun r => decide (((pre ++ [w]) ++ ws) <+: r.1)) := by
    rw [hG3]
  rw [h1, List.filter_filter]
  apply List.filter_congr
  intro x _
  rw [← hassoc]
  by_cases hx : (pre ++ w :: ws) <+: x.1
  · have := htk x hx
    have h2 := hkey _ (lastOf_mem Rt hRtne)
    simp [hx, this, h2]
  · simp [hx]

theorem walk_rep (env : BuildEnv) (heap : Heap) : ∀ (ws : List String) (m d : Nat)
    (R : List Line) (p : Nat) (pre : List String), m + d + 1 = env.gramLen →
    Rep env heap m d R p → SortedCorpus env R → (∀ r, r ∈ R → r.1.length = env.gramLen) →
    (∀ r, r ∈ R → r.1.take (d + 1) = pre) → pre.length = d + 1 →
    (∃ r, r ∈ R ∧ (pre ++ ws) <+: r.1) →
    ∃ q, ws.foldlM (fun branch w => do (← heap.deref branch).findSuccessor env.vocab w) p =
        some q ∧
      Rep env heap (m - ws.length) (d + ws.length)
        (R.filter (fun r => decide ((pre ++ ws) <+: r.1))) q := by
  intro ws
  induction ws with
  | nil =>
    intro m d R p pre _ hrep _ _ hpre _ _
    refine ⟨p, rfl, ?_⟩
    have hf : R.filter (fun r => decide ((pre ++ []) <+: r.1)) = R := by
      rw [List.filter_eq_self]
      intro r hr
      simp only [List.append_nil, decide_eq_true_eq]
      rw [← hpre r hr]
      exact List.take_prefix _ _
    rw [hf]
    exact hrep
  | cons w ws ih =>
    intro m d R p pre hmd hrep hsrt hlen hpre hpl hex
    have hm : 1 ≤ m := by
      obtain ⟨r, hr, hp⟩ := hex
      have := hp.length_le
      rw [hlen r hr] at this
      simp only [List.length_append, List.length_cons] at this
      omega
    obtain ⟨m', rfl⟩ : ∃ m', m = m' + 1 := ⟨m - 1, by omega⟩
    obtain ⟨n, hn, _, _, ps, hreps, hhit⟩ := hrep
    obtain ⟨Rt, q, hq, hrepq, hgram, hnd, _, hsub, hkey, hex', hfilter⟩ :=
      level_step env heap m' (d + 1) R ps pre w ws hsrt hlen (by omega) hpre hpl hreps hex
    have hstep : n.findSuccessor env.vocab w = some q := hhit hnd q w hq hgram.symm
    obtain ⟨q', hwalk, hrep'⟩ := ih m' (d + 1) Rt q (pre ++ [w]) (by omega) hrepq
      (SortedCorpus_sublist env R Rt hsub hsrt) (fun r hr => hlen r (hsub.subset hr)) hkey
      (by simp [hpl]) hex'
    refine ⟨q', ?_, ?_⟩
    · rw [List.foldlM_cons]
      simp only [hn, hstep, Option.bind_eq_bind, Option.some_bind]
      exact hwalk
    · rw [hfilter]
      have h1 : m' + 1 - (w :: ws).length = m' - ws.length := by
        simp only [List.length_cons]
        omega
      have h2 : d + (w :: ws).length = d + 1 + ws.length := by
        simp only [List.length_cons]
        omega
      rw [h1, h2]
      exact hrep'

theorem query_spec (env : BuildEnv) (rs : List Line) (hok : BuildOK env rs)
    (heof : EofOK env rs) (hsrt : SortedCorpus env rs) (hne : rs ≠ []) :
    ∃ heap t, Trie.new env rs = some (heap, t) ∧
      ∀ tokens, tokens ≠ [] → (∃ r, r ∈ rs ∧ tokens <+: r.1) →
        ∃ q, t.walk heap env.vocab tokens = some q ∧
          Rep env heap (env.gramLen - tokens.length) (tokens.length - 1)
            (rs.filter (fun r => decide (tokens <+: r.1))) q := by
  obtain ⟨st, ps, t, hnew, hgood, hheap, hps, hroots, hrep⟩ :=
    Trie.new_spec env rs hok heof hne
  refine ⟨st.heap, t, hnew, ?_⟩
  intro tokens htne hex
  obtain ⟨hL, _, ha, hrec, _⟩ := hok
  have hlen : ∀ r, r ∈ rs → r.1.length = env.gramLen := fun r hr => (hrec r hr).1
  cases tokens with
  | nil => exact absurd rfl htne
  | cons w ws =>
    obtain ⟨Rt, q, hq, hrepq, hgram, hnd, _, hsub, hkey, hex', hfilter⟩ :=
      level_step env st.heap (env.gramLen - 1) 0 rs ps [] w ws hsrt hlen (by omega)
        (fun r _ => List.take_zero _) rfl hrep hex
    have hpsne : ps ≠ [] := List.ne_nil_of_mem hq
    have hmem : ps ∈ st.levelNodes := by
      rcases getD_nil_or_mem st.levelNodes 0 with h | h
      · rw [hps] at h
        exact absurd h hpsne
      · rw [hps] at h
        exact h
    have hst := Good.storable env _ _ st hgood ha hheap ps hmem
    obtain ⟨h, hh, _, _, _, hhit⟩ := HashmapEF_lookup st.heap env.vocab ps hpsne hst
    rw [hroots] at hh
    have hroot : t.roots_.get env.vocab w = some q := by
      rw [Option.some.inj hh]
      exact hhit hnd q w hq hgram.symm
    obtain ⟨q', hwalk, hrep'⟩ := walk_rep env st.heap ws (env.gramLen - 1) 0 Rt q ([] ++ [w])
      (by omega) hrepq (SortedCorpus_sublist env rs Rt hsub hsrt)
      (fun r hr => hlen r (hsub.subset hr)) hkey rfl hex'
    refine ⟨q', ?_, ?_⟩
    · simp only [Trie.walk, List.getElem?_cons_zero, Option.bind_eq_bind, Option.some_bind,
        hroot, List.tail_cons]
      exact hwalk
    · simp only [List.nil_append] at hfilter
      rw [hfilter]
      have h1 : env.gramLen - (w :: ws).length = env.gramLen - 1 - ws.length := by
        simp only [List.length_cons]
        omega
      have h2 : (w :: ws).length - 1 = 0 + ws.length := by
        simp only [List.length_cons]
        omega
      rw [h1, h2]
      exact hrep'

theorem filter_same_tokens : ∀ (rs : List Line) (r : Line), (rs.map Prod.fst).Nodup → r ∈ rs →
    (∀ x, x ∈ rs → x.1.length = r.1.length) →
    rs.filter (fun x => decide (r.1 <+: x.1)) = [r] := by
  intro rs r hnd hr hlen
  have hiff : ∀ x, x ∈ rs → (r.1 <+: x.1 ↔ x = r) := by
    intro x hx
    constructor
    · intro hp
      have h1 : r.1 = x.1 := hp.eq_of_length (hlen x hx).symm
      exact List.inj_on_of_nodup_map hnd hx hr h1.symm
    · intro h
      rw [h]
  induction rs with
  | nil => simp at hr
  | cons a t ih =>
    rw [List.map_cons, List.nodup_cons] at hnd
    by_cases hra : a = r
    · subst hra
      rw [List.filter_cons_of_pos (by simp)]
      congr 1
      rw [List.filter_eq_nil_iff]
      intro x hx
      simp only [decide_eq_true_eq]
      intro hp
      have := (hiff x (List.mem_cons_of_mem _ hx)).mp hp
      apply hnd.1
      rw [← this]
      exact List.mem_map.mpr ⟨x, hx, rfl⟩
    · have hrt : r ∈ t := by
        rcases List.mem_cons.mp hr with h | h
        · exact absurd h.symm hra
        · exact h
      rw [List.filter_cons_of_neg]
      · exact ih hnd.2 hrt (fun x hx => hlen x (List.mem_cons_of_mem _ hx))
          (fun x hx => hiff x (List.mem_cons_of_mem _ hx))
      · simp only [decide_eq_true_eq]
        intro hp
        exact hra ((hiff a (List.mem_cons_self _ _)).mp hp)

/-- Prefix count within the machine's ranges: on a corpus that satisfies `BuildOK` (in
particular the counts add up to less than `2 ^ 31`) and `EofOK`, is sorted, and has
pairwise distinct word sequences and pairwise distinct word ids (`SortedCorpus`), the
constructor returns a trie on which `frequencyCount`, asked for any non-empty list of
words that starts at least one record, returns the sum of the counts of all the records
whose word sequence starts with that list. -/
theorem prefix_count (env : BuildEnv) (rs : List Line) (hok : BuildOK env rs)
    (heof : EofOK env rs) (hsrt : SortedCorpus env rs) (hne : rs ≠ []) :
    ∃ heap t, Trie.new env rs = some (heap, t) ∧
      ∀ p, p ≠ [] → (∃ r, r ∈ rs ∧ p <+: r.1) →
        t.frequencyCount heap env.vocab p =
          some (countSum (rs.filter (fun r => decide (p <+: r.1)))) := by
  obtain ⟨heap, t, hnew, hq⟩ := query_spec env rs hok heof hsrt hne
  refine ⟨heap, t, hnew, ?_⟩
  intro p hp hex
  obtain ⟨q, hwalk, hrep⟩ := hq p hp hex
  obtain ⟨n, hn, hf⟩ := Rep_freq env heap _ _ _ q hrep
  simp only [Trie.frequencyCount, hwalk, Option.bind_eq_bind, Option.some_bind, hn, hf]

set_option maxRecDepth 100000 in
/-- Prefix counts of the sample corpus `the cat sat 5, the cat ran 3, the dog sat 2`. -/
theorem prefix_count_sample :
    (Trie.new sampleEnv sampleCorpus).bind
        (fun r => r.2.frequencyCount r.1 sampleVocab ["the", "cat"]) = some 8 ∧
      (Trie.new sampleEnv sampleCorpus).bind
        (fun r => r.2.frequencyCount r.1 sampleVocab ["the"]) = some 10 := by
  obtain ⟨heap, t, hnew, h⟩ :=
    prefix_count sampleEnv sampleCorpus (by decide) (by decide) (by decide) (by decide)
  rw [hnew]
  refine ⟨?_, ?_⟩
  · have h1 := h ["the", "cat"] (by decide) ⟨(["the", "cat", "sat"], 5), by decide, by decide⟩
    have h2 : countSum (sampleCorpus.filter
        (fun r => decide (["the", "cat"] <+: r.1))) = 8 := by decide
    rw [h2] at h1
    exact h1
  · have h1 := h ["the"] (by decide) ⟨(["the", "cat", "sat"], 5), by decide, by decide⟩
    have h2 : countSum (sampleCorpus.filter
        (fun r => decide (["the"] <+: r.1))) = 10 := by decide
    rw [h2] at h1
    exact h1

set_option maxRecDepth 100000 in
/-- C2 (code defect): the level sums are kept in a `vector<int>` although
`frequencyCount` returns a `size_t`.  The two records `the cat sat` and `the cat ran`
with the count 2000000000 each are sorted and distinct, and the records that start with
`the cat` count 4000000000 together; the second execution of
`levelCounts[gramLen - 2] += context.second` adds 2000000000 to 2000000000 in an `int`,
which overflows: the build has no defined result, and no trie on which
`frequencyCount` of `the cat` returns 4000000000. -/
theorem C2_prefix_sum_overflows_int :
    SortedCorpus overflowEnv overflowCorpus ∧
      overflowCorpus.all (fun r => decide (r.2 < 2 ^ 31)) = true ∧
      countSum (overflowCorpus.filter (fun r => decide (["the", "cat"] <+: r.1))) =
        4000000000 ∧
      intAdd 2000000000 2000000000 = none ∧
      Trie.new overflowEnv overflowCorpus = none := by
  decide

/-- Query round trip within the machine's ranges: on a corpus that satisfies `BuildOK`
and `EofOK`, is sorted, and has pairwise distinct word sequences and pairwise distinct
word ids (`SortedCorpus`), the constructor returns a trie on which `frequencyCount`,
asked for the words of any record of the corpus, returns the count of that record. -/
theorem query_round_trip (env : BuildEnv) (rs : List Line) (hok : BuildOK env rs)
    (heof : EofOK env rs) (hsrt : SortedCorpus env rs) (hne : rs ≠ []) :
    ∃ heap t, Trie.new env rs = some (heap, t) ∧
      ∀ r, r ∈ rs → t.frequencyCount heap env.vocab r.1 = some r.2 := by
  obtain ⟨heap, t, hnew, hq⟩ := query_spec env rs hok heof hsrt hne
  refine ⟨heap, t, hnew, ?_⟩
  intro r hr
  have hlen : ∀ x, x ∈ rs → x.1.length = env.gramLen := fun x hx => (hok.2.2.2.1 x hx).1
  have hrne : r.1 ≠ [] := by
    intro h
    have := hlen r hr
    rw [h] at this
    have := hok.1
    simp at *
    omega
  obtain ⟨q, hwalk, hrep⟩ := hq r.1 hrne ⟨r, hr, List.prefix_refl _⟩
  obtain ⟨n, hn, hf⟩ := Rep_freq env heap _ _ _ q hrep
  rw [filter_same_tokens rs r hsrt.2.1 hr (fun x hx => by rw [hlen x hx, hlen r hr])] at hf
  simp only [Trie.frequencyCount, hwalk, Option.bind_eq_bind, Option.some_bind, hn, hf]
  simp [countSum]

set_option maxRecDepth 100000 in
/-- Query round trip at the sample corpus: each of its three records is counted
exactly. -/
theorem query_round_trip_sample :
    (Trie.new sampleEnv sampleCorpus).bind
        (fun r => r.2.frequencyCount r.1 sampleVocab ["the", "cat", "sat"]) = some 5 ∧
      (Trie.new sampleEnv sampleCorpus).bind
        (fun r => r.2.frequencyCount r.1 sampleVocab ["the", "cat", "ran"]) = some 3 ∧
      (Trie.new sampleEnv sampleCorpus).bind
        (fun r => r.2.frequencyCount r.1 sampleVocab ["the", "dog", "sat"]) = some 2 := by
  obtain ⟨heap, t, hnew, h⟩ :=
    query_round_trip sampleEnv sampleCorpus (by decide) (by decide) (by decide) (by decide)
  rw [hnew]
  exact ⟨h (["the", "cat", "sat"], 5) (by decide), h (["the", "cat", "ran"], 3) (by decide),
    h (["the", "dog", "sat"], 2) (by decide)⟩

set_option maxRecDepth 100000 in
/-- C1 (code defect): the input file whose only line is `7 b c<TAB>7` is a sorted corpus
of one trigram with a positive count.  The read that reaches the end of the file fails
and leaves the text `7` of the count in `word`; the test `word == ""`, commented
"possible if at the end of the file", does not fire, and the loop stores `7` as the only
word of `line`.  The comparison of lines 81-87 finds `context.first[0] == line.first[0]`
and goes on to read `line.first[1]`, out of bounds: the build has no defined result, and
no trie on which `frequencyCount` of `7 b c` returns 7.  With the count 8 in place of 7
the same record is built and counted. -/
theorem C1_end_of_input_reads_out_of_bounds :
    SortedCorpus staleEnv staleCorpus ∧ BuildOK staleEnv staleCorpus ∧
      similarCountAt staleEnv (["7", "b", "c"], 7) none = none ∧
      Trie.new staleEnv staleCorpus = none ∧
      (Trie.new { staleEnv with lastWord := "8" } [(["7", "b", "c"], 8)]).bind
        (fun r => r.2.frequencyCount r.1 staleVocab ["7", "b", "c"]) = some 8 := by
  decide

/-- C13: for a non-empty list of storable nodes (gram ids at least 3, running sums of
the ids and of the addresses within `2 ^ 63`) and every `i` below its length, the
`SortedEF` built from the list returns from `getRank(i)` the pointer of the `i`-th node
of the list. -/
theorem C13_sortedEF_getRank (heap : Heap) (nodes : List Nat) (hne : nodes ≠ [])
    (hst : Storable heap nodes) (i : Nat) (hi : i < nodes.length) :
    (SortedEF.new heap nodes).bind (fun s => s.getRank i) = some (nodes.getD i 0) := by
  obtain ⟨s, hnew, hsize, _, hp⟩ := SortedEF_new_spec heap nodes hne hst
  rw [hnew, Option.some_bind]
  have hgt : ¬ i > s.size_ := by omega
  simp only [SortedEF.getRank, if_neg hgt]
  exact hp i hi

set_option maxRecDepth 100000 in
/-- C13 at the four sample leaves: rank 2 is the third pointer. -/
theorem C13_sortedEF_getRank_witness :
    (SortedEF.new sampleHeap [16, 32, 48, 64]).bind (fun s => s.getRank 2) = some 48 :=
  C13_sortedEF_getRank sampleHeap [16, 32, 48, 64] (by decide) (by decide) 2 (by decide)

set_option maxRecDepth 100000 in
/-- C17 (code defect): the guard of both `getRank` methods is `rank > size_`.  For a
block of 4 nodes rank 5 returns the null pointer, but rank 4 passes the guard:
`SortedEF::getRank(4)` decodes element 4 of a sequence of 4 and `HashmapEF::getRank(4)`
reads `sortedList[4]` of a vector of 4, both out of range. -/
theorem C17_getRank_at_size_out_of_range :
    (SortedEF.new sampleHeap [16, 32, 48, 64]).bind (fun s => s.getRank 5) = some 0 ∧
      (SortedEF.new sampleHeap [16, 32, 48, 64]).bind (fun s => s.getRank 4) = none ∧
      (HashmapEF.new sampleHeap [16, 32, 48, 64]).bind
        (fun h => h.getRank sampleHeap 5) = some 0 ∧
      (HashmapEF.new sampleHeap [16, 32, 48, 64]).bind
        (fun h => h.getRank sampleHeap 4) = none := by
  decide

set_option maxRecDepth 100000 in
/-- C20 (code defect): `[5, 3 * 2 ^ 62]` is non-decreasing, has length 2 and a last
element above its length, yet the encoder is built with `maxBits_ = 65` and
`lowerBitNum_ = 63`, and `access` writes bit 64 of a `bitset<64>`, which is undefined,
instead of returning the elements. -/
theorem C20_access_undefined_above_two_pow_63 :
    (Encoder.new [5, 3 * 2 ^ 62]).map (fun e => (e.maxBits_, e.lowerBitNum_)) =
        some (65, 63) ∧
      (Encoder.new [5, 3 * 2 ^ 62]).bind (fun e => e.access 0) = none ∧
      (Encoder.new [5, 3 * 2 ^ 62]).bind (fun e => e.access 1) = none := by
  decide

set_option maxRecDepth 100000 in
/-- Just above `2 ^ 63` the logarithm taken in double precision is 63: for
`[5, 2 ^ 63 + 5]` the encoder has `maxBits_ = 64` and `lowerBitNum_ = 62`, and `access`
returns both elements. -/
theorem Encoder_just_above_two_pow_63 :
    (Encoder.new [5, 2 ^ 63 + 5]).map (fun e => (e.maxBits_, e.lowerBitNum_)) =
        some (64, 62) ∧
      (Encoder.new [5, 2 ^ 63 + 5]).bind (fun e => e.access 0) = some 5 ∧
      (Encoder.new [5, 2 ^ 63 + 5]).bind (fun e => e.access 1) = some (2 ^ 63 + 5) := by
  decide

theorem countHigh_sum (l : Nat) : ∀ (vs buckets out : List Nat),
    countHigh l buckets vs = some out → out.sum = buckets.sum + vs.length := by
  intro vs
  induction vs with
  | nil =>
    intro buckets out h
    simp only [countHigh, Option.some.injEq] at h
    simp [h]
  | cons v rest ih =>
    intro buckets out h
    simp only [countHigh] at h
    by_cases hv : halve l v < buckets.length
    · rw [if_pos hv] at h
      have h1 := ih _ _ h
      have h2 := sum_set_add buckets (halve l v) (buckets.getD (halve l v) 0 + 1) hv
      rw [h1, List.length_cons]
      omega
    · rw [if_neg hv] at h
      exact absurd h (by simp)

theorem upperRegion_length : ∀ cs : List Nat, (upperRegion cs).length = cs.length + cs.sum := by
  intro cs
  induction cs with
  | nil => rfl
  | cons c t ih =>
    rw [upperRegion_cons]
    simp only [List.length_cons, List.length_append, List.length_replicate, ih, List.sum_cons]
    omega

theorem Encoder.new_layout (sequence : List Nat) (U : Nat) (hlast : sequence.getLast? = some U)
    (h1 : sequence.length ≠ 1) (hUN : sequence.length ≤ U) (hU : U ≤ 2 ^ 63)
    (hval : ∀ c, ceilLog2 U = some c → ∀ x, x ∈ sequence → x < 2 ^ (c + 1)) :
    ∃ c q out, ceilLog2 U = some c ∧ ceilLog2 (U / sequence.length) = some q ∧ q ≤ c ∧
      c ≤ 63 ∧
      Encoder.new sequence =
        some { bitSequence_ := lowerRegion sequence sequence.length q ++ upperRegion out,
               maxBits_ := c + 1, size_ := sequence.length, lowerBitNum_ := q } ∧
      out.length = 2 ^ (c + 1 - q) ∧ out.sum = sequence.length ∧
      ∀ b, out.getD b 0 = (sequence.map (fun v => v / 2 ^ q)).count b := by
  have hne : sequence ≠ [] := by
    intro h
    simp [h] at hlast
  have hlenpos : 0 < sequence.length := List.length_pos.mpr hne
  have hU0 : U ≠ 0 := by omega
  have hU64 : U ≤ 2 ^ bits := le_trans hU (Nat.pow_le_pow_right (by norm_num) (by simp [bits]))
  obtain ⟨c, _, hc, _⟩ := ceilLog2_spec U hU0 hU64
  have hc63 := ceilLog2_le_63 U c hU hc
  have hq0 : U / sequence.length ≠ 0 := by
    have := Nat.div_pos hUN hlenpos
    omega
  have hqU : U / sequence.length ≤ U := Nat.div_le_self _ _
  obtain ⟨q, _, hq, _⟩ := ceilLog2_spec (U / sequence.length) hq0 (le_trans hqU hU64)
  have hqc : q ≤ c := ceilLog2_quotient U sequence.length c q (by omega) hUN hU64 hc hq
  have hval2 : ∀ x, x ∈ sequence → x < 2 ^ (c + 1) := hval c hc
  have hval64 : ∀ x, x ∈ sequence → x < 2 ^ bits := by
    intro x hx
    exact lt_of_lt_of_le (hval2 x hx) (Nat.pow_le_pow_right (by norm_num) (by simp [bits]; omega))
  obtain ⟨out, hout, houtlen, houtcount⟩ := countHigh_spec q (sequence.map (clearLower q))
    (List.replicate (2 ^ (c + 1 - q)) 0) (by
      intro w hw
      obtain ⟨x, hx, rfl⟩ := List.mem_map.mp hw
      rw [halve_clearLower q x (hval64 x hx), List.length_replicate,
        Nat.div_lt_iff_lt_mul (by positivity), ← pow_add]
      have : c + 1 - q + q = c + 1 := by omega
      rw [this]
      exact hval2 x hx)
  have hmapeq : (sequence.map (clearLower q)).map (halve q) =
      sequence.map (fun v => v / 2 ^ q) := by
    rw [List.map_map]
    apply List.map_congr_left
    intro x hx
    exact halve_clearLower q x (hval64 x hx)
  have hsum := countHigh_sum q _ _ _ hout
  refine ⟨c, q, out, hc, hq, hqc, hc63, Encoder.new_eq sequence U c q out hlast hc hq hqc h1 hout,
    by rw [houtlen, List.length_replicate], ?_, ?_⟩
  · rw [hsum]
    simp
  · intro b
    rw [houtcount b, hmapeq]
    simp [List.getD_eq_getElem?_getD, List.getElem?_replicate]
    split <;> rfl

theorem sorted_fits (sequence : List Nat) (U : Nat) (hsorted : sequence.Pairwise (· ≤ ·))
    (hlast : sequence.getLast? = some U) (hU : U ≤ 2 ^ 63) (c : Nat)
    (hc : ceilLog2 U = some c) (x : Nat) (hx : x ∈ sequence) : x < 2 ^ (c + 1) :=
  lt_of_le_of_lt (le_last_of_sorted sequence U hsorted hlast x hx)
    (ceilLog2_lt U c (le_trans hU (Nat.pow_le_pow_right (by norm_num) (by simp [bits]))) hc)

set_option maxRecDepth 100000 in
/-- C16 (counterexample): `[5, 3]` is not non-decreasing, yet the constructor returns an
encoder, and `access` returns 3 at index 0 and 5 at index 1 instead of 5 and 3. -/
theorem C16_unsorted_input_accepted :
    (Encoder.new [5, 3]).bind (fun e => e.access 0) = some 3 ∧
      (Encoder.new [5, 3]).bind (fun e => e.access 1) = some 5 := by
  decide

/-- C16 (amended): the constructor makes no check of the order of its input and has no
error path.  For every sequence, in whatever order, whose last element `U` is at least
the length and at most `2 ^ 63` and whose elements all fit in the `maxBits_ = c + 1`
bits that the constructor computes from `U`, it returns an encoder of the size of the
sequence. -/
theorem C16_constructor_makes_no_order_check (sequence : List Nat) (U c : Nat)
    (hlast : sequence.getLast? = some U) (hUN : sequence.length ≤ U) (hU : U ≤ 2 ^ 63)
    (hc : ceilLog2 U = some c) (hval : ∀ x, x ∈ sequence → x < 2 ^ (c + 1)) :
    ∃ e, Encoder.new sequence = some e ∧ e.size_ = sequence.length ∧ e.maxBits_ = c + 1 := by
  by_cases h1 : sequence.length = 1
  · obtain ⟨v, hv⟩ := List.length_eq_one.mp h1
    subst hv
    have hvU : v = U := by simpa using hlast
    subst hvU
    exact ⟨_, Encoder.new_single v c hc, rfl, rfl⟩
  · obtain ⟨c', q, out, hc', _, _, _, hnew, _⟩ :=
      Encoder.new_layout sequence U hlast h1 hUN hU (fun c' hc' => by
        rw [hc] at hc'
        cases hc'
        exact hval)
    rw [hc] at hc'
    cases hc'
    exact ⟨_, hnew, rfl, rfl⟩

set_option maxRecDepth 100000 in
/-- C16 (amended) at `[5, 3]`: the last element 3 gives `maxBits_ = 3`, and 5 fits in
3 bits. -/
theorem C16_constructor_makes_no_order_check_witness :
    ¬ List.Pairwise (· ≤ ·) [5, 3] ∧
      ∃ e, Encoder.new [5, 3] = some e ∧ e.size_ = [5, 3].length ∧ e.maxBits_ = 2 + 1 :=
  ⟨by decide, C16_constructor_makes_no_order_check [5, 3] 3 2 (by decide) (by decide)
    (by decide) (by decide) (by decide)⟩

set_option maxRecDepth 100000 in
/-- C19 (counterexample): for the 8 values `3, 3, 3, 3, 3, 3, 3, 8` the quotient `U / N`
is 1, its logarithm 0, and the encoder holds 24 bits, more than the claimed
`8 * (2 + 0) + 2 ^ 0 = 17`. -/
theorem C19_bound_exceeded :
    (Encoder.new [3, 3, 3, 3, 3, 3, 3, 8]).map (fun e => e.bitSequence_.length) = some 24 ∧
      ceilLog2 (8 / [3, 3, 3, 3, 3, 3, 3, 8].length) = some 0 ∧
      ¬ 24 ≤ [3, 3, 3, 3, 3, 3, 3, 8].length * (2 + 0) + 2 ^ 0 := by
  decide

/-- C19 (amended): for a sequence of `N ≥ 8` elements whose last element `U` is at
least `N` and at most `2 ^ 40`, the encoder holds exactly
`N * q + N + 2 ^ (c + 1 - q)` bits, where `c = ceil(log2 U)` and
`q = ceil(log2 (U / N))`; the number `2 ^ (c + 1 - q)` of buckets is below `8 * N`, so
the encoder holds fewer than `N * (9 + q)` bits. -/
theorem C19_encoded_length (sequence : List Nat) (U : Nat)
    (hsorted : sequence.Pairwise (· ≤ ·)) (hN : 8 ≤ sequence.length)
    (hlast : sequence.getLast? = some U) (hUN : sequence.length ≤ U) (hU : U ≤ 2 ^ 40) :
    ∃ e c q, Encoder.new sequence = some e ∧ ceilLog2 U = some c ∧
      ceilLog2 (U / sequence.length) = some q ∧
      e.bitSequence_.length = sequence.length * q + sequence.length + 2 ^ (c + 1 - q) ∧
      2 ^ (c + 1 - q) < 8 * sequence.length ∧
      e.bitSequence_.length < sequence.length * (9 + q) := by
  have hU63 : U ≤ 2 ^ 63 := le_trans hU (Nat.pow_le_pow_right (by norm_num) (by norm_num))
  have hle : ∀ x, x ∈ sequence → x ≤ U := le_last_of_sorted sequence U hsorted hlast
  obtain ⟨c, q, out, hc, hq, hqc, _, hnew, houtlen, houtsum, _⟩ :=
    Encoder.new_layout sequence U hlast (by omega) hUN hU63
      (sorted_fits sequence U hsorted hlast hU63)
  have hU49 : U ≤ 2 ^ 49 := le_trans hU (Nat.pow_le_pow_right (by norm_num) (by norm_num))
  obtain ⟨_, hUc, hcmin⟩ := ceilLog2_exact U c hU49 hc
  have hdpos : 0 < U / sequence.length := Nat.div_pos hUN (by omega)
  obtain ⟨_, hdq, _⟩ := ceilLog2_exact (U / sequence.length) q
    (le_trans (Nat.div_le_self _ _) hU49) hq
  have hc1 : 1 ≤ c := by
    by_contra h0
    have : c = 0 := by omega
    subst this
    simp at hUc
    omega
  have h1 : 2 ^ (c - 1) < U := hcmin (c - 1) (by omega)
  have hpow : 2 ^ (c + 1 - q) * 2 ^ q = 4 * 2 ^ (c - 1) := by
    rw [← pow_add]
    have : c + 1 - q + q = (c - 1) + 2 := by omega
    rw [this, pow_add]
    ring
  have hmod := Nat.div_add_mod U sequence.length
  have hmodlt := Nat.mod_lt U (show 0 < sequence.length by omega)
  have hNd : sequence.length ≤ sequence.length * (U / sequence.length) :=
    Nat.le_mul_of_pos_right _ hdpos
  have hbuckets : 2 ^ (c + 1 - q) < 8 * sequence.length := by
    apply Nat.lt_of_mul_lt_mul_right (a := U / sequence.length)
    calc 2 ^ (c + 1 - q) * (U / sequence.length)
        ≤ 2 ^ (c + 1 - q) * 2 ^ q := Nat.mul_le_mul_left _ hdq
      _ = 4 * 2 ^ (c - 1) := hpow
      _ < 8 * sequence.length * (U / sequence.length) := by nlinarith
  have hlen : (lowerRegion sequence sequence.length q ++ upperRegion out).length =
      sequence.length * q + sequence.length + 2 ^ (c + 1 - q) := by
    rw [List.length_append, lowerRegion_length, upperRegion_length, houtlen, houtsum]
    omega
  refine ⟨_, c, q, hnew, hc, hq, hlen, hbuckets, ?_⟩
  rw [hlen]
  have : sequence.length * (9 + q) = sequence.length * q + 9 * sequence.length := by ring
  omega

set_option maxRecDepth 100000 in
/-- C19 (amended) at the 8 values `3, 4, 5, 6, 7, 8, 9, 100`. -/
theorem C19_encoded_length_witness :
    ∃ e c q, Encoder.new [3, 4, 5, 6, 7, 8, 9, 100] = some e ∧ ceilLog2 100 = some c ∧
      ceilLog2 (100 / [3, 4, 5, 6, 7, 8, 9, 100].length) = some q ∧
      e.bitSequence_.length = [3, 4, 5, 6, 7, 8, 9, 100].length * q +
        [3, 4, 5, 6, 7, 8, 9, 100].length + 2 ^ (c + 1 - q) ∧
      2 ^ (c + 1 - q) < 8 * [3, 4, 5, 6, 7, 8, 9, 100].length ∧
      e.bitSequence_.length < [3, 4, 5, 6, 7, 8, 9, 100].length * (9 + q) :=
  C19_encoded_length [3, 4, 5, 6, 7, 8, 9, 100] 100 (by decide) (by decide) (by decide)
    (by decide) (by decide)

/-- C15 (counterexample): on the empty stream the constructor returns no trie, so there
is none on which `frequencyCount` could return 0. -/
theorem C15_empty_corpus_builds_no_trie :
    ¬ ∃ heap t, Trie.new sampleEnv [] = some (heap, t) ∧
      t.frequencyCount heap sampleVocab ["the"] = some 0 := by
  rintro ⟨heap, t, h, _⟩
  simp [Trie.new] at h

/-- C15 (amended): an empty record stream is outside the domain of the constructor.  Its
first pass stores an empty record, and the second pass compares that record with an
empty line: the bound `context.first.size() - 1` wraps, and the first comparison reads
element 0 of two empty vectors, which is undefined, whatever the parameters; no trie is
returned. -/
theorem C15_empty_corpus_undefined (env : BuildEnv) :
    similarCountOf ([] : List String) [] = none ∧ similarCountAt env ([], 0) (some ([], 0)) = none ∧
      Trie.new env [] = none :=
  ⟨rfl, rfl, rfl⟩

theorem sortDescending_sorted (heap : Heap) (ptrs : List Nat) (hderef : AllDeref heap ptrs) :
    ∃ sorted, sortDescending heap ptrs = some sorted ∧ List.Perm sorted ptrs ∧
      (sorted.map (freqOf heap)).Pairwise (· ≥ ·) := by
  have hmap : ptrs.mapM (fun p => (heap.deref p).map fun n => (p, n.frequency_)) =
      some (ptrs.map fun p => (p, freqOf heap p)) := by
    apply mapM_option_eq
    intro p hp
    obtain ⟨n, hn⟩ := AllDeref.get heap ptrs hderef p hp
    simp [freqOf, hn]
  obtain ⟨sorted, hs, hperm⟩ := sortDescending_spec heap ptrs hderef
  refine ⟨sorted, hs, hperm, ?_⟩
  simp only [sortDescending, hmap, Option.bind_eq_bind, Option.some_bind,
    Option.some.injEq] at hs
  haveI : IsTotal (Nat × Nat) (fun a b => a.2 ≤ b.2) := ⟨fun a b => Nat.le_total a.2 b.2⟩
  haveI : IsTrans (Nat × Nat) (fun a b => a.2 ≤ b.2) := ⟨fun a b c h1 h2 => Nat.le_trans h1 h2⟩
  have hsorted := List.sorted_insertionSort (fun a b : Nat × Nat => a.2 ≤ b.2)
    (ptrs.map fun p => (p, freqOf heap p))
  have hmem : ∀ x, x ∈ List.insertionSort (fun a b : Nat × Nat => a.2 ≤ b.2)
      (ptrs.map fun p => (p, freqOf heap p)) → freqOf heap x.1 = x.2 := by
    intro x hx
    have := (List.perm_insertionSort _ _).subset hx
    obtain ⟨p, _, rfl⟩ := List.mem_map.mp this
    rfl
  rw [← hs, List.map_map, List.pairwise_map, List.pairwise_reverse]
  apply List.Pairwise.imp_of_mem ?_ hsorted
  intro a b ha hb hab
  simp only [Function.comp, hmem a ha, hmem b hb]
  exact hab

theorem mapM_range_getD (f : Nat → Option Nat) (l : List Nat) (n : Nat)
    (hn : n ≤ l.length) (hf : ∀ r, r < n → f r = some (l.getD r 0)) :
    (List.range n).mapM f = some (l.take n) := by
  rw [mapM_option_eq f (fun r => l.getD r 0) (List.range n)
    (fun r hr => hf r (List.mem_range.mp hr))]
  congr 1
  apply List.ext_getElem
  · simp [hn]
  · intro i h1 h2
    simp at h1
    simp [List.getElem?_eq_getElem (show i < l.length by omega)]

theorem SortedEF_ranks (heap : Heap) (nodes : List Nat) (hne : nodes ≠ [])
    (hst : Storable heap nodes) :
    ∃ s, SortedEF.new heap nodes = some s ∧ s.size_ = nodes.length ∧
      s.contents = some nodes ∧ ∀ i, i < nodes.length → s.getRank i = some (nodes.getD i 0) := by
  obtain ⟨s, hnew, hsize, _, hp⟩ := SortedEF_new_spec heap nodes hne hst
  refine ⟨s, hnew, hsize, ?_, ?_⟩
  · simp only [SortedEF.contents, hsize]
    rw [mapM_option_eq (decodeAt s.pointers_) (fun i => nodes.getD i 0) _
      (fun i hi => hp i (List.mem_range.mp hi)), map_getD_range]
  · intro i hi
    have hgt : ¬ i > s.size_ := by omega
    simp only [SortedEF.getRank, if_neg hgt]
    exact hp i hi

theorem Node.new_partition (heap : Heap) (g f k : Nat) (cs : List Nat) (hne : cs ≠ [])
    (hk1 : 1 ≤ k) (hst : Storable heap cs) :
    ∃ sorted n s, sortDescending heap cs = some sorted ∧ List.Perm sorted cs ∧
      (sorted.map (freqOf heap)).Pairwise (· ≥ ·) ∧
      Node.new heap g f k cs = some n ∧ n.gram_ = g ∧ n.frequency_ = f ∧ n.topK_ = some s ∧
      (k + 1 ≥ cs.length → s.size_ = cs.length ∧ s.contents = some sorted ∧
        (∀ i, i < cs.length → s.getRank i = some (sorted.getD i 0)) ∧ n.successors_ = none) ∧
      (¬ k + 1 ≥ cs.length → s.size_ = k ∧ s.contents = some (sorted.take k) ∧
        (∀ i, i < k → s.getRank i = some (sorted.getD i 0)) ∧
        ∃ h l, n.successors_ = some h ∧ h.size_ = cs.length - k ∧ h.contents = some l ∧
          List.Perm l (sorted.drop k)) := by
  obtain ⟨sorted, hsort, hperm, hdesc⟩ := sortDescending_sorted heap cs hst.1
  have hlen : sorted.length = cs.length := hperm.length_eq
  have hlen0 : cs.length ≠ 0 := by
    intro h
    exact hne (List.length_eq_zero.mp h)
  have hsst : Storable heap sorted := Storable.perm heap cs sorted hst hperm
  by_cases hk : k + 1 ≥ cs.length
  · have hsne : sorted ≠ [] := by
      intro h
      rw [h] at hlen
      exact hlen0 hlen.symm
    obtain ⟨s, hnew, hsize, hcont, hrank⟩ := SortedEF_ranks heap sorted hsne hsst
    have hk' : k + 1 ≥ sorted.length := by omega
    refine ⟨sorted, { gram_ := g, frequency_ := f, successors_ := none, topK_ := some s }, s,
      hsort, hperm, hdesc, ?_, rfl, rfl, rfl, ?_, fun h => absurd hk h⟩
    · simp only [Node.new, hlen0, if_false, hsort, Option.bind_eq_bind, Option.some_bind, hk',
        if_true, List.take_length, hnew]
    · intro _
      exact ⟨by omega, hcont, fun i hi => hrank i (by omega), rfl⟩
  · have htake : sorted.take k ≠ [] := by
      intro h
      have := congrArg List.length h
      rw [List.length_take, List.length_nil] at this
      omega
    have hdrop : sorted.drop k ≠ [] := by
      intro h
      have := congrArg List.length h
      rw [List.length_drop, List.length_nil] at this
      omega
    obtain ⟨s, hsnew, hssize, hscont, hsrank⟩ :=
      SortedEF_ranks heap (sorted.take k) htake (Storable.take heap sorted k hsst)
    obtain ⟨h, hhnew, hhsize, ⟨l, hhcont, hlperm⟩, _, _⟩ :=
      HashmapEF_lookup heap ⟨fun _ => 0, fun _ => ""⟩ (sorted.drop k) hdrop
        (Storable.drop heap sorted k hsst)
    have hk' : ¬ k + 1 ≥ sorted.length := by omega
    have htl : (sorted.take k).length = k := by
      rw [List.length_take]
      omega
    refine ⟨sorted, { gram_ := g, frequency_ := f, successors_ := some h, topK_ := some s }, s,
      hsort, hperm, hdesc, ?_, rfl, rfl, rfl, fun h => absurd h hk, ?_⟩
    · simp only [Node.new, hlen0, if_false, hsort, Option.bind_eq_bind, Option.some_bind, hk',
        hsnew, hhnew]
    · intro _
      refine ⟨by omega, hscont, ?_, h, l, rfl, ?_, hhcont, hlperm⟩
      · intro i hi
        rw [hsrank i (by omega), List.getD_eq_getElem?_getD, List.getD_eq_getElem?_getD,
          List.getElem?_take_of_lt hi]
      · rw [hhsize, List.length_drop]
        omega

theorem mapM_range_map {β : Type} (f : Nat → Option β) (g : Nat → β) (l : List Nat) (n : Nat)
    (hn : n ≤ l.length) (hf : ∀ r, r < n → f r = some (g (l.getD r 0))) :
    (List.range n).mapM f = some ((l.take n).map g) := by
  rw [mapM_option_eq f (fun r => g (l.getD r 0)) (List.range n)
    (fun r hr => hf r (List.mem_range.mp hr))]
  congr 1
  apply List.ext_getElem
  · simp [hn]
  · intro i h1 h2
    simp at h1
    simp [List.getElem?_eq_getElem (show i < l.length by omega)]

theorem take_min_length {α : Type} (l : List α) (num : Nat) :
    l.take (if l.length < num then l.length else num) = l.take num := by
  by_cases h : l.length < num
  · rw [if_pos h, List.take_length, List.take_of_length_le (by omega)]
  · rw [if_neg h]

theorem Node.mostLikely_eval (heap : Heap) (vocab : Vocab) (n : Node) (s : SortedEF)
    (top rest : List Nat) (htop : n.topK_ = some s) (hsize : s.size_ = top.length)
    (hrank : ∀ r, r < top.length → s.getRank r = some (top.getD r 0))
    (hrest : match n.successors_ with
      | none => rest = []
      | some h => h.size_ = rest.length ∧
          ∀ r, r < rest.length → h.getRank heap r = some (rest.getD r 0))
    (hderef : AllDeref heap (top ++ rest)) (num : Nat) :
    n.mostLikelyNodes heap num = some ((top ++ rest).take num) ∧
      n.mostLikelyNext heap vocab num =
        some (((top ++ rest).take num).map (fun p => vocab.vocabID2S (gramOf heap p))) := by
  have hword : ∀ p, p ∈ top ++ rest →
      (do some (vocab.vocabID2S (← heap.deref p).gram_) : Option String) =
        some (vocab.vocabID2S (gramOf heap p)) := by
    intro p hp
    obtain ⟨c, hc⟩ := AllDeref.get heap _ hderef p hp
    simp [hc, gramOf]
  have htopw : ∀ r, r < top.length →
      ((s.getRank r).bind fun p => (heap.deref p).bind fun c =>
        some (vocab.vocabID2S c.gram_)) =
        some (vocab.vocabID2S (gramOf heap (top.getD r 0))) := by
    intro r hr
    have hmem : top.getD r 0 ∈ top ++ rest := by
      rw [List.getD_eq_getElem _ _ hr]
      exact List.mem_append_left _ (List.getElem_mem hr)
    have := hword _ hmem
    simp only [hrank r hr, Option.bind_eq_bind, Option.some_bind] at this ⊢
    exact this
  rw [← take_min_length (top ++ rest) num]
  cases hs : n.successors_ with
  | none =>
    rw [hs] at hrest
    subst hrest
    simp only [List.append_nil] at hderef hword ⊢
    have hi : min (if top.length < num then top.length else num) top.length =
        (if top.length < num then top.length else num) := by
      split <;> omega
    have hle : (if top.length < num then top.length else num) ≤ top.length := by
      split <;> omega
    constructor
    · simp only [Node.mostLikelyNodes, htop, hs, Option.isNone_some, Bool.false_and,
        Bool.false_eq_true, if_false, Option.bind_eq_bind, Option.some_bind, hsize, hi, if_true]
      rw [mapM_range_getD _ top _ hle (fun r hr => hrank r (by omega))]
      rfl
    · simp only [Node.mostLikelyNext, htop, hs, Option.isNone_some, Bool.false_and,
        Bool.false_eq_true, if_false, Option.bind_eq_bind, Option.some_bind, hsize, hi, if_true]
      rw [mapM_range_map (fun r => (s.getRank r).bind fun p => (heap.deref p).bind fun c =>
          some (vocab.vocabID2S c.gram_)) (fun p => vocab.vocabID2S (gramOf heap p)) top _ hle
        (fun r hr => htopw r (by omega))]
      rfl
  | some h =>
    rw [hs] at hrest
    obtain ⟨hhsize, hhrank⟩ := hrest
    have hrestw : ∀ r, r < rest.length →
        ((h.getRank heap r).bind fun p => (heap.deref p).bind fun c =>
          some (vocab.vocabID2S c.gram_)) =
          some (vocab.vocabID2S (gramOf heap (rest.getD r 0))) := by
      intro r hr
      have hmem : rest.getD r 0 ∈ top ++ rest := by
        rw [List.getD_eq_getElem _ _ hr]
        exact List.mem_append_right _ (List.getElem_mem hr)
      have := hword _ hmem
      simp only [hhrank r hr, Option.bind_eq_bind, Option.some_bind] at this ⊢
      exact this
    rw [List.length_append]
    generalize hsz : (if top.length + rest.length < num then top.length + rest.length else num)
      = size
    have hszle : size ≤ top.length + rest.length := by
      rw [← hsz]
      split <;> omega
    by_cases hcase : size ≤ top.length
    · have hi : min size top.length = size := by omega
      have htk : (top ++ rest).take size = top.take size :=
        List.take_append_of_le_length hcase
      constructor
      · simp only [Node.mostLikelyNodes, htop, hs, Option.isNone_some, Bool.false_and,
          Bool.false_eq_true, if_false, Option.bind_eq_bind, Option.some_bind, hsize, hhsize, hsz,
          hi, if_true]
        rw [mapM_range_getD _ top _ hcase (fun r hr => hrank r (by omega)), htk]
        rfl
      · simp only [Node.mostLikelyNext, htop, hs, Option.isNone_some, Bool.false_and,
          Bool.false_eq_true, if_false, Option.bind_eq_bind, Option.some_bind, hsize, hhsize, hsz,
          hi, if_true]
        rw [mapM_range_map (fun r => (s.getRank r).bind fun p => (heap.deref p).bind fun c =>
          some (vocab.vocabID2S c.gram_)) (fun p => vocab.vocabID2S (gramOf heap p)) top _ hcase
          (fun r hr => htopw r (by omega)), htk]
        rfl
    · have hi : min size top.length = top.length := by omega
      have hne : ¬ top.length = size := by omega
      have hj : min (size - top.length) rest.length = size - top.length := by omega
      have htk : (top ++ rest).take size = top ++ rest.take (size - top.length) := by
        have : size = top.length + (size - top.length) := by omega
        conv_lhs => rw [this]
        exact List.take_append _
      have hpad : size - top.length - (size - top.length) = 0 := by omega
      constructor
      · simp only [Node.mostLikelyNodes, htop, hs, Option.isNone_some, Bool.false_and,
          Bool.false_eq_true, if_false, Option.bind_eq_bind, Option.some_bind, hsize, hhsize, hsz,
          hi, hne, hj]
        rw [mapM_range_getD _ top _ (le_refl _) (fun r hr => hrank r hr),
          Option.some_bind,
          mapM_range_getD _ rest _ (by omega) (fun r hr => hhrank r (by omega)),
          Option.some_bind, htk, List.take_length]
      · simp only [Node.mostLikelyNext, htop, hs, Option.isNone_some, Bool.false_and,
          Bool.false_eq_true, if_false, Option.bind_eq_bind, Option.some_bind, hsize, hhsize, hsz,
          hi, hne, hj, hpad]
        rw [mapM_range_map (fun r => (s.getRank r).bind fun p => (heap.deref p).bind fun c =>
          some (vocab.vocabID2S c.gram_)) (fun p => vocab.vocabID2S (gramOf heap p)) top _ (le_refl _)
            (fun r hr => htopw r hr),
          Option.some_bind,
          mapM_range_map (fun r => (h.getRank heap r).bind fun p => (heap.deref p).bind fun c =>
            some (vocab.vocabID2S c.gram_)) (fun p => vocab.vocabID2S (gramOf heap p)) rest _ (by omega)
            (fun r hr => hrestw r (by omega)),
          Option.some_bind, htk, List.take_length]
        simp

theorem HashmapEF_ranks (heap : Heap) (h : HashmapEF) (l : List Nat)
    (hcont : h.contents = some l) (hsize : h.size_ = l.length) (hderef : AllDeref heap l) :
    ∃ ranked, sortDescending heap l = some ranked ∧ List.Perm ranked l ∧
      (ranked.map (freqOf heap)).Pairwise (· ≥ ·) ∧
      ∀ r, r < ranked.length → h.getRank heap r = some (ranked.getD r 0) := by
  obtain ⟨ranked, hsort, hperm, hdesc⟩ := sortDescending_sorted heap l hderef
  refine ⟨ranked, hsort, hperm, hdesc, ?_⟩
  intro r hr
  have hlen : ranked.length = l.length := hperm.length_eq
  have hgt : ¬ r > h.size_ := by omega
  have hc : (List.range h.size_).mapM (decodeAt h.pointers_) = some l := hcont
  simp only [HashmapEF.getRank, if_neg hgt, hc, hsort, Option.bind_eq_bind, Option.some_bind]
  rw [List.getD_eq_getElem?_getD, List.getElem?_eq_getElem hr]
  rfl

theorem Node.mostLikely_spec (heap : Heap) (vocab : Vocab) (g f k : Nat) (cs : List Nat)
    (hk1 : 1 ≤ k) (hst : Storable heap cs) :
    ∃ n ranked, Node.new heap g f k cs = some n ∧ List.Perm ranked cs ∧
      (ranked.map (freqOf heap)).Pairwise (· ≥ ·) ∧
      ∀ num, n.mostLikelyNodes heap num = some (ranked.take num) ∧
        n.mostLikelyNext heap vocab num =
          some ((ranked.take num).map (fun p => vocab.vocabID2S (gramOf heap p))) := by
  by_cases hne : cs = []
  · subst hne
    refine ⟨_, [], Node.new_leaf heap g f k, List.Perm.refl _, List.Pairwise.nil, ?_⟩
    intro num
    simp [Node.mostLikelyNodes, Node.mostLikelyNext]
  · obtain ⟨sorted, n, s, _, hperm, hdesc, hnew, _, _, htop, hsmall, hlarge⟩ :=
      Node.new_partition heap g f k cs hne hk1 hst
    have hlen : sorted.length = cs.length := hperm.length_eq
    have hsderef : AllDeref heap sorted := (Storable.perm heap cs sorted hst hperm).1
    by_cases hk : k + 1 ≥ cs.length
    · obtain ⟨hsize, _, hrank, hnone⟩ := hsmall hk
      refine ⟨n, sorted, hnew, hperm, hdesc, ?_⟩
      intro num
      have := Node.mostLikely_eval heap vocab n s sorted [] htop (by omega)
        (fun r hr => hrank r (by omega)) (by rw [hnone]) (by simpa using hsderef) num
      simpa using this
    · obtain ⟨hsize, _, hrank, h, l, hsome, hhsize, hhcont, hlperm⟩ := hlarge hk
      have hllen : l.length = cs.length - k := by
        rw [hlperm.length_eq, List.length_drop]
        omega
      have hlderef : AllDeref heap l := fun p hp =>
        hsderef p (List.mem_of_mem_drop (hlperm.subset hp))
      obtain ⟨ranked, _, hrperm, hrdesc, hrrank⟩ :=
        HashmapEF_ranks heap h l hhcont (by omega) hlderef
      have htl : (sorted.take k).length = k := by
        rw [List.length_take]
        omega
      have hsplit : sorted.take k ++ sorted.drop k = sorted := List.take_append_drop k sorted
      have hdesc' := hdesc
      rw [← hsplit, List.map_append, List.pairwise_append] at hdesc'
      refine ⟨n, sorted.take k ++ ranked, hnew, ?_, ?_, ?_⟩
      · refine List.Perm.trans ?_ hperm
        conv_rhs => rw [← hsplit]
        exact List.Perm.append_left _ (hrperm.trans hlperm)
      · rw [List.map_append, List.pairwise_append]
        refine ⟨hdesc'.1, hrdesc, ?_⟩
        intro a ha b hb
        apply hdesc'.2.2 a ha b
        obtain ⟨p, hp, rfl⟩ := List.mem_map.mp hb
        exact List.mem_map_of_mem _ ((hrperm.trans hlperm).subset hp)
      · intro num
        apply Node.mostLikely_eval heap vocab n s (sorted.take k) ranked htop (by omega)
        · intro r hr
          rw [htl] at hr
          rw [hrank r hr, List.getD_eq_getElem?_getD, List.getD_eq_getElem?_getD,
            List.getElem?_take_of_lt hr]
        · rw [hsome]
          exact ⟨by rw [hrperm.length_eq]; omega, hrrank⟩
        · intro p hp
          rcases List.mem_append.mp hp with h1 | h1
          · exact hsderef p (List.mem_of_mem_take h1)
          · exact hlderef p (hrperm.subset h1)

/-- C11: for a node built by the constructor with `k ≥ 1` from storable children and for
every `num`, `mostLikelyNext(num)` returns the words of the nodes read by its two loops,
and the frequencies of these nodes are non-increasing along the result, within the
`topK_` part, within the `successors_` part and across the boundary between them. -/
theorem C11_mostLikelyNext_monotone (heap : Heap) (vocab : Vocab) (g f k : Nat)
    (cs : List Nat) (hk1 : 1 ≤ k) (hst : Storable heap cs) (num : Nat) :
    ∃ n ptrs, Node.new heap g f k cs = some n ∧ n.mostLikelyNodes heap num = some ptrs ∧
      n.mostLikelyNext heap vocab num =
        some (ptrs.map (fun p => vocab.vocabID2S (gramOf heap p))) ∧
      (ptrs.map (freqOf heap)).Pairwise (· ≥ ·) := by
  obtain ⟨n, ranked, hnew, _, hdesc, hall⟩ := Node.mostLikely_spec heap vocab g f k cs hk1 hst
  obtain ⟨h1, h2⟩ := hall num
  exact ⟨n, ranked.take num, hnew, h1, h2,
    hdesc.sublist ((List.take_sublist num ranked).map (freqOf heap))⟩

set_option maxRecDepth 100000 in
/-- C11 at a node over the four sample leaves with `k = 2`: two children in `topK_`,
two in `successors_`; the three most likely words have frequencies 9, 5 and 3. -/
theorem C11_mostLikelyNext_monotone_witness :
    (∃ n ptrs, Node.new sampleHeap 3 19 2 [16, 32, 48, 64] = some n ∧
      n.mostLikelyNodes sampleHeap 3 = some ptrs ∧
      n.mostLikelyNext sampleHeap sampleVocab 3 =
        some (ptrs.map (fun p => sampleVocab.vocabID2S (gramOf sampleHeap p))) ∧
      (ptrs.map (freqOf sampleHeap)).Pairwise (· ≥ ·)) ∧
    (Node.new sampleHeap 3 19 2 [16, 32, 48, 64]).bind
      (fun n => n.mostLikelyNodes sampleHeap 3) = some [64, 16, 32] :=
  ⟨C11_mostLikelyNext_monotone sampleHeap sampleVocab 3 19 2 [16, 32, 48, 64] (by decide)
    (by decide) 3, by decide⟩

/-- C12: for a node built by the constructor with `k ≥ 1` from the storable children
`cs` (none for a leaf) and for every `num`, `mostLikelyNext(num)` returns exactly
`min num cs.length` words, and these are the words of the first nodes of one
arrangement of the children in which every child occurs once. -/
theorem C12_mostLikelyNext_length (heap : Heap) (vocab : Vocab) (g f k : Nat)
    (cs : List Nat) (hk1 : 1 ≤ k) (hst : Storable heap cs) (num : Nat) :
    ∃ n ranked words, Node.new heap g f k cs = some n ∧ List.Perm ranked cs ∧
      n.mostLikelyNodes heap num = some (ranked.take num) ∧
      n.mostLikelyNext heap vocab num = some words ∧
      words = (ranked.take num).map (fun p => vocab.vocabID2S (gramOf heap p)) ∧
      words.length = min num cs.length := by
  obtain ⟨n, ranked, hnew, hperm, _, hall⟩ := Node.mostLikely_spec heap vocab g f k cs hk1 hst
  obtain ⟨h1, h2⟩ := hall num
  refine ⟨n, ranked, _, hnew, hperm, h1, h2, rfl, ?_⟩
  rw [List.length_map, List.length_take, hperm.length_eq]

set_option maxRecDepth 100000 in
/-- C12 at a node over the four sample leaves with `k = 2`: asked for 7 words, the node
returns its 4 children. -/
theorem C12_mostLikelyNext_length_witness :
    (∃ n ranked words, Node.new sampleHeap 3 19 2 [16, 32, 48, 64] = some n ∧
      List.Perm ranked [16, 32, 48, 64] ∧
      n.mostLikelyNodes sampleHeap 7 = some (ranked.take 7) ∧
      n.mostLikelyNext sampleHeap sampleVocab 7 = some words ∧
      words = (ranked.take 7).map (fun p => sampleVocab.vocabID2S (gramOf sampleHeap p)) ∧
      words.length = min 7 [16, 32, 48, 64].length) ∧
    (Node.new sampleHeap 3 19 2 [16, 32, 48, 64]).bind
      (fun n => n.mostLikelyNext sampleHeap sampleVocab 7) =
        some ["dog", "sat", "cat", "ran"] :=
  ⟨C12_mostLikelyNext_length sampleHeap sampleVocab 3 19 2 [16, 32, 48, 64] (by decide)
    (by decide) 7, by decide⟩

/-- C14: for `k ≥ 2` and a non-empty list `cs` of storable children, the constructor
sorts the children by decreasing frequency and returns a node with a `topK_` block.
When `k + 1 ≥ cs.length` that block holds all the sorted children and `successors_` is
null; otherwise it holds the first `k` sorted children and `successors_` holds the
remaining `cs.length - k ≥ 2` ones.  In both cases the two blocks together hold every
child exactly once.  A node built without children has neither block. -/
theorem C14_node_child_partition (heap : Heap) (g f k : Nat) (cs : List Nat) (hk : 2 ≤ k)
    (hne : cs ≠ []) (hst : Storable heap cs) :
    (∃ leaf, Node.new heap g f k [] = some leaf ∧ leaf.topK_ = none ∧
      leaf.successors_ = none) ∧
    ∃ sorted n s, sortDescending heap cs = some sorted ∧ List.Perm sorted cs ∧
      (sorted.map (freqOf heap)).Pairwise (· ≥ ·) ∧
      Node.new heap g f k cs = some n ∧ n.topK_ = some s ∧
      (k + 1 ≥ cs.length → s.contents = some sorted ∧ n.successors_ = none) ∧
      (¬ k + 1 ≥ cs.length → s.contents = some (sorted.take k) ∧
        ∃ h l, n.successors_ = some h ∧ h.contents = some l ∧
          List.Perm l (sorted.drop k) ∧ l.length = cs.length - k ∧ 2 ≤ cs.length - k) ∧
      ∃ all, n.children = some all ∧ List.Perm all cs := by
  refine ⟨⟨_, Node.new_leaf heap g f k, rfl, rfl⟩, ?_⟩
  obtain ⟨sorted, n, s, hsort, hperm, hdesc, hnew, _, _, htop, hsmall, hlarge⟩ :=
    Node.new_partition heap g f k cs hne (by omega) hst
  have hlen : sorted.length = cs.length := hperm.length_eq
  refine ⟨sorted, n, s, hsort, hperm, hdesc, hnew, htop, ?_, ?_, ?_⟩
  · intro h
    obtain ⟨_, hc, _, hn⟩ := hsmall h
    exact ⟨hc, hn⟩
  · intro h
    obtain ⟨_, hc, _, hh, l, hs, _, hhc, hlp⟩ := hlarge h
    refine ⟨hc, hh, l, hs, hhc, hlp, ?_, by omega⟩
    rw [hlp.length_eq, List.length_drop]
    omega
  · by_cases h : k + 1 ≥ cs.length
    · obtain ⟨_, hc, _, hn⟩ := hsmall h
      exact ⟨sorted, by simp only [Node.children, htop, hn, hc], hperm⟩
    · obtain ⟨_, hc, _, hh, l, hs, _, hhc, hlp⟩ := hlarge h
      refine ⟨sorted.take k ++ l, ?_, ?_⟩
      · simp only [Node.children, htop, hs, hc, hhc, Option.bind_eq_bind, Option.some_bind]
      · refine List.Perm.trans ?_ hperm
        conv_rhs => rw [← List.take_append_drop k sorted]
        exact List.Perm.append_left _ hlp

set_option maxRecDepth 100000 in
/-- C14 at the four sample leaves with `k = 2`: `topK_` holds the two most frequent
leaves and `successors_` the other two. -/
theorem C14_node_child_partition_witness :
    ((∃ leaf, Node.new sampleHeap 3 19 2 [] = some leaf ∧ leaf.topK_ = none ∧
      leaf.successors_ = none) ∧
    ∃ sorted n s, sortDescending sampleHeap [16, 32, 48, 64] = some sorted ∧
      List.Perm sorted [16, 32, 48, 64] ∧
      (sorted.map (freqOf sampleHeap)).Pairwise (· ≥ ·) ∧
      Node.new sampleHeap 3 19 2 [16, 32, 48, 64] = some n ∧ n.topK_ = some s ∧
      (2 + 1 ≥ [16, 32, 48, 64].length → s.contents = some sorted ∧ n.successors_ = none) ∧
      (¬ 2 + 1 ≥ [16, 32, 48, 64].length → s.contents = some (sorted.take 2) ∧
        ∃ h l, n.successors_ = some h ∧ h.contents = some l ∧
          List.Perm l (sorted.drop 2) ∧ l.length = [16, 32, 48, 64].length - 2 ∧
          2 ≤ [16, 32, 48, 64].length - 2) ∧
      ∃ all, n.children = some all ∧ List.Perm all [16, 32, 48, 64]) ∧
    (Node.new sampleHeap 3 19 2 [16, 32, 48, 64]).bind
      (fun n => n.topK_.bind SortedEF.contents) = some [64, 16] ∧
    (Node.new sampleHeap 3 19 2 [16, 32, 48, 64]).bind
      (fun n => n.successors_.bind HashmapEF.contents) = some [48, 32] :=
  ⟨C14_node_child_partition sampleHeap 3 19 2 [16, 32, 48, 64] (by decide) (by decide)
    (by decide), by decide, by decide⟩

theorem countWord_keys : ∀ (acc : List (String × Nat)) (w : String),
    (countWord acc w).map Prod.fst =
      if w ∈ acc.map Prod.fst then acc.map Prod.fst else acc.map Prod.fst ++ [w] := by
  intro acc
  induction acc with
  | nil => intro w; simp [countWord]
  | cons e rest ih =>
    intro w
    by_cases h : e.1 = w
    · simp [countWord, h]
    · have h' : ¬ w = e.1 := fun h2 => h h2.symm
      simp only [countWord, if_neg h, List.map_cons, ih w, List.mem_cons, h', false_or]
      split <;> simp

theorem countWord_mem : ∀ (acc : List (String × Nat)) (w : String),
    (acc.map Prod.fst).Nodup → ∀ e, e ∈ countWord acc w →
      (e.1 ≠ w ∧ e ∈ acc) ∨
        (e.1 = w ∧ ∃ c, e.2 = c + 1 ∧ ((w, c) ∈ acc ∨ (c = 0 ∧ w ∉ acc.map Prod.fst))) := by
  intro acc
  induction acc with
  | nil =>
    intro w _ e he
    simp only [countWord, List.mem_singleton] at he
    subst he
    exact Or.inr ⟨rfl, 0, rfl, Or.inr ⟨rfl, by simp⟩⟩
  | cons a rest ih =>
    intro w hnd e he
    rw [List.map_cons, List.nodup_cons] at hnd
    by_cases h : a.1 = w
    · simp only [countWord, if_pos h, List.mem_cons] at he
      rcases he with he | he
      · subst he
        refine Or.inr ⟨h, a.2, rfl, Or.inl ?_⟩
        rw [← h]
        exact List.mem_cons_self _ _
      · left
        refine ⟨?_, List.mem_cons_of_mem _ he⟩
        intro hew
        apply hnd.1
        rw [h, ← hew]
        exact List.mem_map_of_mem _ he
    · simp only [countWord, if_neg h, List.mem_cons] at he
      rcases he with he | he
      · subst he
        exact Or.inl ⟨h, List.mem_cons_self _ _⟩
      · rcases ih w hnd.2 e he with ⟨h1, h2⟩ | ⟨h1, c, hc, h2⟩
        · exact Or.inl ⟨h1, List.mem_cons_of_mem _ h2⟩
        · refine Or.inr ⟨h1, c, hc, ?_⟩
          rcases h2 with h2 | ⟨h2, h3⟩
          · exact Or.inl (List.mem_cons_of_mem _ h2)
          · refine Or.inr ⟨h2, ?_⟩
            simp only [List.map_cons, List.mem_cons, not_or]
            exact ⟨fun hh => h hh.symm, h3⟩

theorem countWords_spec (words : List String) :
    ((countWords words).map Prod.fst).Nodup ∧
      (∀ w, w ∈ (countWords words).map Prod.fst ↔ w ∈ words) ∧
      ∀ e, e ∈ countWords words → e.2 = words.count e.1 := by
  induction words using List.reverseRecOn with
  | nil => simp [countWords]
  | append_singleton ws w ih =>
    obtain ⟨hnd, hmem, hval⟩ := ih
    have hstep : countWords (ws ++ [w]) = countWord (countWords ws) w := by
      simp [countWords, List.foldl_append]
    rw [hstep]
    have hkeys := countWord_keys (countWords ws) w
    refine ⟨?_, ?_, ?_⟩
    · rw [hkeys]
      split
      · exact hnd
      · rename_i hw
        rw [List.nodup_append]
        refine ⟨hnd, by simp, ?_⟩
        intro a ha hb
        simp only [List.mem_singleton] at hb
        subst hb
        exact hw ha
    · intro x
      rw [hkeys]
      split
      · rename_i hw
        rw [hmem x, List.mem_append, List.mem_singleton]
        constructor
        · exact Or.inl
        · rintro (h | h)
          · exact h
          · subst h
            exact (hmem x).mp hw
      · rw [List.mem_append, List.mem_append, hmem x]
    · intro e he
      rw [List.count_append]
      rcases countWord_mem (countWords ws) w hnd e he with ⟨h1, h2⟩ | ⟨h1, c, hc, h2⟩
      · rw [hval e h2]
        have : List.count e.1 [w] = 0 := by
          rw [List.count_eq_zero]
          simp only [List.mem_singleton]
          exact h1
        omega
      · have h1c : List.count e.1 [w] = 1 := by simp [h1]
        rw [h1c, hc, h1]
        rcases h2 with h2 | ⟨h2, h3⟩
        · have := hval _ h2
          simp only at this
          omega
        · have hw : w ∉ ws := fun hin => h3 ((hmem w).mpr hin)
          rw [List.count_eq_zero.mpr hw, h2]

theorem assignLoop_spec : ∀ (sorted : List (String × Nat)) (i : Nat) (v : Vocab),
    (sorted.map Prod.fst).Nodup →
      (∀ idx e, sorted[idx]? = some e →
        (assignLoop sorted i v).vocabS2ID e.1 = 3 + i + idx ∧
          (assignLoop sorted i v).vocabID2S (3 + i + idx) = e.1) ∧
      (∀ w, w ∉ sorted.map Prod.fst →
        (assignLoop sorted i v).vocabS2ID w = v.vocabS2ID w) ∧
      (∀ id, id < 3 + i ∨ 3 + i + sorted.length ≤ id →
        (assignLoop sorted i v).vocabID2S id = v.vocabID2S id) := by
  intro sorted
  induction sorted with
  | nil =>
    intro i v _
    refine ⟨?_, ?_, ?_⟩
    · intro idx e h
      simp at h
    · intro w _
      rfl
    · intro id _
      rfl
  | cons a rest ih =>
    intro i v hnd
    rw [List.map_cons, List.nodup_cons] at hnd
    obtain ⟨h1, h2, h3⟩ := ih (i + 1)
      { vocabID2S := fun id => if id = 3 + i then a.1 else v.vocabID2S id,
        vocabS2ID := fun w => if w = a.1 then 3 + i else v.vocabS2ID w } hnd.2
    refine ⟨?_, ?_, ?_⟩
    · intro idx e h
      cases idx with
      | zero =>
        simp only [List.getElem?_cons_zero, Option.some.injEq] at h
        subst h
        simp only [assignLoop]
        rw [h2 a.1 hnd.1, h3 (3 + i + 0) (Or.inl (by omega))]
        simp
      | succ j =>
        simp only [List.getElem?_cons_succ] at h
        obtain ⟨h4, h5⟩ := h1 j e h
        simp only [assignLoop]
        have : 3 + i + (j + 1) = 3 + (i + 1) + j := by omega
        rw [this]
        exact ⟨h4, h5⟩
    · intro w hw
      simp only [List.map_cons, List.mem_cons, not_or] at hw
      simp only [assignLoop]
      rw [h2 w hw.2]
      simp [hw.1]
    · intro id hid
      simp only [assignLoop]
      rw [h3 id (by simp only [List.length_cons] at hid; omega)]
      have : id ≠ 3 + i := by
        simp only [List.length_cons] at hid
        omega
      simp [this]

theorem sortWords_spec (iterate : List (String × Nat) → List (String × Nat))
    (hiter : ∀ l, List.Perm (iterate l) l) (allWords : List (String × Nat)) :
    List.Perm (sortWords iterate allWords) allWords ∧
      (sortWords iterate allWords).Pairwise (fun a b => a.2 ≥ b.2) := by
  haveI : IsTotal (String × Nat) (fun a b => a.2 ≤ b.2) := ⟨fun a b => Nat.le_total a.2 b.2⟩
  haveI : IsTrans (String × Nat) (fun a b => a.2 ≤ b.2) :=
    ⟨fun a b c h1 h2 => Nat.le_trans h1 h2⟩
  refine ⟨?_, ?_⟩
  · exact ((List.reverse_perm _).trans (List.perm_insertionSort _ _)).trans (hiter allWords)
  · simp only [sortWords]
    rw [List.pairwise_reverse]
    exact List.sorted_insertionSort (fun a b : String × Nat => a.2 ≤ b.2) (iterate allWords)

theorem Vocab_new_spec (iterate : List (String × Nat) → List (String × Nat))
    (hiter : ∀ l, List.Perm (iterate l) l) (words : List String) :
    ∃ sorted : List (String × Nat), sorted.length = words.dedup.length ∧
      (∀ e, e ∈ sorted → e.1 ∈ words ∧ e.2 = words.count e.1) ∧
      (∀ w, w ∈ words → ∃ (idx : Nat) (e : String × Nat), sorted[idx]? = some e ∧ e.1 = w) ∧
      sorted.Pairwise (fun a b => a.2 ≥ b.2) ∧
      (∀ idx e, sorted[idx]? = some e →
        (Vocab.new iterate words).vocabS2ID e.1 = 3 + idx ∧
          (Vocab.new iterate words).vocabID2S (3 + idx) = e.1) ∧
      ∀ w, w ∉ words → (Vocab.new iterate words).vocabS2ID w = 0 := by
  obtain ⟨hnd, hmem, hval⟩ := countWords_spec words
  obtain ⟨hperm, hdesc⟩ := sortWords_spec iterate hiter (countWords words)
  have hkperm := hperm.map Prod.fst
  have hnd' : ((sortWords iterate (countWords words)).map Prod.fst).Nodup :=
    hkperm.nodup_iff.mpr hnd
  obtain ⟨h1, h2, _⟩ := assignLoop_spec (sortWords iterate (countWords words)) 0
    { vocabS2ID := fun _ => 0, vocabID2S := fun _ => "" } hnd'
  refine ⟨sortWords iterate (countWords words), ?_, ?_, ?_, hdesc, ?_, ?_⟩
  · have hp : List.Perm ((sortWords iterate (countWords words)).map Prod.fst) words.dedup := by
      rw [List.perm_ext_iff_of_nodup hnd' (List.nodup_dedup words)]
      intro a
      rw [hkperm.mem_iff, hmem a, List.mem_dedup]
    have := hp.length_eq
    rw [List.length_map] at this
    exact this
  · intro e he
    have he' := hperm.subset he
    exact ⟨(hmem e.1).mp (List.mem_map_of_mem _ he'), hval e he'⟩
  · intro w hw
    have hk : w ∈ (sortWords iterate (countWords words)).map Prod.fst :=
      hkperm.mem_iff.mpr ((hmem w).mpr hw)
    obtain ⟨e, he, hew⟩ := List.mem_map.mp hk
    obtain ⟨idx, hidx⟩ := List.mem_iff_getElem?.mp he
    exact ⟨idx, e, hidx, hew⟩
  · intro idx e h
    have := h1 idx e h
    simp only [Nat.add_zero] at this
    exact this
  · intro w hw
    have hk : w ∉ (sortWords iterate (countWords words)).map Prod.fst :=
      fun h => hw ((hmem w).mp (hkperm.mem_iff.mp h))
    exact h2 w hk

/-- C18: whatever the order in which the map of counts is traversed, the two maps built
by the constructor from the words read are inverse to each other on the words and on the
ids from 3 to `3 + V - 1`, where `V` is the number of distinct words: every word has an
id in that range, every id of that range is the id of a word, and a word that occurs
strictly more often than another has the strictly smaller id. -/
theorem C18_vocabulary_ids (iterate : List (String × Nat) → List (String × Nat))
    (hiter : ∀ l, List.Perm (iterate l) l) (words : List String) :
    (∀ w, w ∈ words →
      3 ≤ (Vocab.new iterate words).vocabS2ID w ∧
        (Vocab.new iterate words).vocabS2ID w < 3 + words.dedup.length ∧
        (Vocab.new iterate words).vocabID2S ((Vocab.new iterate words).vocabS2ID w) = w) ∧
    (∀ n, 3 ≤ n → n < 3 + words.dedup.length →
      (Vocab.new iterate words).vocabID2S n ∈ words ∧
        (Vocab.new iterate words).vocabS2ID ((Vocab.new iterate words).vocabID2S n) = n) ∧
    ∀ a b, a ∈ words → b ∈ words → words.count b < words.count a →
      (Vocab.new iterate words).vocabS2ID a < (Vocab.new iterate words).vocabS2ID b := by
  obtain ⟨sorted, hlen, hent, hidx, hdesc, hassign, _⟩ := Vocab_new_spec iterate hiter words
  refine ⟨?_, ?_, ?_⟩
  · intro w hw
    obtain ⟨idx, e, he, hew⟩ := hidx w hw
    obtain ⟨h1, h2⟩ := hassign idx e he
    obtain ⟨hlt, _⟩ := List.getElem?_eq_some.mp he
    rw [hew] at h1 h2
    rw [h1, h2]
    exact ⟨by omega, by omega, rfl⟩
  · intro id h3 hlt
    have hi : id - 3 < sorted.length := by omega
    obtain ⟨h1, h2⟩ := hassign (id - 3) sorted[id - 3] (List.getElem?_eq_getElem hi)
    have hid : 3 + (id - 3) = id := by omega
    rw [hid] at h1 h2
    rw [h2, h1]
    exact ⟨(hent _ (List.getElem_mem hi)).1, rfl⟩
  · intro a b ha hb hcount
    obtain ⟨ia, ea, hea, heaw⟩ := hidx a ha
    obtain ⟨ib, eb, heb, hebw⟩ := hidx b hb
    obtain ⟨h1, _⟩ := hassign ia ea hea
    obtain ⟨h2, _⟩ := hassign ib eb heb
    obtain ⟨hla, hga⟩ := List.getElem?_eq_some.mp hea
    obtain ⟨hlb, hgb⟩ := List.getElem?_eq_some.mp heb
    have hca := (hent ea (hga ▸ List.getElem_mem hla)).2
    have hcb := (hent eb (hgb ▸ List.getElem_mem hlb)).2
    rw [heaw] at h1 hca
    rw [hebw] at h2 hcb
    rw [h1, h2]
    by_contra hnot
    have hle : ib ≤ ia := by omega
    rcases Nat.eq_or_lt_of_le hle with heq | hlt
    · subst heq
      rw [hea] at heb
      cases heb
      omega
    · have := List.pairwise_iff_getElem.mp hdesc ib ia hlb hla hlt
      rw [hga, hgb] at this
      omega

/-- C18 at the words of the sample corpus, the map traversed in the order of insertion:
`the` occurs three times and gets id 3, the five ids are 3 to 7. -/
theorem C18_vocabulary_ids_witness :
    ((∀ w, w ∈ sampleWords →
      3 ≤ (Vocab.new id sampleWords).vocabS2ID w ∧
        (Vocab.new id sampleWords).vocabS2ID w < 3 + sampleWords.dedup.length ∧
        (Vocab.new id sampleWords).vocabID2S ((Vocab.new id sampleWords).vocabS2ID w) = w) ∧
    (∀ n, 3 ≤ n → n < 3 + sampleWords.dedup.length →
      (Vocab.new id sampleWords).vocabID2S n ∈ sampleWords ∧
        (Vocab.new id sampleWords).vocabS2ID ((Vocab.new id sampleWords).vocabID2S n) = n) ∧
    ∀ a b, a ∈ sampleWords → b ∈ sampleWords → sampleWords.count b < sampleWords.count a →
      (Vocab.new id sampleWords).vocabS2ID a < (Vocab.new id sampleWords).vocabS2ID b) ∧
    (Vocab.new id sampleWords).vocabS2ID "the" = 3 ∧ sampleWords.dedup.length = 5 ∧
    (Vocab.new id sampleWords).vocabID2S 7 = "ran" :=
  ⟨C18_vocabulary_ids id (fun l => List.Perm.refl l) sampleWords, by decide, by decide,
    by decide⟩

/-- C24: for a node built with `k ≥ 1` from more than `k + 1` storable children, the
`topK_` block holds `k` children in non-increasing order of frequency, and every child
of the `topK_` block has a frequency at least that of every child of the `successors_`
block. -/
theorem C24_topK_dominance (heap : Heap) (g f k : Nat) (cs : List Nat) (hk1 : 1 ≤ k)
    (hst : Storable heap cs) (hn : k + 1 < cs.length) :
    ∃ n s h top rest, Node.new heap g f k cs = some n ∧ n.topK_ = some s ∧
      n.successors_ = some h ∧ s.contents = some top ∧ h.contents = some rest ∧
      top.length = k ∧ (top.map (freqOf heap)).Pairwise (· ≥ ·) ∧
      ∀ a, a ∈ top → ∀ b, b ∈ rest → freqOf heap b ≤ freqOf heap a := by
  have hne : cs ≠ [] := by
    intro h
    rw [h] at hn
    simp at hn
  obtain ⟨sorted, n, s, _, hperm, hdesc, hnew, _, _, htop, _, hlarge⟩ :=
    Node.new_partition heap g f k cs hne hk1 hst
  obtain ⟨_, hc, _, h, l, hs, _, hhc, hlp⟩ := hlarge (by omega)
  have hlen : sorted.length = cs.length := hperm.length_eq
  have hdesc' := hdesc
  rw [← List.take_append_drop k sorted, List.map_append, List.pairwise_append] at hdesc'
  refine ⟨n, s, h, sorted.take k, l, hnew, htop, hs, hc, hhc, ?_, hdesc'.1, ?_⟩
  · rw [List.length_take]
    omega
  · intro a ha b hb
    exact hdesc'.2.2 _ (List.mem_map_of_mem _ ha) _ (List.mem_map_of_mem _ (hlp.subset hb))

set_option maxRecDepth 100000 in
/-- C24 at the four sample leaves with `k = 2`: `topK_` holds the leaves of frequency 9
and 5, `successors_` those of frequency 2 and 3. -/
theorem C24_topK_dominance_witness :
    (∃ n s h top rest, Node.new sampleHeap 3 19 2 [16, 32, 48, 64] = some n ∧
      n.topK_ = some s ∧ n.successors_ = some h ∧ s.contents = some top ∧
      h.contents = some rest ∧ top.length = 2 ∧
      (top.map (freqOf sampleHeap)).Pairwise (· ≥ ·) ∧
      ∀ a, a ∈ top → ∀ b, b ∈ rest → freqOf sampleHeap b ≤ freqOf sampleHeap a) ∧
    (Node.new sampleHeap 3 19 2 [16, 32, 48, 64]).bind
      (fun n => n.topK_.bind SortedEF.contents) = some [64, 16] :=
  ⟨C24_topK_dominance sampleHeap 3 19 2 [16, 32, 48, 64] (by decide) (by decide) (by decide),
    by decide⟩

/-- C25: for the `HashmapEF` built from a non-empty list of `N` storable nodes,
`getRank(0)`, ..., `getRank(N - 1)` return the entries of a list `ranked` that is a
permutation of the pointers stored in the block, each stored pointer once, and the
frequencies of the nodes are non-increasing along `ranked`. -/
theorem C25_hash_block_rank (heap : Heap) (nodes : List Nat) (hne : nodes ≠ [])
    (hst : Storable heap nodes) :
    ∃ h stored ranked, HashmapEF.new heap nodes = some h ∧ h.size_ = nodes.length ∧
      h.contents = some stored ∧ List.Perm stored nodes ∧ ranked.length = nodes.length ∧
      (∀ r, r < nodes.length → h.getRank heap r = some (ranked.getD r 0)) ∧
      List.Perm ranked stored ∧ (ranked.map (freqOf heap)).Pairwise (· ≥ ·) := by
  obtain ⟨h, hnew, hsize, ⟨l, hcont, hlperm⟩, _, _⟩ :=
    HashmapEF_lookup heap ⟨fun _ => 0, fun _ => ""⟩ nodes hne hst
  have hlderef : AllDeref heap l := fun p hp => hst.1 p (hlperm.subset hp)
  obtain ⟨ranked, _, hrperm, hrdesc, hrrank⟩ :=
    HashmapEF_ranks heap h l hcont (by rw [hsize, hlperm.length_eq]) hlderef
  have hrlen : ranked.length = nodes.length := by rw [hrperm.length_eq, hlperm.length_eq]
  exact ⟨h, l, ranked, hnew, hsize, hcont, hlperm, hrlen,
    fun r hr => hrrank r (by omega), hrperm, hrdesc⟩

set_option maxRecDepth 100000 in
/-- C25 at the four sample leaves: the ranks 0 to 3 are the leaves of frequency 9, 5, 3
and 2. -/
theorem C25_hash_block_rank_witness :
    (∃ h stored ranked, HashmapEF.new sampleHeap [16, 32, 48, 64] = some h ∧
      h.size_ = [16, 32, 48, 64].length ∧ h.contents = some stored ∧
      List.Perm stored [16, 32, 48, 64] ∧ ranked.length = [16, 32, 48, 64].length ∧
      (∀ r, r < [16, 32, 48, 64].length → h.getRank sampleHeap r = some (ranked.getD r 0)) ∧
      List.Perm ranked stored ∧ (ranked.map (freqOf sampleHeap)).Pairwise (· ≥ ·)) ∧
    (HashmapEF.new sampleHeap [16, 32, 48, 64]).bind
      (fun h => (List.range 4).mapM (fun r => h.getRank sampleHeap r)) = some [64, 16, 32, 48] :=
  ⟨C25_hash_block_rank sampleHeap [16, 32, 48, 64] (by decide) (by decide), by decide⟩

/-- C23: for a non-empty list of `N` existing nodes (gram ids and `N` at most `2 ^ 63`),
the insertion loop of the constructor ends with two tables of `N` slots in which no
slot of the gram table is empty, the grams stored are a permutation of the gram ids of
the nodes, the pointers stored are a permutation of the nodes, and the pointer at slot
`i` is a node whose gram id is the one stored at slot `i`. -/
theorem C23_hash_build_fills_table (heap : Heap) (nodes : List Nat) (hne : nodes ≠ [])
    (hderef : AllDeref heap nodes) (hgram : ∀ p, p ∈ nodes → gramOf heap p ≤ 2 ^ 63)
    (hlen : nodes.length ≤ 2 ^ 63) :
    ∃ gramSlots gramPointers gs,
      HashmapEF.fill heap nodes.length nodes
        (List.replicate nodes.length none, List.replicate nodes.length 0) =
          some (gramSlots, gramPointers) ∧
      gramSlots.length = nodes.length ∧ gramPointers.length = nodes.length ∧
      gramSlots.mapM id = some gs ∧ gs.length = nodes.length ∧
      List.Perm gs (nodes.map (gramOf heap)) ∧ List.Perm gramPointers nodes ∧
      List.Perm (List.zip gs gramPointers) (nodes.map (fun p => (gramOf heap p, p))) ∧
      ∀ i, i < nodes.length → gramOf heap (gramPointers.getD i 0) = gs.getD i 0 := by
  have hlenpos : 0 < nodes.length := List.length_pos.mpr hne
  obtain ⟨gsl, ptl, hfill, hl1, hl2, hperm⟩ := HashmapEF.fill_spec heap nodes.length hlenpos hlen
    nodes (List.replicate nodes.length none) (List.replicate nodes.length 0) (by simp) (by simp)
    hderef hgram (by rw [filledSlots_replicate]; simp)
  rw [filledSlots_replicate, List.nil_append] at hperm
  obtain ⟨gs, hgs, hgslen, hzip⟩ := filledSlots_full gsl ptl (by omega) (by
    rw [hperm.length_eq, List.length_map, hl1])
  rw [hzip] at hperm
  have hpperm : List.Perm ptl nodes := by
    have := hperm.map Prod.snd
    rw [List.map_snd_zip _ _ (by omega), List.map_map] at this
    have hid : (Prod.snd ∘ fun p => (gramOf heap p, p)) = id := rfl
    rw [hid, List.map_id] at this
    exact this
  have hgperm : List.Perm gs (nodes.map (gramOf heap)) := by
    have := hperm.map Prod.fst
    rw [List.map_fst_zip _ _ (by omega), List.map_map] at this
    exact this
  refine ⟨gsl, ptl, gs, hfill, hl1, hl2, hgs, by omega, hgperm, hpperm, hperm, ?_⟩
  intro i hi
  have hmem : (gs.getD i 0, ptl.getD i 0) ∈ List.zip gs ptl := by
    rw [List.getD_eq_getElem _ _ (by omega), List.getD_eq_getElem _ _ (by omega)]
    have hz : i < (List.zip gs ptl).length := by
      rw [List.length_zip]
      omega
    have := List.getElem_mem hz
    rw [List.getElem_zip] at this
    exact this
  obtain ⟨p, _, hp⟩ := List.mem_map.mp (hperm.subset hmem)
  simp only [Prod.mk.injEq] at hp
  rw [← hp.2, hp.1]

set_option maxRecDepth 100000 in
/-- C23 at the four sample leaves: gram ids 4, 5, 6, 7 modulo 4 fill the slots 0, 1, 2, 3. -/
theorem C23_hash_build_fills_table_witness :
    (∃ gramSlots gramPointers gs,
      HashmapEF.fill sampleHeap [16, 32, 48, 64].length [16, 32, 48, 64]
        (List.replicate [16, 32, 48, 64].length none,
          List.replicate [16, 32, 48, 64].length 0) = some (gramSlots, gramPointers) ∧
      gramSlots.length = [16, 32, 48, 64].length ∧
      gramPointers.length = [16, 32, 48, 64].length ∧
      gramSlots.mapM id = some gs ∧ gs.length = [16, 32, 48, 64].length ∧
      List.Perm gs ([16, 32, 48, 64].map (gramOf sampleHeap)) ∧
      List.Perm gramPointers [16, 32, 48, 64] ∧
      List.Perm (List.zip gs gramPointers)
        ([16, 32, 48, 64].map (fun p => (gramOf sampleHeap p, p))) ∧
      ∀ i, i < [16, 32, 48, 64].length →
        gramOf sampleHeap (gramPointers.getD i 0) = gs.getD i 0) ∧
    HashmapEF.fill sampleHeap 4 [16, 32, 48, 64]
      (List.replicate 4 none, List.replicate 4 0) =
        some ([some 4, some 5, some 6, some 7], [16, 32, 48, 64]) :=
  ⟨C23_hash_build_fills_table sampleHeap [16, 32, 48, 64] (by decide) (by decide) (by decide)
    (by decide), by decide⟩

theorem intermediateLoop_depths (env : BuildEnv) (c : Line) (s : Nat) (eof : Bool) :
    ∀ (js : List Nat) (st : BuildState), (∀ j, j ∈ js → j + 3 ≤ env.gramLen) →
      intermediateLoop env c s eof (js.map (· + 2)) st =
        ((js.map (fun j => env.gramLen - 2 - j)).filter
          (fun d => decide (s ≤ d) || eof)).foldlM
          (fun st d => intermediateCase env c (env.gramLen - d) st) st := by
  intro js
  induction js with
  | nil => intro st _; rfl
  | cons j rest ih =>
    intro st hj
    have hj3 := hj j (List.mem_cons_self _ _)
    have ih' := fun st' => ih st' (fun x hx => hj x (List.mem_cons_of_mem _ hx))
    have hi : env.gramLen - (env.gramLen - 2 - j) = j + 2 := by omega
    have hd : env.gramLen - (j + 2) = env.gramLen - 2 - j := by omega
    rw [List.map_cons, List.map_cons, List.filter_cons]
    simp only [intermediateLoop, hd]
    by_cases hcond : (decide (s ≤ env.gramLen - 2 - j) || eof) = true
    · rw [if_pos hcond, if_pos hcond, List.foldlM_cons, hi]
      cases intermediateCase env c (j + 2) st with
      | none => rfl
      | some st' =>
        simp only [Option.bind_eq_bind, Option.some_bind]
        exact ih' st'
    · rw [if_neg hcond, if_neg hcond]
      exact ih' st

set_option maxRecDepth 100000 in
/-- C26 (counterexample): with 4-grams, after `the cat sat ran` the record
`the cat dog ran` has `similarCount = 2`.  The pass emits a node at level 2, where
`s ≤ L - d - 1` fails (`2 ≤ 1`), and none at level 1, where it holds (`2 ≤ 2`): after the
pass the levels 0, 1, 2, 3 hold 0, 0, 1 and 0 pending nodes. -/
theorem C26_emission_at_level_two_not_one :
    similarCountAt sampleEnv4 (["the", "cat", "sat", "ran"], 5)
        (some (["the", "cat", "dog", "ran"], 3)) = some 2 ∧
      (transition sampleEnv4 (["the", "cat", "sat", "ran"], 5)
        (some (["the", "cat", "dog", "ran"], 3)) (initState sampleEnv4)).map
          (fun st => st.levelNodes.map List.length) = some [0, 0, 1, 0] ∧
      ¬ (2 ≤ sampleEnv4.gramLen - 2 - 1) ∧ 2 ≤ sampleEnv4.gramLen - 1 - 1 := by
  decide

/-- C26 (amended): for a gram length of at least 3, the loop of lines 99-110 goes through
the depths `d = L - 2` down to 1 and runs the intermediate case for depth `d` exactly
when `similarCount ≤ d` or the input is at its end.  On a state of the build that case
allocates a node whose gram id is that of word `d` of the previous record, whose
frequency is `levelCounts[d]` and whose children are the nodes of `levelNodes[d + 1]`,
and pushes it on `levelNodes[d]`. -/
theorem C26_intermediate_emission (env : BuildEnv) (M T : Nat) (c : Line) (s : Nat)
    (eof : Bool) (st : BuildState) (hL : 3 ≤ env.gramLen) (hg : Good env M T st)
    (ha : AddrOK env M) (hM : st.heap.length ≤ M) (hL64 : env.gramLen < 2 ^ bits)
    (hc : c.1.length = env.gramLen) (hk : 1 ≤ env.k) (hT : T < 2 ^ 31) :
    intermediateLoop env c s eof ((List.range (env.gramLen - 2)).map (· + 2)) st =
        (((List.range (env.gramLen - 2)).map (fun j => env.gramLen - 2 - j)).filter
          (fun d => decide (s ≤ d) || eof)).foldlM
          (fun st d => intermediateCase env c (env.gramLen - d) st) st ∧
      ∀ d, 1 ≤ d → d + 2 ≤ env.gramLen →
        ∃ node, intermediateCase env c (env.gramLen - d) st =
            some (emitState env d (st.levelCounts.getD d 0) node st) ∧
          node.gram_ = idAt env c d ∧ node.frequency_ = st.levelCounts.getD d 0 ∧
          ∃ l, node.children = some l ∧ List.Perm l (st.levelNodes.getD (d + 1) []) := by
  refine ⟨?_, ?_⟩
  · apply intermediateLoop_depths
    intro j hj
    have := List.mem_range.mp hj
    omega
  · intro d hd1 hd2
    obtain ⟨node, h1, h2, h3, h4, _⟩ :=
      intermediateCase_spec env M T st hg ha hM c hL64 hc hk hT d hd1 hd2
    exact ⟨node, h1, h2, h3, h4⟩

set_option maxRecDepth 100000 in
/-- C26 (amended) at the start of a build of 4-grams, with `similarCount = 2`. -/
theorem C26_intermediate_emission_witness :
    (intermediateLoop sampleEnv4 (["the", "cat", "sat", "ran"], 5) 2 false
        ((List.range (sampleEnv4.gramLen - 2)).map (· + 2)) (initState sampleEnv4) =
        (((List.range (sampleEnv4.gramLen - 2)).map
          (fun j => sampleEnv4.gramLen - 2 - j)).filter
          (fun d => decide (2 ≤ d) || false)).foldlM
          (fun st d => intermediateCase sampleEnv4 (["the", "cat", "sat", "ran"], 5)
            (sampleEnv4.gramLen - d) st) (initState sampleEnv4) ∧
      ∀ d, 1 ≤ d → d + 2 ≤ sampleEnv4.gramLen →
        ∃ node, intermediateCase sampleEnv4 (["the", "cat", "sat", "ran"], 5)
            (sampleEnv4.gramLen - d) (initState sampleEnv4) =
            some (emitState sampleEnv4 d ((initState sampleEnv4).levelCounts.getD d 0) node
              (initState sampleEnv4)) ∧
          node.gram_ = idAt sampleEnv4 (["the", "cat", "sat", "ran"], 5) d ∧
          node.frequency_ = (initState sampleEnv4).levelCounts.getD d 0 ∧
          ∃ l, node.children = some l ∧
            List.Perm l ((initState sampleEnv4).levelNodes.getD (d + 1) [])) ∧
    ((List.range (sampleEnv4.gramLen - 2)).map (fun j => sampleEnv4.gramLen - 2 - j)).filter
      (fun d => decide (2 ≤ d) || false) = [2] :=
  ⟨C26_intermediate_emission sampleEnv4 8 0 (["the", "cat", "sat", "ran"], 5) 2 false
    (initState sampleEnv4) (by decide) (Good.init sampleEnv4 8) (by decide) (by decide)
    (by decide) (by decide) (by decide) (by decide), by decide⟩

theorem upperRegion_count : ∀ cs : List Nat,
    (upperRegion cs).count false = cs.length ∧ (upperRegion cs).count true = cs.sum := by
  intro cs
  induction cs with
  | nil => exact ⟨rfl, rfl⟩
  | cons c t ih =>
    rw [upperRegion_cons]
    simp only [List.count_cons, List.count_append, List.count_replicate, ih.1, ih.2,
      List.length_cons, List.sum_cons]
    simp

set_option maxRecDepth 100000 in
/-- C21 (counterexample): for `[3, 2 ^ 49 + 1]` the exact ceilings are
`ceil(log2 U) = 50` and `ceil(log2 (U / N)) = 48`, which give `m = 51` and
`2 * 48 + 2 + 2 ^ 3 = 106` bits; the constructor computes the logarithm in double
precision, gets `maxBits_ = 50` and builds 102 bits. -/
theorem C21_layout_differs_above_two_pow_49 :
    exactCeilLog2 (2 ^ 49 + 1) = some 50 ∧
      exactCeilLog2 ((2 ^ 49 + 1) / [3, 2 ^ 49 + 1].length) = some 48 ∧
      (Encoder.new [3, 2 ^ 49 + 1]).map (fun e => (e.maxBits_, e.lowerBitNum_,
        e.bitSequence_.length)) = some (50, 48, 102) ∧
      ¬ (50 = 50 + 1 ∧ 102 = [3, 2 ^ 49 + 1].length * 48 + [3, 2 ^ 49 + 1].length +
        2 ^ (50 + 1 - 48)) := by
  decide

/-- C21 (amended): for a non-decreasing sequence of `N ≥ 2` elements whose last element
`U` is at least `N` and at most `2 ^ 63`, with `c` and `q` the values that the
constructor computes in double precision for `ceil(log2 U)` and `ceil(log2 (U / N))`,
`maxBits_ = c + 1` and `lowerBitNum_ = q`: the bit sequence is a lower region of `N * q`
bits, in which bit `j` of element `i` sits at offset `(N - 1 - i) * q + j`, followed by
an upper region in which bucket `b` contributes a 0 followed by as many 1s as there are
elements with upper part `b`; the upper region holds `2 ^ (c + 1 - q)` zeros and `N`
ones, and the whole sequence `N * q + N + 2 ^ (c + 1 - q)` bits.  For `U ≤ 2 ^ 49` the
two values are the exact ceilings. -/
theorem C21_bit_layout (sequence : List Nat) (U : Nat) (hsorted : sequence.Pairwise (· ≤ ·))
    (hN : 2 ≤ sequence.length) (hlast : sequence.getLast? = some U)
    (hUN : sequence.length ≤ U) (hU : U ≤ 2 ^ 63) :
    ∃ e c q out, Encoder.new sequence = some e ∧ ceilLog2 U = some c ∧
      ceilLog2 (U / sequence.length) = some q ∧ e.maxBits_ = c + 1 ∧ e.lowerBitNum_ = q ∧
      e.bitSequence_ = lowerRegion sequence sequence.length q ++ upperRegion out ∧
      (lowerRegion sequence sequence.length q).length = sequence.length * q ∧
      (∀ i j, i < sequence.length → j < q →
        e.bitSequence_[(sequence.length - 1 - i) * q + j]? =
          some ((sequence.getD i 0).testBit j)) ∧
      out.length = 2 ^ (c + 1 - q) ∧
      (∀ b, out.getD b 0 = (sequence.map (fun v => v / 2 ^ q)).count b) ∧
      (upperRegion out).count false = 2 ^ (c + 1 - q) ∧
      (upperRegion out).count true = sequence.length ∧
      e.bitSequence_.length = sequence.length * q + sequence.length + 2 ^ (c + 1 - q) ∧
      (U ≤ 2 ^ 49 →
        exactCeilLog2 U = some c ∧ exactCeilLog2 (U / sequence.length) = some q) := by
  obtain ⟨c, q, out, hc, hq, _, _, hnew, houtlen, houtsum, hcount⟩ :=
    Encoder.new_layout sequence U hlast (by omega) hUN hU
      (sorted_fits sequence U hsorted hlast hU)
  obtain ⟨hzero, hone⟩ := upperRegion_count out
  refine ⟨_, c, q, out, hnew, hc, hq, rfl, rfl, rfl, lowerRegion_length _ _ _, ?_, houtlen,
    hcount, by rw [hzero, houtlen], by rw [hone, houtsum], ?_, ?_⟩
  · intro i j hi hj
    show (lowerRegion sequence sequence.length q ++ upperRegion out)[
      (sequence.length - 1 - i) * q + j]? = some ((sequence.getD i 0).testBit j)
    rw [lowerRegion_getElem sequence sequence.length q _ _ j (by omega) hj]
    have : sequence.length - (sequence.length - 1 - i) - 1 = i := by omega
    rw [this]
  · show (lowerRegion sequence sequence.length q ++ upperRegion out).length = _
    rw [List.length_append, lowerRegion_length, upperRegion_length, houtlen, houtsum]
    omega
  · intro hU49
    exact ⟨(ceilLog2_exact U c hU49 hc).1,
      (ceilLog2_exact (U / sequence.length) q (le_trans (Nat.div_le_self _ _) hU49) hq).1⟩

set_option maxRecDepth 100000 in
/-- C21 (amended) at `[3, 7, 7, 9, 13]`: `maxBits_ = 5`, one lower bit per element,
16 buckets, 26 bits. -/
theorem C21_bit_layout_witness :
    (∃ e c q out, Encoder.new [3, 7, 7, 9, 13] = some e ∧ ceilLog2 13 = some c ∧
      ceilLog2 (13 / [3, 7, 7, 9, 13].length) = some q ∧ e.maxBits_ = c + 1 ∧
      e.lowerBitNum_ = q ∧
      e.bitSequence_ =
        lowerRegion [3, 7, 7, 9, 13] [3, 7, 7, 9, 13].length q ++ upperRegion out ∧
      (lowerRegion [3, 7, 7, 9, 13] [3, 7, 7, 9, 13].length q).length =
        [3, 7, 7, 9, 13].length * q ∧
      (∀ i j, i < [3, 7, 7, 9, 13].length → j < q →
        e.bitSequence_[([3, 7, 7, 9, 13].length - 1 - i) * q + j]? =
          some (([3, 7, 7, 9, 13].getD i 0).testBit j)) ∧
      out.length = 2 ^ (c + 1 - q) ∧
      (∀ b, out.getD b 0 = ([3, 7, 7, 9, 13].map (fun v => v / 2 ^ q)).count b) ∧
      (upperRegion out).count false = 2 ^ (c + 1 - q) ∧
      (upperRegion out).count true = [3, 7, 7, 9, 13].length ∧
      e.bitSequence_.length =
        [3, 7, 7, 9, 13].length * q + [3, 7, 7, 9, 13].length + 2 ^ (c + 1 - q) ∧
      (13 ≤ 2 ^ 49 →
        exactCeilLog2 13 = some c ∧
          exactCeilLog2 (13 / [3, 7, 7, 9, 13].length) = some q)) ∧
    (Encoder.new [3, 7, 7, 9, 13]).map (fun e => (e.maxBits_, e.lowerBitNum_,
      e.bitSequence_.length)) = some (5, 1, 26) :=
  ⟨C21_bit_layout [3, 7, 7, 9, 13] 13 (by decide) (by decide) (by decide) (by decide)
    (by decide), by decide⟩

end NGram
